import Mathlib

/-!
# RS32 decoder (`decoder_RS32.hpp`): embedding and verified properties

The two packet decoders of `DecoderRS32` are embedded as pure functions on an
explicit decoder state.  C++ `int` values are `Int`, an unsigned wire field of
`w` bits is a `Fin (2 ^ w)`, and floating-point values are exact dyadic
numbers rounded to the IEEE-754 format of the C++ expression (round to
nearest, ties to even, each operation rounded to the type of its operands).
-/

namespace RS32

/-! ## Floating point -/

/-- An IEEE-754 binary format: significand precision in bits, exponent of the
smallest subnormal, and largest exponent of the last significand bit. -/
structure Fmt where
  prec : Nat
  emin : Int
  emax : Int
deriving DecidableEq, Repr

/-- C++ `float`. -/
def binary32 : Fmt := ⟨24, -149, 104⟩

/-- C++ `double`. -/
def binary64 : Fmt := ⟨53, -1074, 971⟩

/-- A floating-point value: not-a-number, an infinity, or the finite number
`num * 2^exp`.  The sign of zero is not represented. -/
inductive FP where
  | nan : FP
  | inf (neg : Bool) : FP
  | fin (num : Int) (exp : Int) : FP
deriving DecidableEq, Repr

namespace FP

/-- Counts the binary digits of `m` by repeated halving, at most `fuel` times. -/
def bitsAux : Nat → Nat → Nat
  | 0, _ => 0
  | fuel + 1, m => if m = 0 then 0 else bitsAux fuel (m / 2) + 1

/-- Number of binary digits of a natural number. -/
def bits (m : Nat) : Nat := bitsAux m m

/-- The integer `m / 2^sh` rounded to nearest, ties to even; `sticky` tells
that the exact value lies above `m`, by less than one unit of `m`. -/
def roundQuot (m sh : Nat) (sticky : Bool) : Nat :=
  let q : Nat := m / 2 ^ sh
  let r : Nat := m % 2 ^ sh
  let half : Nat := 2 ^ (sh - 1)
  if decide (half < r) || (decide (r = half) && (sticky || decide (q % 2 = 1))) then q + 1
  else q

/-- The integer `m` with the sign `neg`. -/
def signed (neg : Bool) (m : Nat) : Int := if neg then -(m : Int) else (m : Int)

/-- Rounds the magnitude `m * 2^e` (plus a nonzero amount below one unit of
`m` when `sticky` is set) to format `f`, to nearest with ties to even, and
attaches the sign.  A magnitude that fits the precision is kept as it is; a
result beyond the largest finite value of the format is an infinity. -/
def round (f : Fmt) (neg : Bool) (m : Nat) (e : Int) (sticky : Bool) : FP :=
  let e1 : Int := max (e + (bits m : Int) - (f.prec : Int)) f.emin
  if e1 ≤ e then
    if m ≠ 0 ∧ f.emax < e1 then inf neg else fin (signed neg m) e
  else
    let q1 : Nat := roundQuot m (e1 - e).toNat sticky
    if f.emax < e1 ∨ (e1 = f.emax ∧ q1 = 2 ^ f.prec) then inf neg
    else fin (signed neg q1) e1

/-- Rounds a value to format `f` (a conversion between floating types). -/
def cast (f : Fmt) : FP → FP
  | nan => nan
  | inf s => inf s
  | fin n e => round f (decide (n < 0)) n.natAbs e false

/-- Conversion of an integer to format `f`. -/
def ofInt (f : Fmt) (n : Int) : FP := round f (decide (n < 0)) n.natAbs 0 false

/-- Numerator of a finite value once brought to exponent `e` (`e` at most the
value's own exponent). -/
def scaled (n : Int) (ex e : Int) : Int := n * 2 ^ (ex - e).toNat

/-- Multiplication in format `f`. -/
def mul (f : Fmt) : FP → FP → FP
  | nan, _ => nan
  | _, nan => nan
  | inf s, inf t => inf (s != t)
  | inf s, fin n _ => if n = 0 then nan else inf (s != decide (n < 0))
  | fin n _, inf t => if n = 0 then nan else inf (decide (n < 0) != t)
  | fin a ea, fin b eb => round f (decide (a * b < 0)) (a * b).natAbs (ea + eb) false

/-- Addition in format `f`. -/
def add (f : Fmt) : FP → FP → FP
  | nan, _ => nan
  | _, nan => nan
  | inf s, inf t => if s = t then inf s else nan
  | inf s, fin _ _ => inf s
  | fin _ _, inf t => inf t
  | fin a ea, fin b eb =>
    let e := min ea eb
    let s := scaled a ea e + scaled b eb e
    round f (decide (s < 0)) s.natAbs e false

/-- Negation. -/
def neg : FP → FP
  | nan => nan
  | inf s => inf (!s)
  | fin n e => fin (-n) e

/-- Subtraction in format `f`. -/
def sub (f : Fmt) (a b : FP) : FP := add f a (neg b)

/-- Division in format `f`.  The quotient is developed to `prec + 2`
significant bits with a sticky bit for the remainder, then rounded.  The
quotient of a finite value by zero is an infinity whose sign is that of the
dividend, since the sign of zero is not represented. -/
def div (f : Fmt) : FP → FP → FP
  | nan, _ => nan
  | _, nan => nan
  | inf _, inf _ => nan
  | inf s, fin n _ => inf (s != decide (n < 0))
  | fin _ _, inf _ => fin 0 0
  | fin a ea, fin b eb =>
    if b = 0 then (if a = 0 then nan else inf (decide (a < 0)))
    else
      let k : Nat := f.prec + 2 + bits b.natAbs
      let num : Nat := a.natAbs * 2 ^ k
      round f (decide (a < 0) != decide (b < 0)) (num / b.natAbs) (ea - eb - (k : Int))
        (decide (num % b.natAbs ≠ 0))

/-- The comparison `a <= b` of C++: false when either side is not-a-number. -/
def le : FP → FP → Bool
  | nan, _ => false
  | _, nan => false
  | inf s, inf t => s || !t
  | inf s, fin _ _ => s
  | fin _ _, inf t => !t
  | fin a ea, fin b eb => decide (scaled a ea (min ea eb) ≤ scaled b eb (min ea eb))

/-- The comparison `a < b` of C++: false when either side is not-a-number. -/
def lt : FP → FP → Bool
  | nan, _ => false
  | _, nan => false
  | inf s, inf t => s && !t
  | inf s, fin _ _ => s
  | fin _ _, inf t => !t
  | fin a ea, fin b eb => decide (scaled a ea (min ea eb) < scaled b eb (min ea eb))

/-- The `std::isnan` test. -/
def isnan : FP → Bool
  | nan => true
  | _ => false

/-- Conversion to `int`: truncation toward zero.  The conversion of a
not-a-number or an infinity, undefined in C++, is given the value `INT_MIN`
that the x86 conversion instruction returns; a finite value beyond the range
of `int`, undefined as well, is truncated like any other. -/
def toInt : FP → Int
  | nan => -2147483648
  | inf _ => -2147483648
  | fin n e => if 0 ≤ e then n * 2 ^ e.toNat else Int.tdiv n (2 ^ (-e).toNat)

/-- The wider of two floating types: the type in which C++ evaluates a binary
operation on operands of these two types. -/
def wider (a b : Fmt) : Fmt := if a.prec ≤ b.prec then b else a

end FP

/-! ## Constants of `decoder_RS32.hpp` -/

def RS32_CHANNELS_PER_BLOCK : Nat := 32
def RS32_BLOCKS_PER_PKT : Nat := 12
def RS32_MSOP_ID : Nat := 0xA050A55A0A05AA55
def RS32_BLOCK_ID : Nat := 0xEEFF
def RS32_DIFOP_ID : Nat := 0x555511115A00FFA5
def RS32_CHANNEL_TOFFSET : Int := 3
def RS32_FIRING_TDURATION : Int := 50
def RS32_PKT_RATE : Nat := 1500

/-! ## Wire structures

A packet is the packed structure the source casts the byte buffer to.  Each
multi-byte field holds the value the little-endian host reads; the source
swaps the bytes of the big-endian fields itself with `RS_SWAP_SHORT`. -/

/-- Value of a byte sequence read as a little-endian unsigned integer. -/
def leValue : List (Fin 256) → Nat
  | [] => 0
  | b :: bs => b.val + 256 * leValue bs

/-- Modelled from the spec: the macro `RS_SWAP_SHORT` of the base header, which
is not among the sources.  The 16-bit fields are "big-endian on the wire", so
the macro exchanges the two bytes of the value the host has read. -/
def RS_SWAP_SHORT (x : Fin 65536) : Nat := (x.val % 256) * 256 + x.val / 256

/-- Modelled from the spec: the macro `RS_RESOLUTION` of the base header, the
"resolution constant of 0.005 m/unit", as the C++ literal `0.005` (a
`double`). -/
def RS_RESOLUTION : FP := FP.div binary64 (FP.fin 5 0) (FP.fin 1000 0)

/-- The fields of `RSTimestamp` (base header) that `getLidarTime` reads. -/
structure RSTimestamp where
  year : Fin 256
  month : Fin 256
  day : Fin 256
  hour : Fin 256
  minute : Fin 256
  second : Fin 256
  ms : Fin 65536
  us : Fin 65536

/-- The fields of `RSMsopHeader` (base header) that the decoder reads. -/
structure RSMsopHeader where
  id : Fin (2 ^ 64)
  timestamp : RSTimestamp
  temp_raw : Fin 65536

/-- The structure `RSChannel` of the base header: range and intensity of one beam. -/
structure RSChannel where
  distance : Fin 65536
  intensity : Fin 256

structure RS32MsopBlock where
  id : Fin 65536
  azimuth : Fin 65536
  channels : Fin 32 → RSChannel

structure RS32MsopPkt where
  header : RSMsopHeader
  blocks : Fin 12 → RS32MsopBlock
  index : Fin (2 ^ 32)
  tail : Fin 65536

/-- The fields of `RS32DifopPkt` that `decodeDifopPkt` reads; the others
(network, field of view, versions, status, ...) take no part in decoding. -/
structure RS32DifopPkt where
  id : Fin (2 ^ 64)
  rpm : Fin 65536
  return_mode : Fin 256
  pitch_cali : Fin 96 → Fin 256
  yaw_cali : Fin 96 → Fin 256

/-! ## Decoder state and external collaborators -/

/-- The members of `DecoderBase` (base header) that `DecoderRS32` reads or
writes, with the types their uses in `decoder_RS32.hpp` show.  The rotation
speed `rpm_` is an integer: the spec counts "a division-by-zero when
computing packets-per-frame" among the effects of a rotation speed of zero. -/
structure DecoderBase where
  Rx_ : FP
  Ry_ : FP
  Rz_ : FP
  beam_num_ : Int
  max_distance_ : FP
  min_distance_ : FP
  current_temperature_ : FP
  trigger_flag_ : Bool
  use_lidar_clock_ : Bool
  echo_mode_ : Nat
  /-- Modelled from the spec: the type of `rpm_` is declared in the base header,
  which is not among the sources.  It is an integer type, a rotation speed of
  zero causing "a division-by-zero when computing packets-per-frame". -/
  rpm_ : Nat
  pkts_per_frame_ : Nat
  difop_flag_ : Bool
  angle_flag_ : Bool
  start_angle_ : Int
  end_angle_ : Int
  vert_angle_list_ : Nat → FP
  hori_angle_list_ : Nat → FP
  cos_lookup_table_ : Int → FP
  sin_lookup_table_ : Int → FP

/-- The argument of `std::mktime`: the fields of `std::tm` the source sets. -/
structure Tm where
  tm_year : Int
  tm_mon : Int
  tm_mday : Int
  tm_hour : Int
  tm_min : Int
  tm_sec : Int

/-- What the decoder takes from outside this file: the constants, types and
helper functions of the base header, the C library and the host clock. -/
structure External where
  /-- The enumerator `RSDecoderResult::DECODE_FAIL`. -/
  DECODE_FAIL : Int
  /-- The enumerator `ECHO_DUAL`. -/
  ECHO_DUAL : Nat
  /-- Floating type of the members `Rx_`, `Ry_`, `Rz_`. -/
  memberFmt : Fmt
  /-- Floating type of the entries of the sine and cosine tables. -/
  tableFmt : Fmt
  /-- Floating type of the fields of the point type `T_Point`. -/
  pointFmt : Fmt
  computeTemperature : Fin 65536 → FP
  azimuthCalibration : DecoderBase → FP → Int → Int
  mktime : Tm → Int
  /-- The value `getTime()` returns when it is called. -/
  getTime : FP

/-- A point of the output cloud (`T_Point` without the `RS_POINT_COMPLEX` fields). -/
structure Point where
  x : FP
  y : FP
  z : FP
  intensity : FP
deriving DecidableEq, Repr

/-- Failure of a call that does not return: an integer division by zero,
with the decoder as the assignments before the division have left it. -/
inductive Fault where
  | divisionByZero (self : DecoderBase) : Fault

/-! ## `DecoderRS32::DecoderRS32` -/

/-- The body of the constructor, run on the state the base constructor built. -/
def DecoderRS32 (ext : External) (base : DecoderBase) : DecoderBase :=
  let s1 : DecoderBase :=
    { base with
      Rx_ := FP.cast ext.memberFmt (FP.div binary64 (FP.fin 3997 0) (FP.fin 100000 0))
      Ry_ := FP.cast ext.memberFmt (FP.neg (FP.div binary64 (FP.fin 1087 0) (FP.fin 100000 0)))
      Rz_ := FP.ofInt ext.memberFmt 0
      beam_num_ := 32 }
  let s2 : DecoderBase :=
    if FP.lt (FP.ofInt binary32 200) s1.max_distance_ then
      { s1 with max_distance_ := FP.ofInt binary32 200 }
    else s1
  if FP.lt s2.min_distance_ (FP.div binary32 (FP.fin 4 0) (FP.fin 10 0))
      || FP.lt s2.max_distance_ s2.min_distance_ then
    { s2 with min_distance_ := FP.div binary32 (FP.fin 4 0) (FP.fin 10 0) }
  else s2

/-! ## `DecoderRS32::getLidarTime` -/

def getLidarTime (ext : External) (pkt : RS32MsopPkt) : FP :=
  let t := pkt.header.timestamp
  let stm : Tm :=
    { tm_year := (t.year.val : Int) + 100
      tm_mon := (t.month.val : Int) - 1
      tm_mday := t.day.val
      tm_hour := t.hour.val
      tm_min := t.minute.val
      tm_sec := t.second.val }
  FP.add binary64
    (FP.add binary64 (FP.ofInt binary64 (ext.mktime stm))
      (FP.div binary64 (FP.ofInt binary64 (RS_SWAP_SHORT t.ms)) (FP.ofInt binary64 1000)))
    (FP.div binary64 (FP.ofInt binary64 (RS_SWAP_SHORT t.us)) (FP.ofInt binary64 1000000))

/-! ## `DecoderRS32::decodeMsopPkt` -/

/-- The integer `(36000 + ... - ...) % 36000` that the source converts to the
`float azi_diff` of block `blk_idx`; `%` is the truncating remainder of C++. -/
def azi_diff_int (ext : External) (self : DecoderBase) (pkt : RS32MsopPkt) (blk_idx : Fin 12) :
    Int :=
  let cur_azi : Int := RS_SWAP_SHORT (pkt.blocks blk_idx).azimuth
  if self.echo_mode_ = ext.ECHO_DUAL then
    if h : blk_idx.val < RS32_BLOCKS_PER_PKT - 2 then
      Int.tmod (36000 + (RS_SWAP_SHORT (pkt.blocks ⟨blk_idx.val + 2, by
        simp only [RS32_BLOCKS_PER_PKT] at h; omega⟩).azimuth : Int) - cur_azi) 36000
    else
      Int.tmod (36000 + cur_azi - (RS_SWAP_SHORT (pkt.blocks ⟨blk_idx.val - 2, by
        omega⟩).azimuth : Int)) 36000
  else
    if h : blk_idx.val < RS32_BLOCKS_PER_PKT - 1 then
      Int.tmod (36000 + (RS_SWAP_SHORT (pkt.blocks ⟨blk_idx.val + 1, by
        simp only [RS32_BLOCKS_PER_PKT] at h; omega⟩).azimuth : Int) - cur_azi) 36000
    else
      Int.tmod (36000 + cur_azi - (RS_SWAP_SHORT (pkt.blocks ⟨blk_idx.val - 1, by
        omega⟩).azimuth : Int)) 36000

/-- The `float azi_diff` of block `blk_idx`. -/
def azi_diff (ext : External) (self : DecoderBase) (pkt : RS32MsopPkt) (blk_idx : Fin 12) : FP :=
  FP.ofInt binary32 (azi_diff_int ext self pkt blk_idx)

/-- The `float azimuth_channel` of one channel:
`cur_azi + (azi_diff * RS32_CHANNEL_TOFFSET * (channel_idx % 16) / RS32_FIRING_TDURATION)`. -/
def azimuth_channel (cur_azi : Int) (azi_diff : FP) (channel_idx : Fin 32) : FP :=
  FP.add binary32 (FP.ofInt binary32 cur_azi)
    (FP.div binary32
      (FP.mul binary32
        (FP.mul binary32 azi_diff (FP.ofInt binary32 RS32_CHANNEL_TOFFSET))
        (FP.ofInt binary32 ((channel_idx.val : Int) % 16)))
      (FP.ofInt binary32 RS32_FIRING_TDURATION))

/-- The `float distance_cali` of a channel: `distance * RS_RESOLUTION`. -/
def distance_cali (ch : RSChannel) : FP :=
  FP.cast binary32 (FP.mul binary64 (FP.ofInt binary64 (RS_SWAP_SHORT ch.distance)) RS_RESOLUTION)

/-- The index `(int)(azimuth_channel + 36000) % 36000`. -/
def angle_horiz_ori (azimuth_channel : FP) : Int :=
  Int.tmod (FP.toInt (FP.add binary32 azimuth_channel (FP.ofInt binary32 36000))) 36000

/-- The index `(((int)(vert_angle_list_[channel_idx]) % 36000) + 36000) % 36000`. -/
def angle_vert (self : DecoderBase) (channel_idx : Fin 32) : Int :=
  Int.tmod (Int.tmod (FP.toInt (self.vert_angle_list_ channel_idx.val)) 36000 + 36000) 36000

/-- The condition of the `if` that decides between a computed point and a
not-a-number point. -/
def gate (self : DecoderBase) (distance_cali : FP) (azimuth_final : Int) : Bool :=
  (FP.le distance_cali self.max_distance_ && FP.le self.min_distance_ distance_cali) &&
  ((self.angle_flag_ && decide (azimuth_final ≥ self.start_angle_)
      && decide (azimuth_final ≤ self.end_angle_)) ||
   (!self.angle_flag_ && (decide (azimuth_final ≥ self.start_angle_)
      || decide (azimuth_final ≤ self.end_angle_))))

/-- The point of the first branch of the `if`: the Cartesian coordinates and
the raw intensity. -/
def computedPoint (ext : External) (self : DecoderBase) (distance_cali : FP)
    (angle_vert azimuth_final angle_horiz_ori : Int) (intensity : Fin 256) : Point :=
  let ft := FP.wider binary32 ext.tableFmt
  let mt := FP.wider ext.memberFmt ext.tableFmt
  let cosv := self.cos_lookup_table_ angle_vert
  let x := FP.add (FP.wider ft mt)
    (FP.mul ft (FP.mul ft distance_cali cosv) (self.cos_lookup_table_ azimuth_final))
    (FP.mul mt self.Rx_ (self.cos_lookup_table_ angle_horiz_ori))
  let y := FP.sub (FP.wider ft mt)
    (FP.mul ft (FP.mul ft (FP.neg distance_cali) cosv) (self.sin_lookup_table_ azimuth_final))
    (FP.mul mt self.Rx_ (self.sin_lookup_table_ angle_horiz_ori))
  let z := FP.add (FP.wider ft ext.memberFmt)
    (FP.mul ft distance_cali (self.sin_lookup_table_ angle_vert)) self.Rz_
  let i := FP.ofInt ext.pointFmt intensity.val
  { x := FP.cast ext.pointFmt x
    y := FP.cast ext.pointFmt y
    z := FP.cast ext.pointFmt z
    intensity := if FP.isnan i then FP.ofInt ext.pointFmt 0 else i }

/-- The point of the `else` branch: every field is `NAN`. -/
def nanPoint : Point := ⟨FP.nan, FP.nan, FP.nan, FP.nan⟩

/-- The body of the channel loop: the point emitted for channel `channel_idx`
of block `blk_idx`. -/
def decodeChannel (ext : External) (self : DecoderBase) (pkt : RS32MsopPkt) (blk_idx : Fin 12)
    (channel_idx : Fin 32) : Point :=
  let cur_azi : Int := RS_SWAP_SHORT (pkt.blocks blk_idx).azimuth
  let azimuth_channel := azimuth_channel cur_azi (azi_diff ext self pkt blk_idx) channel_idx
  let azimuth_final := ext.azimuthCalibration self azimuth_channel channel_idx.val
  let ch := (pkt.blocks blk_idx).channels channel_idx
  let distance_cali := distance_cali ch
  let angle_horiz_ori := angle_horiz_ori azimuth_channel
  let angle_vert := angle_vert self channel_idx
  if gate self distance_cali azimuth_final then
    computedPoint ext self distance_cali angle_vert azimuth_final angle_horiz_ori ch.intensity
  else
    nanPoint

/-- The channel loop of one block: one point per channel, appended in order. -/
def decodeBlock (ext : External) (self : DecoderBase) (pkt : RS32MsopPkt) (blk_idx : Fin 12)
    (vec : List Point) : List Point :=
  vec ++ (List.finRange 32).map (decodeChannel ext self pkt blk_idx)

/-- The block loop from block `blk_idx` on, with `n` iterations left; it stops
at the first block whose id is not `RS32_BLOCK_ID`. -/
def blockLoop (ext : External) (self : DecoderBase) (pkt : RS32MsopPkt) :
    Nat → Nat → List Point → List Point
  | 0, _, vec => vec
  | n + 1, blk_idx, vec =>
    if h : blk_idx < 12 then
      if (pkt.blocks ⟨blk_idx, h⟩).id.val ≠ RS32_BLOCK_ID then vec
      else blockLoop ext self pkt n (blk_idx + 1) (decodeBlock ext self pkt ⟨blk_idx, h⟩ vec)
    else vec

/-- Everything a call of `decodeMsopPkt` leaves behind. -/
structure MsopResult where
  /-- The returned `int`. -/
  ret : Int
  /-- The output parameter `height`. -/
  height : Int
  /-- The output parameter `vec`. -/
  vec : List Point
  /-- The decoder after the call. -/
  self : DecoderBase
  /-- The arguments of the call of `checkTriggerAngle`, if it was called. -/
  trigger : Option (Int × FP)

def decodeMsopPkt (ext : External) (self : DecoderBase) (pkt : RS32MsopPkt) (vec : List Point) :
    MsopResult :=
  let height := self.beam_num_
  if pkt.header.id.val ≠ RS32_MSOP_ID then
    { ret := ext.DECODE_FAIL, height := height, vec := vec, self := self, trigger := none }
  else
    let self1 : DecoderBase :=
      { self with current_temperature_ := ext.computeTemperature pkt.header.temp_raw }
    let first_azimuth : Int := RS_SWAP_SHORT (pkt.blocks 0).azimuth
    let trigger : Option (Int × FP) :=
      if self1.trigger_flag_ then
        if self1.use_lidar_clock_ then some (first_azimuth, getLidarTime ext pkt)
        else some (first_azimuth, ext.getTime)
      else none
    { ret := first_azimuth, height := height
      vec := blockLoop ext self1 pkt RS32_BLOCKS_PER_PKT 0 vec
      self := self1, trigger := trigger }

/-! ## `DecoderRS32::decodeDifopPkt` -/

/-- The variables the calibration loop carries from one channel to the next. -/
structure CaliLoop where
  neg : Int
  vert_angle_list_ : Nat → FP
  hori_angle_list_ : Nat → FP

/-- The literal `0.1f`. -/
def tenth : FP := FP.div binary32 (FP.fin 1 0) (FP.fin 10 0)

/-- The sign after the `if (lsb == 0) ... else if (lsb == 1) ...` statement. -/
def nextNeg (lsb : Int) (neg : Int) : Int :=
  if lsb = 0 then 1 else if lsb = 1 then -1 else neg

/-- The expression `(mid * 256 + msb) * neg * 0.1f`. -/
def caliAngle (mid msb neg : Int) : FP :=
  FP.mul binary32 (FP.ofInt binary32 ((mid * 256 + msb) * neg)) tenth

/-- The body of the calibration loop for channel `i`. -/
def caliStep (pkt : RS32DifopPkt) (st : CaliLoop) (i : Fin 32) : CaliLoop :=
  let lsb : Int := (pkt.pitch_cali ⟨i.val * 3, by omega⟩).val
  let mid : Int := (pkt.pitch_cali ⟨i.val * 3 + 1, by omega⟩).val
  let msb : Int := (pkt.pitch_cali ⟨i.val * 3 + 2, by omega⟩).val
  let neg1 := nextNeg lsb st.neg
  let vert := Function.update st.vert_angle_list_ i.val (caliAngle mid msb neg1)
  let lsb : Int := (pkt.yaw_cali ⟨i.val * 3, by omega⟩).val
  let mid : Int := (pkt.yaw_cali ⟨i.val * 3 + 1, by omega⟩).val
  let msb : Int := (pkt.yaw_cali ⟨i.val * 3 + 2, by omega⟩).val
  let neg2 := nextNeg lsb neg1
  let hori := Function.update st.hori_angle_list_ i.val (caliAngle mid msb neg2)
  { neg := neg2, vert_angle_list_ := vert, hori_angle_list_ := hori }

/-- The calibration loop over the first `n` channels, started with `neg = 1`. -/
def caliLoop (pkt : RS32DifopPkt) (self : DecoderBase) (n : Nat) : CaliLoop :=
  ((List.finRange 32).take n).foldl (caliStep pkt)
    { neg := 1, vert_angle_list_ := self.vert_angle_list_
      hori_angle_list_ := self.hori_angle_list_ }

/-- The test that clears the local `angle_flag`: each of the first three
bytes of `pitch_cali` is `0x00` or `0xFF`. -/
def placeholder (pkt : RS32DifopPkt) : Bool :=
  (decide ((pkt.pitch_cali 0).val = 0x00) || decide ((pkt.pitch_cali 0).val = 0xFF)) &&
  (decide ((pkt.pitch_cali 1).val = 0x00) || decide ((pkt.pitch_cali 1).val = 0xFF)) &&
  (decide ((pkt.pitch_cali 2).val = 0x00) || decide ((pkt.pitch_cali 2).val = 0xFF))

/-- The function `decodeDifopPkt`: the returned value and the decoder after
the call, or the fault of the integer division by a zero `rpm_`, which either
branch of the packets-per-frame computation performs.  The quotient is an
integer, which `ceil` returns as it is. -/
def decodeDifopPkt (ext : External) (self : DecoderBase) (pkt : RS32DifopPkt) :
    Except Fault (Int × DecoderBase) :=
  if pkt.id.val ≠ RS32_DIFOP_ID then
    .ok (-2, self)
  else
    let s1 : DecoderBase := { self with rpm_ := RS_SWAP_SHORT pkt.rpm }
    let s2 : DecoderBase :=
      if pkt.return_mode.val = 0x01 ∨ pkt.return_mode.val = 0x02 then
        { s1 with echo_mode_ := pkt.return_mode.val }
      else
        { s1 with echo_mode_ := ext.ECHO_DUAL }
    if s2.rpm_ = 0 then
      .error (Fault.divisionByZero s2)
    else
      let s3 : DecoderBase :=
        if s2.echo_mode_ = ext.ECHO_DUAL then
          { s2 with pkts_per_frame_ := 2 * RS32_PKT_RATE * 60 / s2.rpm_ }
        else
          { s2 with pkts_per_frame_ := RS32_PKT_RATE * 60 / s2.rpm_ }
      let s4 : DecoderBase :=
        if !s3.difop_flag_ then
          let angle_flag : Bool := !placeholder pkt
          if angle_flag then
            let st := caliLoop pkt s3 32
            { s3 with
              vert_angle_list_ := st.vert_angle_list_
              hori_angle_list_ := st.hori_angle_list_
              difop_flag_ := true }
          else s3
        else s3
      .ok (0, s4)

/-! ## Views used in the statements -/

/-- The points of one processed block, in channel order. -/
def blockPoints (ext : External) (self : DecoderBase) (pkt : RS32MsopPkt) (blk_idx : Fin 12) :
    List Point :=
  (List.finRange 32).map (decodeChannel ext self pkt blk_idx)

/-- The decoder as the block loop sees it: the temperature has been stored. -/
def withTemperature (ext : External) (self : DecoderBase) (pkt : RS32MsopPkt) : DecoderBase :=
  { self with current_temperature_ := ext.computeTemperature pkt.header.temp_raw }

/-- The decoder a call of `decodeDifopPkt` leaves: the one it returns, or the
one it has reached when it stops at the division. -/
def stateAfter : Except Fault (Int × DecoderBase) → DecoderBase
  | .ok (_, s) => s
  | .error (Fault.divisionByZero s) => s

/-- The value `x` is finite and its magnitude is at most `B * 2^eB`. -/
def FP.AbsLe (x : FP) (B : Nat) (eB : Int) : Prop :=
  ∃ (n : Int) (e : Int), x = FP.fin n e ∧ ((n.natAbs : Nat) : ℚ) * 2 ^ e ≤ (B : ℚ) * 2 ^ eB

/-- The number `k` is the count of leading blocks of `pkt` with the block id:
the first `k` blocks carry it and block `k`, if there is one, does not. -/
def LeadingValid (pkt : RS32MsopPkt) (k : Nat) : Prop :=
  k ≤ 12 ∧ (∀ i : Fin 12, i.val < k → (pkt.blocks i).id.val = RS32_BLOCK_ID) ∧
  (∀ h : k < 12, (pkt.blocks ⟨k, h⟩).id.val ≠ RS32_BLOCK_ID)

/-- The value of `neg` in the assignment to `vert_angle_list_[i]`: the sign
given to the vertical angle of channel `i`. -/
def vertSign (pkt : RS32DifopPkt) (self : DecoderBase) (i : Fin 32) : Int :=
  nextNeg (pkt.pitch_cali ⟨i.val * 3, by omega⟩).val (caliLoop pkt self i.val).neg

/-- The value of `neg` in the assignment to `hori_angle_list_[i]`: the sign
given to the horizontal angle of channel `i`. -/
def horiSign (pkt : RS32DifopPkt) (self : DecoderBase) (i : Fin 32) : Int :=
  nextNeg (pkt.yaw_cali ⟨i.val * 3, by omega⟩).val (vertSign pkt self i)

/-! ## Sample inputs -/

/-- A base-class configuration: `DECODE_FAIL = -2`, `ECHO_DUAL = 0`, `float`
members and point fields, `double` tables, no azimuth correction. -/
def sampleExt : External :=
  { DECODE_FAIL := -2
    ECHO_DUAL := 0
    memberFmt := binary32
    tableFmt := binary64
    pointFmt := binary32
    computeTemperature := fun raw => FP.ofInt binary32 raw.val
    azimuthCalibration := fun _ az _ => Int.tmod (FP.toInt az + 36000) 36000
    mktime := fun _ => 0
    getTime := FP.fin 0 0 }

/-- A decoder before any calibration packet: single-echo mode 1, range gate
[0.4 m, 200 m], angle window 0 .. 36000 without wrap, flat tables. -/
def sampleBase : DecoderBase :=
  { Rx_ := FP.cast binary32 (FP.div binary64 (FP.fin 3997 0) (FP.fin 100000 0))
    Ry_ := FP.fin 0 0
    Rz_ := FP.fin 0 0
    beam_num_ := 32
    max_distance_ := FP.fin 200 0
    min_distance_ := FP.div binary32 (FP.fin 4 0) (FP.fin 10 0)
    current_temperature_ := FP.fin 0 0
    trigger_flag_ := false
    use_lidar_clock_ := false
    echo_mode_ := 1
    rpm_ := 600
    pkts_per_frame_ := 150
    difop_flag_ := false
    angle_flag_ := true
    start_angle_ := 0
    end_angle_ := 36000
    vert_angle_list_ := fun _ => FP.fin 0 0
    hori_angle_list_ := fun _ => FP.fin 0 0
    cos_lookup_table_ := fun _ => FP.fin 1 0
    sin_lookup_table_ := fun _ => FP.fin 0 0 }

def sampleTimestamp : RSTimestamp := ⟨24, 3, 15, 12, 30, 45, 0, 0⟩

/-- A block with id `id` and azimuth field `azimuth`; channel `c` has range
field `distance c` and intensity 7. -/
def sampleBlock (id azimuth : Fin 65536) (distance : Fin 32 → Fin 65536) : RS32MsopBlock :=
  { id := id, azimuth := azimuth, channels := fun c => ⟨distance c, 7⟩ }

/-- A measurement packet with header id `id`: blocks 0 and 1 carry the block
id, block 2 does not, blocks 3 to 11 carry it again.  Block `i` has azimuth
`256 * i` on the wire; channel 0 has range 1000 units (5 m), the other
channels 0 units. -/
def samplePkt (id : Fin (2 ^ 64)) : RS32MsopPkt :=
  { header := { id := id, timestamp := sampleTimestamp, temp_raw := 0 }
    blocks := fun i =>
      sampleBlock (if i.val = 2 then 0 else 0xEEFF) ⟨i.val, by omega⟩
        (fun c => if c.val = 0 then 0xE803 else 0)
    index := 0
    tail := 0 }

/-- A measurement packet of twelve valid blocks in which block 0 has azimuth
35999 (wire bytes 8C 9F) and every other block has azimuth 1 (wire bytes
00 01); every range is 0. -/
def wrapPkt : RS32MsopPkt :=
  { header := { id := 0xA050A55A0A05AA55, timestamp := sampleTimestamp, temp_raw := 0 }
    blocks := fun i => sampleBlock 0xEEFF (if i.val = 0 then 0x9F8C else 0x0100) (fun _ => 0)
    index := 0
    tail := 0 }

/-- A calibration array whose first three bytes are `a`, `b`, `c` and whose
other bytes are zero. -/
def caliBytes (a b c : Fin 256) : Fin 96 → Fin 256 :=
  fun i => if i.val = 0 then a else if i.val = 1 then b else if i.val = 2 then c else 0

/-- A calibration packet with the right id. -/
def sampleDifop (rpm : Fin 65536) (return_mode : Fin 256) (pitch yaw : Fin 96 → Fin 256) :
    RS32DifopPkt :=
  { id := 0x555511115A00FFA5, rpm := rpm, return_mode := return_mode
    pitch_cali := pitch, yaw_cali := yaw }

/-- A calibration packet (600 rpm, return mode 1) whose vertical triplets are
00 00 05 for channel 0 and 02 00 0A for channel 1 (sign byte 2), whose
horizontal triplet of channel 0 is 01 00 07, and whose other bytes are zero. -/
def signPkt : RS32DifopPkt :=
  sampleDifop 0x5802 1
    (fun i => if i.val = 2 then 5 else if i.val = 3 then 2 else if i.val = 5 then 10 else 0)
    (fun i => if i.val = 0 then 1 else if i.val = 2 then 7 else 0)

/-- The sample decoder with calibration already loaded. -/
def latchedBase : DecoderBase := { sampleBase with difop_flag_ := true }

/-- A base-class state configured with `max_distance = 0.1f` and
`min_distance = 0.05f`. -/
def lowMaxBase : DecoderBase :=
  { sampleBase with
    max_distance_ := FP.div binary32 (FP.fin 1 0) (FP.fin 10 0)
    min_distance_ := FP.div binary32 (FP.fin 5 0) (FP.fin 100 0) }

/-- The azimuth of block `j` after the byte swap, as the `int` the source
computes with (0 for an index outside the packet). -/
def blockAzimuth (pkt : RS32MsopPkt) (j : Nat) : Int :=
  if h : j < 12 then (RS_SWAP_SHORT (pkt.blocks ⟨j, h⟩).azimuth : Int) else 0

/-- A measurement packet with the right header id in which no block carries
the block id; block 0 has azimuth 300 (wire bytes 01 2C). -/
def noBlockPkt : RS32MsopPkt :=
  { header := { id := 0xA050A55A0A05AA55, timestamp := sampleTimestamp, temp_raw := 0 }
    blocks := fun i => sampleBlock 0 (if i.val = 0 then 0x2C01 else 0) (fun _ => 0)
    index := 0
    tail := 0 }

/-- A measurement packet of twelve valid blocks in which block 0 has the
malformed azimuth 65535 (wire bytes FF FF) and every other block azimuth 0. -/
def malformedPkt : RS32MsopPkt :=
  { header := { id := 0xA050A55A0A05AA55, timestamp := sampleTimestamp, temp_raw := 0 }
    blocks := fun i => sampleBlock 0xEEFF (if i.val = 0 then 0xFFFF else 0) (fun _ => 0)
    index := 0
    tail := 0 }

/-- The packet of the end-to-end scenario: twelve valid blocks, block `i` at
azimuth `300 * i`, every channel with range 1000 units (wire bytes 03 E8)
and intensity 7. -/
def scenarioPkt : RS32MsopPkt :=
  { header := { id := 0xA050A55A0A05AA55, timestamp := sampleTimestamp, temp_raw := 0 }
    blocks := fun i =>
      sampleBlock 0xEEFF ⟨(300 * i.val % 256) * 256 + 300 * i.val / 256, by omega⟩
        (fun _ => 0xE803)
    index := 0
    tail := 0 }

/-- The format holds every integer of magnitude up to 255 exactly. -/
def Fmt.Ample (f : Fmt) : Prop := 8 ≤ f.prec ∧ f.emin ≤ 0 ∧ 0 ≤ f.emax

/-- A measurement packet of twelve valid blocks turning slowly: block `i` has
azimuth `3 * i` (wire bytes 00 and `3 * i`); every range is 0. -/
def slowPkt : RS32MsopPkt :=
  { header := { id := 0xA050A55A0A05AA55, timestamp := sampleTimestamp, temp_raw := 0 }
    blocks := fun i => sampleBlock 0xEEFF ⟨3 * i.val * 256, by omega⟩ (fun _ => 0)
    index := 0
    tail := 0 }

end RS32

namespace RS32

/-! ## Lemmas on the block loop -/

theorem getElem_take_finRange (k i : Nat) (hk : k ≤ 12) (hi : i < k)
    (h : i < ((List.finRange 12).take k).length) :
    ((List.finRange 12).take k)[i] = ⟨i, by omega⟩ := by
  rw [List.getElem_take]
  simp [List.getElem_finRange]

theorem blockLoop_eq (ext : External) (self : DecoderBase) (pkt : RS32MsopPkt) (k : Nat)
    (hk : LeadingValid pkt k) :
    ∀ (n i : Nat) (vec : List Point), i + n = 12 → i ≤ k →
      blockLoop ext self pkt n i vec
        = vec ++ (((List.finRange 12).take k).drop i).flatMap (blockPoints ext self pkt) := by
  obtain ⟨hk12, hvalid, hstop⟩ := hk
  intro n
  induction n with
  | zero =>
    intro i vec hi hik
    have hlen : ((List.finRange 12).take k).length ≤ i := by
      simp [List.length_take]; omega
    simp [blockLoop, List.drop_eq_nil_of_le hlen]
  | succ n ih =>
    intro i vec hi hik
    have hi12 : i < 12 := by omega
    rcases Nat.eq_or_lt_of_le hik with heq | hlt
    · subst heq
      have hlen : ((List.finRange 12).take i).length ≤ i := by
        simp [List.length_take]
      have hbad := hstop hi12
      simp [blockLoop, hi12, hbad, List.drop_eq_nil_of_le hlen]
    · have hgood := hvalid ⟨i, hi12⟩ hlt
      have hlen : i < ((List.finRange 12).take k).length := by
        simp [List.length_take]; omega
      rw [List.drop_eq_getElem_cons hlen, getElem_take_finRange k i hk12 hlt hlen]
      simp only [blockLoop, hi12, hgood, dite_true, ne_eq, not_true_eq_false, ite_false,
        List.flatMap_cons]
      rw [ih (i + 1) _ (by omega) (by omega)]
      simp [decodeBlock, blockPoints, List.append_assoc]

theorem length_blockPoints (ext : External) (self : DecoderBase) (pkt : RS32MsopPkt)
    (b : Fin 12) : (blockPoints ext self pkt b).length = 32 := by
  simp [blockPoints]

theorem length_flatMap_uniform {α β : Type} (f : α → List β) (m : Nat)
    (hf : ∀ a, (f a).length = m) (l : List α) : (l.flatMap f).length = l.length * m := by
  induction l with
  | nil => simp
  | cons a l ih => simp [List.flatMap_cons, ih, hf, Nat.succ_mul, Nat.add_comm]

theorem getElem?_flatMap_uniform {α β : Type} (f : α → List β) (m : Nat)
    (hf : ∀ a, (f a).length = m) :
    ∀ (l : List α) (b c : Nat), c < m →
      (l.flatMap f)[m * b + c]? = (l[b]?).bind (fun a => (f a)[c]?) := by
  intro l
  induction l with
  | nil => intro b c _; simp
  | cons a l ih =>
    intro b c hc
    cases b with
    | zero =>
      simp only [List.flatMap_cons, Nat.mul_zero, Nat.zero_add]
      rw [List.getElem?_append_left (by rw [hf]; exact hc)]
      simp
    | succ b =>
      simp only [List.flatMap_cons]
      rw [List.getElem?_append_right (by rw [hf, Nat.mul_succ]; omega)]
      rw [hf]
      have : m * (b + 1) + c - m = m * b + c := by rw [Nat.mul_succ]; omega
      rw [this, ih b c hc]
      simp

/-- The output vector of a packet with a valid header id and `k` leading
valid blocks. -/
theorem decodeMsopPkt_vec (ext : External) (self : DecoderBase) (pkt : RS32MsopPkt)
    (vec : List Point) (k : Nat) (hid : pkt.header.id.val = RS32_MSOP_ID)
    (hk : LeadingValid pkt k) :
    (decodeMsopPkt ext self pkt vec).vec
      = vec ++ ((List.finRange 12).take k).flatMap
          (blockPoints ext (withTemperature ext self pkt) pkt) := by
  have h := blockLoop_eq ext (withTemperature ext self pkt) pkt k hk 12 0 vec rfl (Nat.zero_le _)
  simpa [decodeMsopPkt, hid, RS32_BLOCKS_PER_PKT, withTemperature] using h

/-! ## Lemmas on floating-point values -/

theorem FP.isnan_round (f : Fmt) (neg : Bool) (m : Nat) (e : Int) (sticky : Bool) :
    FP.isnan (FP.round f neg m e sticky) = false := by
  unfold FP.round
  simp only
  split_ifs <;> rfl

theorem FP.bitsAux_le (fuel : Nat) : ∀ (m k : Nat), m < 2 ^ k → FP.bitsAux fuel m ≤ k := by
  induction fuel with
  | zero => intro m k _; simp [FP.bitsAux]
  | succ fuel ih =>
    intro m k hm
    unfold FP.bitsAux
    split_ifs with h0
    · exact Nat.zero_le _
    · cases k with
      | zero => simp at hm; exact absurd hm h0
      | succ k =>
        have : m / 2 < 2 ^ k := by
          rw [Nat.div_lt_iff_lt_mul (by norm_num)]
          rw [pow_succ] at hm
          exact hm
        have := ih (m / 2) k this
        omega

theorem FP.bits_le (m k : Nat) (hm : m < 2 ^ k) : FP.bits m ≤ k :=
  FP.bitsAux_le m m k hm

theorem FP.lt_two_pow_bitsAux (fuel : Nat) :
    ∀ m : Nat, m ≤ fuel → m < 2 ^ FP.bitsAux fuel m := by
  induction fuel with
  | zero => intro m hm; simp [FP.bitsAux]; omega
  | succ fuel ih =>
    intro m hm
    unfold FP.bitsAux
    split_ifs with h0
    · simp [h0]
    · have h2 := ih (m / 2) (by omega)
      rw [pow_succ]
      omega

theorem FP.lt_two_pow_bits (m : Nat) : m < 2 ^ FP.bits m :=
  FP.lt_two_pow_bitsAux m m (Nat.le_refl m)

/-- A magnitude that fits the precision is returned as it is. -/
theorem FP.round_exact (f : Fmt) (neg : Bool) (m : Nat) (e : Int) (sticky : Bool)
    (h : max (e + (FP.bits m : Int) - (f.prec : Int)) f.emin ≤ e) (hmax : e ≤ f.emax) :
    FP.round f neg m e sticky = FP.fin (FP.signed neg m) e := by
  unfold FP.round
  have hov : ¬(m ≠ 0 ∧ f.emax < max (e + (FP.bits m : Int) - (f.prec : Int)) f.emin) :=
    fun hc => absurd (lt_of_lt_of_le hc.2 h) (not_lt.mpr hmax)
  simp only [if_pos h, if_neg hov]

/-- A magnitude that does not fit is shifted right by `sh` bits and rounded. -/
theorem FP.round_inexact (f : Fmt) (neg : Bool) (m : Nat) (e : Int) (sticky : Bool)
    (e1 : Int) (sh : Nat) (he1 : max (e + (FP.bits m : Int) - (f.prec : Int)) f.emin = e1)
    (hsh : (e1 - e).toNat = sh) (h : ¬ e1 ≤ e)
    (hov : ¬(f.emax < e1 ∨ (e1 = f.emax ∧ FP.roundQuot m sh sticky = 2 ^ f.prec))) :
    FP.round f neg m e sticky = FP.fin (FP.signed neg (FP.roundQuot m sh sticky)) e1 := by
  unfold FP.round
  subst he1 hsh
  simp only [if_neg h, if_neg hov]

/-- An integer of magnitude below `2 ^ prec` converts exactly. -/
theorem FP.ofInt_exact (f : Fmt) (n : Int) (hemin : f.emin ≤ 0) (hemax : 0 ≤ f.emax)
    (hn : n.natAbs < 2 ^ f.prec) : FP.ofInt f n = FP.fin n 0 := by
  have hb := FP.bits_le n.natAbs f.prec hn
  have he : max (0 + (FP.bits n.natAbs : Int) - (f.prec : Int)) f.emin ≤ 0 := by
    apply max_le <;> omega
  unfold FP.ofInt
  rw [FP.round_exact f _ _ _ _ he hemax]
  congr 1
  simp only [FP.signed, decide_eq_true_eq]
  split_ifs <;> omega

theorem FP.roundQuot_le (m sh : Nat) (sticky : Bool) :
    FP.roundQuot m sh sticky ≤ m / 2 ^ sh + 1 := by
  unfold FP.roundQuot
  simp only
  split_ifs <;> omega

theorem tenth_eq : tenth = FP.fin 13421773 (-27) := by decide

/-- Rounding `M * 2^-27` to `float` for `M` up to `65535 * 13421773` gives a
value of magnitude at most `879595880448 * 2^-27 = 6553.5`. -/
theorem round_tenth_bound (neg : Bool) (M : Nat) (hM : M ≤ 879595893555) :
    ∃ (q : Nat) (e1 : Int),
      FP.round binary32 neg M (-27) false = FP.fin (FP.signed neg q) e1 ∧
      -27 ≤ e1 ∧ e1 ≤ -11 ∧ q * 2 ^ (e1 + 27).toNat ≤ 879595880448 := by
  have hb : FP.bits M ≤ 40 := FP.bits_le M 40 (by norm_num; omega)
  have hlt : M < 2 ^ FP.bits M := FP.lt_two_pow_bits M
  by_cases hex : FP.bits M ≤ 24
  · refine ⟨M, -27, FP.round_exact _ _ _ _ _ ?_ (by decide), le_refl _, by norm_num, ?_⟩
    · simp only [binary32]; omega
    · have : (2 : Nat) ^ FP.bits M ≤ 2 ^ 24 := Nat.pow_le_pow_right (by norm_num) hex
      norm_num at this ⊢
      omega
  · obtain ⟨sh, hsh⟩ : ∃ sh : Nat, sh + 24 = FP.bits M := ⟨FP.bits M - 24, by omega⟩
    have hq : M / 2 ^ sh < 2 ^ 24 := by
      apply Nat.div_lt_of_lt_mul
      rw [← pow_add, hsh]
      exact hlt
    have hq1 := FP.roundQuot_le M sh false
    have hbound : FP.roundQuot M sh false * 2 ^ sh ≤ 879595880448 := by
      by_cases h16 : sh = 16
      · subst h16
        unfold FP.roundQuot
        norm_num
        split_ifs with hup
        · rcases hup with hup | hup <;> omega
        · omega
      · have hs15 : sh ≤ 15 := by omega
        have hp : (2 : Nat) ^ sh ≤ 2 ^ 15 := Nat.pow_le_pow_right (by norm_num) hs15
        calc _ ≤ 2 ^ 24 * 2 ^ 15 := Nat.mul_le_mul (by omega) hp
          _ ≤ 879595880448 := by norm_num
    refine ⟨FP.roundQuot M sh false, (sh : Int) - 27,
      FP.round_inexact _ _ _ _ _ _ sh ?_ ?_ ?_ ?_, by omega, by omega, ?_⟩
    · simp only [binary32]; omega
    · omega
    · omega
    · simp only [binary32]; omega
    · have : ((sh : Int) - 27 + 27).toNat = sh := by omega
      rw [this]; exact hbound

/-- The angle `(mid * 256 + msb) * neg * 0.1f` of two bytes and a sign lies
between -6553.5 and 6553.5. -/
theorem caliAngle_bound (mid msb neg : Int) (hmid : 0 ≤ mid ∧ mid ≤ 255)
    (hmsb : 0 ≤ msb ∧ msb ≤ 255) (hneg : neg = 1 ∨ neg = -1) :
    FP.le (caliAngle mid msb neg) (FP.fin 13107 (-1)) = true ∧
    FP.le (FP.fin (-13107) (-1)) (caliAngle mid msb neg) = true := by
  have hn : ((mid * 256 + msb) * neg).natAbs ≤ 65535 := by
    rcases hneg with h | h <;> subst h <;> omega
  unfold caliAngle
  rw [tenth_eq, FP.ofInt_exact binary32 _ (by decide) (by decide)
    (lt_of_le_of_lt hn (by norm_num [binary32]))]
  simp only [FP.mul]
  have hM : ((mid * 256 + msb) * neg * 13421773).natAbs ≤ 879595893555 := by
    rw [Int.natAbs_mul]
    calc _ ≤ 65535 * 13421773 := Nat.mul_le_mul hn (by decide)
      _ = 879595893555 := by norm_num
  obtain ⟨q, e1, hr, hlo, hhi, hq⟩ := round_tenth_bound
    (decide ((mid * 256 + msb) * neg * 13421773 < 0))
    ((mid * 256 + msb) * neg * 13421773).natAbs hM
  rw [show (0 : Int) + -27 = -27 from rfl, hr]
  obtain ⟨k, hk⟩ : ∃ k : Nat, (k : Int) = e1 + 27 := ⟨(e1 + 27).toNat, by omega⟩
  have hk16 : k ≤ 16 := by omega
  have he : e1 = (k : Int) - 27 := by omega
  subst he
  have hmin : min ((k : Int) - 27) (-1) = (k : Int) - 27 := by omega
  have h1 : ((k : Int) - 27 - ((k : Int) - 27)).toNat = 0 := by omega
  have h2 : (-1 - ((k : Int) - 27)).toNat = 26 - k := by omega
  have h3 : ((k : Int) - 27 + 27).toNat = k := by omega
  rw [h3] at hq
  have hpow : (2 : Nat) ^ (26 - k) * 2 ^ k = 2 ^ 26 := by
    rw [← pow_add]; congr 1; omega
  have hqk : q ≤ 13107 * 2 ^ (26 - k) := by
    have h4 : q * 2 ^ k ≤ 13107 * 2 ^ (26 - k) * 2 ^ k := by
      rw [Nat.mul_assoc, hpow]; norm_num; omega
    exact Nat.le_of_mul_le_mul_right h4 (by positivity)
  have hqz : (q : Int) ≤ 13107 * 2 ^ (26 - k) := by exact_mod_cast hqk
  simp only [FP.le, FP.scaled, min_comm (-1 : Int), hmin, h1, h2, pow_zero, mul_one,
    decide_eq_true_eq, FP.signed]
  constructor <;> split_ifs <;> omega

theorem FP.isnan_ofInt (f : Fmt) (n : Int) : FP.isnan (FP.ofInt f n) = false :=
  FP.isnan_round f _ _ _ _

theorem isnan_computedPoint_intensity (ext : External) (self : DecoderBase) (d : FP)
    (v a o : Int) (i : Fin 256) :
    FP.isnan (computedPoint ext self d v a o i).intensity = false := by
  simp [computedPoint, FP.isnan_ofInt]

/-! ## The measurement decoder -/

/-- C1: when the header id differs from `RS32_MSOP_ID`, `decodeMsopPkt`
returns `DECODE_FAIL`, leaves the point vector as it was and leaves the
decoder untouched; when the id matches, it takes the other path: it stores
the temperature and returns the azimuth of block 0, a value in 0..65535,
which differs from any negative failure code.  The bytes
55 AA 05 0A 5A A5 50 A0, read little-endian, are the id. -/
theorem decodeMsopPkt_header_id (ext : External) (self : DecoderBase) (pkt : RS32MsopPkt)
    (vec : List Point) :
    (pkt.header.id.val ≠ RS32_MSOP_ID →
      (decodeMsopPkt ext self pkt vec).ret = ext.DECODE_FAIL ∧
      (decodeMsopPkt ext self pkt vec).vec = vec ∧
      (decodeMsopPkt ext self pkt vec).self = self) ∧
    (pkt.header.id.val = RS32_MSOP_ID →
      (decodeMsopPkt ext self pkt vec).ret = (RS_SWAP_SHORT (pkt.blocks 0).azimuth : Int) ∧
      (decodeMsopPkt ext self pkt vec).self = withTemperature ext self pkt ∧
      0 ≤ (decodeMsopPkt ext self pkt vec).ret ∧ (decodeMsopPkt ext self pkt vec).ret < 65536 ∧
      (ext.DECODE_FAIL < 0 → (decodeMsopPkt ext self pkt vec).ret ≠ ext.DECODE_FAIL)) ∧
    leValue [0x55, 0xAA, 0x05, 0x0A, 0x5A, 0xA5, 0x50, 0xA0] = RS32_MSOP_ID := by
  refine ⟨fun h => ?_, fun h => ?_, by decide⟩
  · simp [decodeMsopPkt, h]
  · have hr : (decodeMsopPkt ext self pkt vec).ret = (RS_SWAP_SHORT (pkt.blocks 0).azimuth : Int) := by
      simp [decodeMsopPkt, h]
    have hlt : RS_SWAP_SHORT (pkt.blocks 0).azimuth < 65536 := by
      have := (pkt.blocks 0).azimuth.isLt
      unfold RS_SWAP_SHORT
      omega
    refine ⟨hr, by simp [decodeMsopPkt, h, withTemperature], ?_, ?_, ?_⟩
    · rw [hr]; omega
    · rw [hr]; omega
    · intro hneg; rw [hr]; omega

/-- C1 at sample packets: a packet with header id 0 is refused with the code
-2 and the vector `[nanPoint]` is returned as it was; the same packet with
the right id returns 0, the azimuth of its block 0. -/
theorem decodeMsopPkt_header_id_sample :
    (samplePkt 0).header.id.val ≠ RS32_MSOP_ID ∧
    (decodeMsopPkt sampleExt sampleBase (samplePkt 0) [nanPoint]).ret = -2 ∧
    (decodeMsopPkt sampleExt sampleBase (samplePkt 0) [nanPoint]).vec = [nanPoint] ∧
    (decodeMsopPkt sampleExt sampleBase (samplePkt 0xA050A55A0A05AA55) [nanPoint]).ret = 0 ∧
    (decodeMsopPkt sampleExt sampleBase (samplePkt 0xA050A55A0A05AA55) [nanPoint]).ret ≠ -2 :=
  have hbad := (decodeMsopPkt_header_id sampleExt sampleBase (samplePkt 0) [nanPoint]).1
    (by decide)
  have hgood := (decodeMsopPkt_header_id sampleExt sampleBase (samplePkt 0xA050A55A0A05AA55)
    [nanPoint]).2.1 (by decide)
  ⟨by decide, hbad.1, hbad.2.1, hgood.1, hgood.2.2.2.2 (by decide)⟩

/-- C2: for a packet with a valid header id whose first `k` blocks carry the
block id and whose block `k` (if `k < 12`) does not, `decodeMsopPkt` returns
the old vector followed by exactly `k * 32` new points, whatever the ids of
the blocks after block `k`; the number of points is the same for every
decoder state and configuration, hence for every outcome of the gate. -/
theorem decodeMsopPkt_point_count (ext : External) (self : DecoderBase) (pkt : RS32MsopPkt)
    (vec : List Point) (k : Nat) (hid : pkt.header.id.val = RS32_MSOP_ID)
    (hk : LeadingValid pkt k) :
    k ≤ 12 ∧
    (∃ pts : List Point, (decodeMsopPkt ext self pkt vec).vec = vec ++ pts ∧
      pts.length = k * 32) ∧
    (∀ (ext2 : External) (self2 : DecoderBase),
      (decodeMsopPkt ext2 self2 pkt vec).vec.length = vec.length + k * 32) := by
  refine ⟨hk.1, ⟨_, decodeMsopPkt_vec ext self pkt vec k hid hk, ?_⟩, fun ext2 self2 => ?_⟩
  · rw [length_flatMap_uniform _ 32 (length_blockPoints _ _ _)]
    simp [List.length_take, hk.1]
  · rw [decodeMsopPkt_vec ext2 self2 pkt vec k hid hk, List.length_append,
      length_flatMap_uniform _ 32 (length_blockPoints _ _ _)]
    simp [List.length_take, hk.1]

/-- C2 at the sample packet, whose blocks 0 and 1 are valid, block 2 is not
and blocks 3 to 11 are valid again: 2 * 32 = 64 points are appended. -/
theorem decodeMsopPkt_point_count_sample :
    ((samplePkt 0xA050A55A0A05AA55).blocks 3).id.val = RS32_BLOCK_ID ∧
    ∃ pts : List Point,
      (decodeMsopPkt sampleExt sampleBase (samplePkt 0xA050A55A0A05AA55) [nanPoint]).vec
        = [nanPoint] ++ pts ∧ pts.length = 2 * 32 :=
  ⟨by decide,
   (decodeMsopPkt_point_count sampleExt sampleBase (samplePkt 0xA050A55A0A05AA55) [nanPoint] 2
      (by decide) ⟨by decide, by decide, by decide⟩).2.1⟩

/-- The point emitted for channel `c` of a processed block `b` sits at
position `32 * b + c` after the old vector and is the one `decodeChannel`
computes. -/
theorem decodeMsopPkt_getElem (ext : External) (self : DecoderBase) (pkt : RS32MsopPkt)
    (vec : List Point) (k : Nat) (hid : pkt.header.id.val = RS32_MSOP_ID)
    (hk : LeadingValid pkt k) (b : Fin 12) (c : Fin 32) (hb : b.val < k) :
    (decodeMsopPkt ext self pkt vec).vec[vec.length + (32 * b.val + c.val)]?
      = some (decodeChannel ext (withTemperature ext self pkt) pkt b c) := by
  rw [decodeMsopPkt_vec ext self pkt vec k hid hk,
    List.getElem?_append_right (Nat.le_add_right _ _), Nat.add_sub_cancel_left,
    getElem?_flatMap_uniform _ 32 (length_blockPoints _ _ _) _ _ _ c.isLt]
  have hlen : b.val < ((List.finRange 12).take k).length := by
    simp [List.length_take]; omega
  rw [List.getElem?_eq_getElem hlen, getElem_take_finRange k b.val hk.1 hb hlen]
  simp [blockPoints, List.getElem?_map, List.getElem?_eq_getElem, List.getElem_finRange]

/-- C3: the point emitted for channel `c` of a processed block `b` is the
computed point, whose intensity is a number, exactly when
`min_distance_ <= distance_cali <= max_distance_` and the window test holds
(`start_angle_ <= azimuth_final <= end_angle_` with `angle_flag_` set,
`azimuth_final >= start_angle_` or `azimuth_final <= end_angle_` with it
clear); otherwise x, y, z and intensity are all not-a-number. -/
theorem decodeMsopPkt_gate (ext : External) (self : DecoderBase) (pkt : RS32MsopPkt)
    (vec : List Point) (k : Nat) (hid : pkt.header.id.val = RS32_MSOP_ID)
    (hk : LeadingValid pkt k) (b : Fin 12) (c : Fin 32) (hb : b.val < k) :
    let s := withTemperature ext self pkt
    let azc := azimuth_channel (RS_SWAP_SHORT (pkt.blocks b).azimuth) (azi_diff ext s pkt b) c
    let azimuth_final := ext.azimuthCalibration s azc c.val
    let d := distance_cali ((pkt.blocks b).channels c)
    let inRange : Prop := FP.le self.min_distance_ d = true ∧ FP.le d self.max_distance_ = true
    let window : Prop :=
      if self.angle_flag_ = true then
        self.start_angle_ ≤ azimuth_final ∧ azimuth_final ≤ self.end_angle_
      else self.start_angle_ ≤ azimuth_final ∨ azimuth_final ≤ self.end_angle_
    ∃ p : Point,
      (decodeMsopPkt ext self pkt vec).vec[vec.length + (32 * b.val + c.val)]? = some p ∧
      (inRange ∧ window →
        p = computedPoint ext s d (angle_vert s c) azimuth_final (angle_horiz_ori azc)
              ((pkt.blocks b).channels c).intensity) ∧
      (FP.isnan p.intensity = false ↔ inRange ∧ window) ∧
      (¬(inRange ∧ window) →
        p.x = FP.nan ∧ p.y = FP.nan ∧ p.z = FP.nan ∧ p.intensity = FP.nan) := by
  intro s azc azimuth_final d inRange window
  refine ⟨_, decodeMsopPkt_getElem ext self pkt vec k hid hk b c hb, ?_⟩
  have hgate : gate s d azimuth_final = true ↔ inRange ∧ window := by
    simp only [gate, inRange, window, s, withTemperature]
    cases self.angle_flag_ <;> simp [and_comm]
  have hdec : decodeChannel ext s pkt b c
      = if gate s d azimuth_final = true then
          computedPoint ext s d (angle_vert s c) azimuth_final (angle_horiz_ori azc)
            ((pkt.blocks b).channels c).intensity
        else nanPoint := rfl
  rw [hdec]
  by_cases hg : gate s d azimuth_final = true
  · have hiw := hgate.mp hg
    rw [if_pos hg]
    exact ⟨fun _ => rfl, ⟨fun _ => hiw, fun _ => isnan_computedPoint_intensity _ _ _ _ _ _ _⟩,
      fun hn => absurd hiw hn⟩
  · have hiw : ¬(inRange ∧ window) := fun h => hg (hgate.mpr h)
    rw [if_neg hg]
    refine ⟨fun h => absurd h hiw, ⟨fun h => ?_, fun h => absurd h hiw⟩, fun _ => ?_⟩
    · simp [nanPoint, FP.isnan] at h
    · simp [nanPoint]

/-- C3 at the sample packet: channel 0 of block 0 (range 1000 units = 5 m,
azimuth 0) passes the gate and its point has a numeric intensity; channel 1
(range 0) fails the range test and its four fields are not-a-number. -/
theorem decodeMsopPkt_gate_sample :
    (∃ p : Point,
      (decodeMsopPkt sampleExt sampleBase (samplePkt 0xA050A55A0A05AA55) []).vec[0]? = some p ∧
      FP.isnan p.intensity = false) ∧
    (∃ p : Point,
      (decodeMsopPkt sampleExt sampleBase (samplePkt 0xA050A55A0A05AA55) []).vec[1]? = some p ∧
      p.x = FP.nan ∧ p.y = FP.nan ∧ p.z = FP.nan ∧ p.intensity = FP.nan) := by
  obtain ⟨p, hp, -, hnum, -⟩ := decodeMsopPkt_gate sampleExt sampleBase
    (samplePkt 0xA050A55A0A05AA55) [] 2 (by decide) ⟨by decide, by decide, by decide⟩ 0 0
    (by decide)
  obtain ⟨q, hq, -, -, hnan⟩ := decodeMsopPkt_gate sampleExt sampleBase
    (samplePkt 0xA050A55A0A05AA55) [] 2 (by decide) ⟨by decide, by decide, by decide⟩ 0 1
    (by decide)
  exact ⟨⟨p, hp, hnum.mpr (by decide)⟩, ⟨q, hq, hnan (by decide)⟩⟩

/-- C4: when the block loop compares block `blk` with the block ahead of it
(`nb`, two positions ahead in dual-echo mode and one position ahead
otherwise) and both azimuths `a` and `b` lie in 0..35999, the delta is
`(36000 + b - a) mod 36000`, lies in 0..35999, satisfies
`(a + delta) mod 36000 = b`, and the `float azi_diff` holds exactly this
integer. -/
theorem azi_diff_forward (ext : External) (self : DecoderBase) (pkt : RS32MsopPkt)
    (blk nb : Fin 12)
    (hnb : (self.echo_mode_ = ext.ECHO_DUAL ∧ blk.val < 10 ∧ nb.val = blk.val + 2) ∨
           (self.echo_mode_ ≠ ext.ECHO_DUAL ∧ blk.val < 11 ∧ nb.val = blk.val + 1))
    (ha : RS_SWAP_SHORT (pkt.blocks blk).azimuth < 36000)
    (hb : RS_SWAP_SHORT (pkt.blocks nb).azimuth < 36000) :
    let a : Int := RS_SWAP_SHORT (pkt.blocks blk).azimuth
    let b : Int := RS_SWAP_SHORT (pkt.blocks nb).azimuth
    let delta : Int := azi_diff_int ext self pkt blk
    delta = (36000 + b - a) % 36000 ∧ 0 ≤ delta ∧ delta < 36000 ∧
    (a + delta) % 36000 = b ∧ azi_diff ext self pkt blk = FP.fin delta 0 := by
  intro a b delta
  have hdelta : delta = Int.tmod (36000 + b - a) 36000 := by
    rcases hnb with ⟨hm, hlt, hv⟩ | ⟨hm, hlt, hv⟩
    · have hidx : (⟨blk.val + 2, by omega⟩ : Fin 12) = nb := Fin.ext hv.symm
      have hlt2 : blk.val < RS32_BLOCKS_PER_PKT - 2 := by simp only [RS32_BLOCKS_PER_PKT]; omega
      simp only [delta, azi_diff_int, hm, if_true, hlt2, dite_true, hidx, a, b]
    · have hidx : (⟨blk.val + 1, by omega⟩ : Fin 12) = nb := Fin.ext hv.symm
      have hlt1 : blk.val < RS32_BLOCKS_PER_PKT - 1 := by simp only [RS32_BLOCKS_PER_PKT]; omega
      simp only [delta, azi_diff_int, hm, if_false, hlt1, dite_true, hidx, a, b]
  have ha0 : 0 ≤ a ∧ a < 36000 := ⟨by simp [a], by simp only [a]; omega⟩
  have hb0 : 0 ≤ b ∧ b < 36000 := ⟨by simp [b], by simp only [b]; omega⟩
  rw [Int.tmod_eq_emod (by omega) (by norm_num)] at hdelta
  have h1 : 0 ≤ delta ∧ delta < 36000 := by omega
  refine ⟨hdelta, h1.1, h1.2, by omega, ?_⟩
  show FP.ofInt binary32 delta = FP.fin delta 0
  apply FP.ofInt_exact binary32 delta (by decide) (by decide)
  have : delta.natAbs < 36000 := by omega
  exact lt_trans this (by norm_num [binary32])

/-- C4 at the packet whose block 0 has azimuth 35999 and whose block 1 has
azimuth 1: the delta of block 0 is 2. -/
theorem azi_diff_forward_sample :
    (RS_SWAP_SHORT (wrapPkt.blocks 0).azimuth = 35999 ∧
     RS_SWAP_SHORT (wrapPkt.blocks 1).azimuth = 1) ∧
    azi_diff_int sampleExt sampleBase wrapPkt 0 = 2 ∧
    azi_diff sampleExt sampleBase wrapPkt 0 = FP.fin 2 0 := by
  have h := azi_diff_forward sampleExt sampleBase wrapPkt 0 1
    (Or.inr ⟨by decide, by decide, by decide⟩) (by decide) (by decide)
  have h2 : azi_diff_int sampleExt sampleBase wrapPkt 0 = 2 := by
    rw [h.1]; decide
  exact ⟨by decide, h2, by rw [h.2.2.2.2, h2]⟩

/-! ## The calibration decoder -/

theorem decodeDifopPkt_bad_id (ext : External) (self : DecoderBase) (pkt : RS32DifopPkt)
    (hid : pkt.id.val ≠ RS32_DIFOP_ID) : decodeDifopPkt ext self pkt = .ok (-2, self) := by
  simp [decodeDifopPkt, hid]

theorem decodeDifopPkt_fault (ext : External) (self : DecoderBase) (pkt : RS32DifopPkt)
    (hid : pkt.id.val = RS32_DIFOP_ID) (hrpm : RS_SWAP_SHORT pkt.rpm = 0) :
    ∃ s : DecoderBase, decodeDifopPkt ext self pkt = .error (Fault.divisionByZero s) ∧
      s.echo_mode_ = (if pkt.return_mode.val = 0x01 ∨ pkt.return_mode.val = 0x02
        then pkt.return_mode.val else ext.ECHO_DUAL) ∧
      s.difop_flag_ = self.difop_flag_ ∧ s.vert_angle_list_ = self.vert_angle_list_ ∧
      s.hori_angle_list_ = self.hori_angle_list_ := by
  unfold decodeDifopPkt
  simp only [hid, ne_eq, not_true_eq_false, if_false]
  split_ifs <;> simp_all

/-- What a call with the right id and a nonzero rotation speed returns. -/
theorem decodeDifopPkt_ok (ext : External) (self : DecoderBase) (pkt : RS32DifopPkt)
    (hid : pkt.id.val = RS32_DIFOP_ID) (hrpm : RS_SWAP_SHORT pkt.rpm ≠ 0) :
    ∃ s : DecoderBase, decodeDifopPkt ext self pkt = .ok (0, s) ∧
      s.rpm_ = RS_SWAP_SHORT pkt.rpm ∧
      s.echo_mode_ = (if pkt.return_mode.val = 0x01 ∨ pkt.return_mode.val = 0x02
        then pkt.return_mode.val else ext.ECHO_DUAL) ∧
      (self.difop_flag_ = true ∨ placeholder pkt = true →
        s.difop_flag_ = self.difop_flag_ ∧ s.vert_angle_list_ = self.vert_angle_list_ ∧
        s.hori_angle_list_ = self.hori_angle_list_) ∧
      (self.difop_flag_ = false ∧ placeholder pkt = false →
        s.difop_flag_ = true ∧ s.vert_angle_list_ = (caliLoop pkt self 32).vert_angle_list_ ∧
        s.hori_angle_list_ = (caliLoop pkt self 32).hori_angle_list_) := by
  unfold decodeDifopPkt
  simp only [hid, ne_eq, not_true_eq_false, if_false]
  split_ifs <;> simp_all [caliLoop]

/-- C5: once `difop_flag_` is set, a call of `decodeDifopPkt` with any packet
leaves the flag set and both angle tables unchanged, whether it returns (wrong
id, or right id and nonzero rotation speed) or stops at the division by a
zero rotation speed; and decoding a non-placeholder packet a second time
returns the angle tables of the first decoding. -/
theorem decodeDifopPkt_latched (ext : External) (pkt : RS32DifopPkt) :
    (∀ self : DecoderBase, self.difop_flag_ = true →
      (stateAfter (decodeDifopPkt ext self pkt)).difop_flag_ = true ∧
      (stateAfter (decodeDifopPkt ext self pkt)).vert_angle_list_ = self.vert_angle_list_ ∧
      (stateAfter (decodeDifopPkt ext self pkt)).hori_angle_list_ = self.hori_angle_list_ ∧
      ((pkt.id.val ≠ RS32_DIFOP_ID ∨ RS_SWAP_SHORT pkt.rpm ≠ 0) →
        ∃ (r : Int) (s : DecoderBase), decodeDifopPkt ext self pkt = .ok (r, s))) ∧
    (∀ self : DecoderBase, pkt.id.val = RS32_DIFOP_ID → RS_SWAP_SHORT pkt.rpm ≠ 0 →
      placeholder pkt = false →
      ∃ s1 s2 : DecoderBase, decodeDifopPkt ext self pkt = .ok (0, s1) ∧
        decodeDifopPkt ext s1 pkt = .ok (0, s2) ∧ s1.difop_flag_ = true ∧
        s2.difop_flag_ = true ∧ s2.vert_angle_list_ = s1.vert_angle_list_ ∧
        s2.hori_angle_list_ = s1.hori_angle_list_) := by
  have hset : ∀ self : DecoderBase, self.difop_flag_ = true →
      (stateAfter (decodeDifopPkt ext self pkt)).difop_flag_ = true ∧
      (stateAfter (decodeDifopPkt ext self pkt)).vert_angle_list_ = self.vert_angle_list_ ∧
      (stateAfter (decodeDifopPkt ext self pkt)).hori_angle_list_ = self.hori_angle_list_ ∧
      ((pkt.id.val ≠ RS32_DIFOP_ID ∨ RS_SWAP_SHORT pkt.rpm ≠ 0) →
        ∃ (r : Int) (s : DecoderBase), decodeDifopPkt ext self pkt = .ok (r, s)) := by
    intro self hflag
    by_cases hid : pkt.id.val = RS32_DIFOP_ID
    · by_cases hrpm : RS_SWAP_SHORT pkt.rpm = 0
      · obtain ⟨s, hs, -, h1, h2, h3⟩ := decodeDifopPkt_fault ext self pkt hid hrpm
        rw [hs]
        exact ⟨h1.trans hflag, h2, h3, fun h => absurd hrpm (h.resolve_left (fun h => h hid))⟩
      · obtain ⟨s, hs, -, -, hkeep, -⟩ := decodeDifopPkt_ok ext self pkt hid hrpm
        obtain ⟨h1, h2, h3⟩ := hkeep (Or.inl hflag)
        rw [hs]
        exact ⟨h1.trans hflag, h2, h3, fun _ => ⟨0, s, rfl⟩⟩
    · rw [decodeDifopPkt_bad_id ext self pkt hid]
      exact ⟨hflag, rfl, rfl, fun _ => ⟨-2, self, rfl⟩⟩
  refine ⟨hset, fun self hid hrpm hph => ?_⟩
  obtain ⟨s1, hs1, -, -, hkeep, hload⟩ := decodeDifopPkt_ok ext self pkt hid hrpm
  have hflag1 : s1.difop_flag_ = true := by
    cases hf : self.difop_flag_ with
    | true => exact (hkeep (Or.inl hf)).1.trans hf
    | false => exact (hload ⟨hf, hph⟩).1
  obtain ⟨s2, hs2, -, -, hkeep2, -⟩ := decodeDifopPkt_ok ext s1 pkt hid hrpm
  obtain ⟨h1, h2, h3⟩ := hkeep2 (Or.inl hflag1)
  exact ⟨s1, s2, hs1, hs2, hflag1, h1.trans hflag1, h2, h3⟩

/-- C5 at sample packets: with calibration loaded, a non-placeholder packet
(calibration bytes 01 02 03), a packet with a wrong id and a packet with a
zero rotation speed all leave the flag set and the vertical table unchanged;
decoding the non-placeholder packet twice from the unloaded decoder gives the
tables of the first decoding. -/
theorem decodeDifopPkt_latched_sample :
    ((stateAfter (decodeDifopPkt sampleExt latchedBase
        (sampleDifop 0x5802 1 (caliBytes 1 2 3) (caliBytes 0 0 0)))).difop_flag_ = true ∧
      (stateAfter (decodeDifopPkt sampleExt latchedBase
        (sampleDifop 0x5802 1 (caliBytes 1 2 3) (caliBytes 0 0 0)))).vert_angle_list_
        = latchedBase.vert_angle_list_) ∧
    ((stateAfter (decodeDifopPkt sampleExt latchedBase
        { sampleDifop 0 1 (caliBytes 1 2 3) (caliBytes 0 0 0) with id := 0 })).difop_flag_ = true ∧
      (stateAfter (decodeDifopPkt sampleExt latchedBase
        { sampleDifop 0 1 (caliBytes 1 2 3) (caliBytes 0 0 0) with id := 0 })).vert_angle_list_
        = latchedBase.vert_angle_list_) ∧
    ((stateAfter (decodeDifopPkt sampleExt latchedBase
        (sampleDifop 0 1 (caliBytes 1 2 3) (caliBytes 0 0 0)))).difop_flag_ = true ∧
      (stateAfter (decodeDifopPkt sampleExt latchedBase
        (sampleDifop 0 1 (caliBytes 1 2 3) (caliBytes 0 0 0)))).vert_angle_list_
        = latchedBase.vert_angle_list_) ∧
    (∃ s1 s2 : DecoderBase,
      decodeDifopPkt sampleExt sampleBase
        (sampleDifop 0x5802 1 (caliBytes 1 2 3) (caliBytes 0 0 0)) = .ok (0, s1) ∧
      decodeDifopPkt sampleExt s1
        (sampleDifop 0x5802 1 (caliBytes 1 2 3) (caliBytes 0 0 0)) = .ok (0, s2) ∧
      s1.difop_flag_ = true ∧ s2.difop_flag_ = true ∧
      s2.vert_angle_list_ = s1.vert_angle_list_ ∧
      s2.hori_angle_list_ = s1.hori_angle_list_) :=
  have h1 := (decodeDifopPkt_latched sampleExt
    (sampleDifop 0x5802 1 (caliBytes 1 2 3) (caliBytes 0 0 0))).1 latchedBase rfl
  have h2 := (decodeDifopPkt_latched sampleExt
    { sampleDifop 0 1 (caliBytes 1 2 3) (caliBytes 0 0 0) with id := 0 }).1 latchedBase rfl
  have h3 := (decodeDifopPkt_latched sampleExt
    (sampleDifop 0 1 (caliBytes 1 2 3) (caliBytes 0 0 0))).1 latchedBase rfl
  ⟨⟨h1.1, h1.2.1⟩, ⟨h2.1, h2.2.1⟩, ⟨h3.1, h3.2.1⟩,
   (decodeDifopPkt_latched sampleExt
      (sampleDifop 0x5802 1 (caliBytes 1 2 3) (caliBytes 0 0 0))).2 sampleBase
      (by decide) (by decide) (by decide)⟩

/-- C6: for a packet with the right id and a nonzero rotation speed, decoded
while `difop_flag_` is clear, the flag is set after the call exactly when it
is not the case that each of `pitch_cali[0]`, `pitch_cali[1]`,
`pitch_cali[2]` is `0x00` or `0xFF`; when it stays clear both angle tables
are unchanged. -/
theorem decodeDifopPkt_placeholder (ext : External) (self : DecoderBase) (pkt : RS32DifopPkt)
    (hid : pkt.id.val = RS32_DIFOP_ID) (hrpm : RS_SWAP_SHORT pkt.rpm ≠ 0)
    (hflag : self.difop_flag_ = false) :
    let absent : Prop :=
      ((pkt.pitch_cali 0).val = 0x00 ∨ (pkt.pitch_cali 0).val = 0xFF) ∧
      ((pkt.pitch_cali 1).val = 0x00 ∨ (pkt.pitch_cali 1).val = 0xFF) ∧
      ((pkt.pitch_cali 2).val = 0x00 ∨ (pkt.pitch_cali 2).val = 0xFF)
    ∃ s : DecoderBase, decodeDifopPkt ext self pkt = .ok (0, s) ∧
      (s.difop_flag_ = true ↔ ¬absent) ∧
      (absent → s.vert_angle_list_ = self.vert_angle_list_ ∧
        s.hori_angle_list_ = self.hori_angle_list_) := by
  intro absent
  have habs : placeholder pkt = true ↔ absent := by
    simp only [placeholder, absent, Bool.and_eq_true, Bool.or_eq_true, decide_eq_true_eq,
      and_assoc]
  obtain ⟨s, hs, -, -, hkeep, hload⟩ := decodeDifopPkt_ok ext self pkt hid hrpm
  refine ⟨s, hs, ?_, fun ha => (hkeep (Or.inr (habs.mpr ha))).2⟩
  cases hp : placeholder pkt with
  | true =>
    have hf := (hkeep (Or.inr hp)).1
    rw [hflag] at hf
    constructor
    · intro h; rw [hf] at h; cases h
    · intro hn; exact absurd (habs.mp hp) hn
  | false =>
    have hf := (hload ⟨hflag, hp⟩).1
    constructor
    · intro _ ha; rw [habs.mpr ha] at hp; cases hp
    · intro _; exact hf

/-- C6 at four packets: the calibration bytes 00 00 00, FF FF FF and
00 FF 00 leave the flag clear, the bytes 01 02 03 set it. -/
theorem decodeDifopPkt_placeholder_sample :
    (∃ s : DecoderBase, decodeDifopPkt sampleExt sampleBase
        (sampleDifop 0x5802 1 (caliBytes 0x00 0x00 0x00) (caliBytes 0 0 0)) = .ok (0, s) ∧
      s.difop_flag_ ≠ true) ∧
    (∃ s : DecoderBase, decodeDifopPkt sampleExt sampleBase
        (sampleDifop 0x5802 1 (caliBytes 0xFF 0xFF 0xFF) (caliBytes 0 0 0)) = .ok (0, s) ∧
      s.difop_flag_ ≠ true) ∧
    (∃ s : DecoderBase, decodeDifopPkt sampleExt sampleBase
        (sampleDifop 0x5802 1 (caliBytes 0x00 0xFF 0x00) (caliBytes 0 0 0)) = .ok (0, s) ∧
      s.difop_flag_ ≠ true) ∧
    (∃ s : DecoderBase, decodeDifopPkt sampleExt sampleBase
        (sampleDifop 0x5802 1 (caliBytes 0x01 0x02 0x03) (caliBytes 0 0 0)) = .ok (0, s) ∧
      s.difop_flag_ = true) := by
  obtain ⟨a, ha, hfa, -⟩ := decodeDifopPkt_placeholder sampleExt sampleBase
    (sampleDifop 0x5802 1 (caliBytes 0x00 0x00 0x00) (caliBytes 0 0 0))
    (by decide) (by decide) rfl
  obtain ⟨b, hb, hfb, -⟩ := decodeDifopPkt_placeholder sampleExt sampleBase
    (sampleDifop 0x5802 1 (caliBytes 0xFF 0xFF 0xFF) (caliBytes 0 0 0))
    (by decide) (by decide) rfl
  obtain ⟨c, hc, hfc, -⟩ := decodeDifopPkt_placeholder sampleExt sampleBase
    (sampleDifop 0x5802 1 (caliBytes 0x00 0xFF 0x00) (caliBytes 0 0 0))
    (by decide) (by decide) rfl
  obtain ⟨d, hd, hfd, -⟩ := decodeDifopPkt_placeholder sampleExt sampleBase
    (sampleDifop 0x5802 1 (caliBytes 0x01 0x02 0x03) (caliBytes 0 0 0))
    (by decide) (by decide) rfl
  exact ⟨⟨a, ha, fun h => hfa.mp h (by decide)⟩, ⟨b, hb, fun h => hfb.mp h (by decide)⟩,
    ⟨c, hc, fun h => hfc.mp h (by decide)⟩, ⟨d, hd, hfd.mpr (by decide)⟩⟩

/-- C7: for a packet with the right id, the call of `decodeDifopPkt` leaves
`echo_mode_` equal to `ECHO_DUAL` when the return-mode byte is neither `0x01`
nor `0x02`, and equal to that byte when it is `0x01` or `0x02`, which is not
dual-echo as long as `ECHO_DUAL` is neither 1 nor 2; this is the state the
call returns when the rotation speed is nonzero and the state in which it
stops at the division when the rotation speed is zero. -/
theorem decodeDifopPkt_echo_mode (ext : External) (self : DecoderBase) (pkt : RS32DifopPkt)
    (hid : pkt.id.val = RS32_DIFOP_ID) :
    (pkt.return_mode.val ≠ 0x01 ∧ pkt.return_mode.val ≠ 0x02 →
      (stateAfter (decodeDifopPkt ext self pkt)).echo_mode_ = ext.ECHO_DUAL) ∧
    (pkt.return_mode.val = 0x01 ∨ pkt.return_mode.val = 0x02 →
      (stateAfter (decodeDifopPkt ext self pkt)).echo_mode_ = pkt.return_mode.val ∧
      (ext.ECHO_DUAL ≠ 1 ∧ ext.ECHO_DUAL ≠ 2 →
        (stateAfter (decodeDifopPkt ext self pkt)).echo_mode_ ≠ ext.ECHO_DUAL)) ∧
    (RS_SWAP_SHORT pkt.rpm ≠ 0 →
      ∃ s : DecoderBase, decodeDifopPkt ext self pkt = .ok (0, s)) := by
  have hecho : (stateAfter (decodeDifopPkt ext self pkt)).echo_mode_
      = (if pkt.return_mode.val = 0x01 ∨ pkt.return_mode.val = 0x02
        then pkt.return_mode.val else ext.ECHO_DUAL) := by
    by_cases hrpm : RS_SWAP_SHORT pkt.rpm = 0
    · obtain ⟨s, hs, he, -⟩ := decodeDifopPkt_fault ext self pkt hid hrpm
      rw [hs]; exact he
    · obtain ⟨s, hs, -, he, -⟩ := decodeDifopPkt_ok ext self pkt hid hrpm
      rw [hs]; exact he
  refine ⟨fun hn => ?_, fun hy => ?_, fun hrpm => ?_⟩
  · rw [hecho, if_neg (by intro h; rcases h with h | h; exact hn.1 h; exact hn.2 h)]
  · rw [hecho, if_pos hy]
    refine ⟨rfl, fun hd heq => ?_⟩
    rcases hy with h | h
    · exact hd.1 (by rw [← heq, h])
    · exact hd.2 (by rw [← heq, h])
  · obtain ⟨s, hs, -⟩ := decodeDifopPkt_ok ext self pkt hid hrpm
    exact ⟨s, hs⟩

/-- C7 at sample packets (`ECHO_DUAL = 0`, decoder in mode 1 before the
call): the return-mode bytes 0x00, 0x03 and 0x7F give dual-echo, the bytes
0x01 and 0x02 give the modes 1 and 2, which are not dual-echo. -/
theorem decodeDifopPkt_echo_mode_sample :
    (stateAfter (decodeDifopPkt sampleExt sampleBase
      (sampleDifop 0x5802 0x00 (caliBytes 0 0 0) (caliBytes 0 0 0)))).echo_mode_
      = sampleExt.ECHO_DUAL ∧
    (stateAfter (decodeDifopPkt sampleExt sampleBase
      (sampleDifop 0x5802 0x03 (caliBytes 0 0 0) (caliBytes 0 0 0)))).echo_mode_
      = sampleExt.ECHO_DUAL ∧
    (stateAfter (decodeDifopPkt sampleExt sampleBase
      (sampleDifop 0x5802 0x7F (caliBytes 0 0 0) (caliBytes 0 0 0)))).echo_mode_
      = sampleExt.ECHO_DUAL ∧
    ((stateAfter (decodeDifopPkt sampleExt sampleBase
      (sampleDifop 0x5802 0x01 (caliBytes 0 0 0) (caliBytes 0 0 0)))).echo_mode_ = 1 ∧
     (stateAfter (decodeDifopPkt sampleExt sampleBase
      (sampleDifop 0x5802 0x01 (caliBytes 0 0 0) (caliBytes 0 0 0)))).echo_mode_
      ≠ sampleExt.ECHO_DUAL) ∧
    ((stateAfter (decodeDifopPkt sampleExt sampleBase
      (sampleDifop 0x5802 0x02 (caliBytes 0 0 0) (caliBytes 0 0 0)))).echo_mode_ = 2 ∧
     (stateAfter (decodeDifopPkt sampleExt sampleBase
      (sampleDifop 0x5802 0x02 (caliBytes 0 0 0) (caliBytes 0 0 0)))).echo_mode_
      ≠ sampleExt.ECHO_DUAL) :=
  have ha := (decodeDifopPkt_echo_mode sampleExt sampleBase
    (sampleDifop 0x5802 0x00 (caliBytes 0 0 0) (caliBytes 0 0 0)) (by decide)).1 (by decide)
  have hb := (decodeDifopPkt_echo_mode sampleExt sampleBase
    (sampleDifop 0x5802 0x03 (caliBytes 0 0 0) (caliBytes 0 0 0)) (by decide)).1 (by decide)
  have hc := (decodeDifopPkt_echo_mode sampleExt sampleBase
    (sampleDifop 0x5802 0x7F (caliBytes 0 0 0) (caliBytes 0 0 0)) (by decide)).1 (by decide)
  have hd := (decodeDifopPkt_echo_mode sampleExt sampleBase
    (sampleDifop 0x5802 0x01 (caliBytes 0 0 0) (caliBytes 0 0 0)) (by decide)).2.1 (by decide)
  have he := (decodeDifopPkt_echo_mode sampleExt sampleBase
    (sampleDifop 0x5802 0x02 (caliBytes 0 0 0) (caliBytes 0 0 0)) (by decide)).2.1 (by decide)
  ⟨ha, hb, hc, ⟨hd.1, hd.2 (by decide)⟩, ⟨he.1, he.2 (by decide)⟩⟩

/-- C8: for a packet whose id differs from `RS32_DIFOP_ID`, `decodeDifopPkt`
returns -2 and the decoder after the call is the decoder before it (rotation
speed, echo mode, packets per frame, both angle tables, the flag and every
other member); for a packet with the right id and a nonzero rotation speed it
returns 0. -/
theorem decodeDifopPkt_signature (ext : External) (self : DecoderBase) (pkt : RS32DifopPkt) :
    (pkt.id.val ≠ RS32_DIFOP_ID → decodeDifopPkt ext self pkt = .ok (-2, self)) ∧
    (pkt.id.val = RS32_DIFOP_ID → RS_SWAP_SHORT pkt.rpm ≠ 0 →
      ∃ s : DecoderBase, decodeDifopPkt ext self pkt = .ok (0, s)) := by
  refine ⟨decodeDifopPkt_bad_id ext self pkt, fun hid hrpm => ?_⟩
  obtain ⟨s, hs, -⟩ := decodeDifopPkt_ok ext self pkt hid hrpm
  exact ⟨s, hs⟩

/-- C8 at sample packets: a packet with id 0 returns -2 and the decoder is
unchanged; a packet with the right id and 600 rpm returns 0. -/
theorem decodeDifopPkt_signature_sample :
    decodeDifopPkt sampleExt sampleBase
      { sampleDifop 0x5802 1 (caliBytes 1 2 3) (caliBytes 0 0 0) with id := 0 }
      = .ok (-2, sampleBase) ∧
    RS_SWAP_SHORT (sampleDifop 0x5802 1 (caliBytes 1 2 3) (caliBytes 0 0 0)).rpm = 600 ∧
    ∃ s : DecoderBase, decodeDifopPkt sampleExt sampleBase
      (sampleDifop 0x5802 1 (caliBytes 1 2 3) (caliBytes 0 0 0)) = .ok (0, s) :=
  ⟨(decodeDifopPkt_signature sampleExt sampleBase
      { sampleDifop 0x5802 1 (caliBytes 1 2 3) (caliBytes 0 0 0) with id := 0 }).1 (by decide),
   by decide,
   (decodeDifopPkt_signature sampleExt sampleBase
      (sampleDifop 0x5802 1 (caliBytes 1 2 3) (caliBytes 0 0 0))).2 (by decide) (by decide)⟩

/-! ## The calibration loop -/

theorem caliLoop_succ (pkt : RS32DifopPkt) (self : DecoderBase) (n : Nat) (h : n < 32) :
    caliLoop pkt self (n + 1) = caliStep pkt (caliLoop pkt self n) ⟨n, h⟩ := by
  unfold caliLoop
  have hget : (List.finRange 32)[n]? = some ⟨n, h⟩ := by
    rw [List.getElem?_eq_getElem (by simpa using h)]
    simp [List.getElem_finRange]
  rw [List.take_succ, hget, List.foldl_append]
  rfl

theorem caliLoop_neg (pkt : RS32DifopPkt) (self : DecoderBase) (i : Fin 32) :
    (caliLoop pkt self (i.val + 1)).neg = horiSign pkt self i := by
  rw [caliLoop_succ pkt self i.val i.isLt]
  rfl

theorem caliLoop_vert (pkt : RS32DifopPkt) (self : DecoderBase) (i : Fin 32) :
    ∀ n : Nat, i.val < n → n ≤ 32 →
      (caliLoop pkt self n).vert_angle_list_ i.val
        = caliAngle (pkt.pitch_cali ⟨i.val * 3 + 1, by omega⟩).val
            (pkt.pitch_cali ⟨i.val * 3 + 2, by omega⟩).val (vertSign pkt self i) := by
  intro n
  induction n with
  | zero => intro h; omega
  | succ n ih =>
    intro hlt hle
    rcases Nat.eq_or_lt_of_le (Nat.le_of_lt_succ hlt) with heq | hlt2
    · subst heq
      rw [caliLoop_succ pkt self i.val i.isLt]
      simp only [caliStep, Function.update_same]
      rfl
    · have hne : i.val ≠ n := by omega
      rw [caliLoop_succ pkt self n (by omega)]
      simp only [caliStep, Function.update_noteq hne]
      exact ih hlt2 (by omega)

theorem caliLoop_hori (pkt : RS32DifopPkt) (self : DecoderBase) (i : Fin 32) :
    ∀ n : Nat, i.val < n → n ≤ 32 →
      (caliLoop pkt self n).hori_angle_list_ i.val
        = caliAngle (pkt.yaw_cali ⟨i.val * 3 + 1, by omega⟩).val
            (pkt.yaw_cali ⟨i.val * 3 + 2, by omega⟩).val (horiSign pkt self i) := by
  intro n
  induction n with
  | zero => intro h; omega
  | succ n ih =>
    intro hlt hle
    rcases Nat.eq_or_lt_of_le (Nat.le_of_lt_succ hlt) with heq | hlt2
    · subst heq
      rw [caliLoop_succ pkt self i.val i.isLt]
      simp only [caliStep, Function.update_same]
      rfl
    · have hne : i.val ≠ n := by omega
      rw [caliLoop_succ pkt self n (by omega)]
      simp only [caliStep, Function.update_noteq hne]
      exact ih hlt2 (by omega)

/-- The angle tables after a packet that loads the calibration: entry `i` of
each table is the angle of its triplet with the sign of `vertSign`, resp.
`horiSign`. -/
theorem decodeDifopPkt_tables (ext : External) (self : DecoderBase) (pkt : RS32DifopPkt)
    (hid : pkt.id.val = RS32_DIFOP_ID) (hrpm : RS_SWAP_SHORT pkt.rpm ≠ 0)
    (hflag : self.difop_flag_ = false) (hph : placeholder pkt = false) :
    ∃ s : DecoderBase, decodeDifopPkt ext self pkt = .ok (0, s) ∧
      ∀ i : Fin 32,
        s.vert_angle_list_ i.val
          = caliAngle (pkt.pitch_cali ⟨i.val * 3 + 1, by omega⟩).val
              (pkt.pitch_cali ⟨i.val * 3 + 2, by omega⟩).val (vertSign pkt self i) ∧
        s.hori_angle_list_ i.val
          = caliAngle (pkt.yaw_cali ⟨i.val * 3 + 1, by omega⟩).val
              (pkt.yaw_cali ⟨i.val * 3 + 2, by omega⟩).val (horiSign pkt self i) := by
  obtain ⟨s, hs, -, -, -, hload⟩ := decodeDifopPkt_ok ext self pkt hid hrpm
  obtain ⟨-, hv, hh⟩ := hload ⟨hflag, hph⟩
  refine ⟨s, hs, fun i => ⟨?_, ?_⟩⟩
  · rw [hv]; exact caliLoop_vert pkt self i 32 i.isLt (Nat.le_refl _)
  · rw [hh]; exact caliLoop_hori pkt self i 32 i.isLt (Nat.le_refl _)

theorem nextNeg_zero (neg : Int) : nextNeg 0 neg = 1 := by simp [nextNeg]

theorem nextNeg_one (neg : Int) : nextNeg 1 neg = -1 := by simp [nextNeg]

theorem nextNeg_other (lsb neg : Int) (h0 : lsb ≠ 0) (h1 : lsb ≠ 1) : nextNeg lsb neg = neg := by
  simp [nextNeg, h0, h1]

theorem caliAngle_eq (mid msb sgn : Int) :
    caliAngle mid msb sgn
      = FP.mul binary32 (FP.ofInt binary32 (sgn * (256 * mid + msb))) tenth := by
  unfold caliAngle
  congr 2
  ring

/-- C9: after a non-placeholder packet decoded with `difop_flag_` clear, for
every channel `i` whose vertical sign byte is 0 (`sgn = 1`) or 1
(`sgn = -1`) the stored vertical angle is the `float` product of the integer
`sgn * (256 * pitch_cali[3i+1] + pitch_cali[3i+2])` with `0.1f`, and lies
between -6553.5 and 6553.5; the same holds for the horizontal angle and the
bytes of `yaw_cali`. -/
theorem decodeDifopPkt_angle_value (ext : External) (self : DecoderBase) (pkt : RS32DifopPkt)
    (hid : pkt.id.val = RS32_DIFOP_ID) (hrpm : RS_SWAP_SHORT pkt.rpm ≠ 0)
    (hflag : self.difop_flag_ = false) (hph : placeholder pkt = false) (i : Fin 32) :
    ∃ s : DecoderBase, decodeDifopPkt ext self pkt = .ok (0, s) ∧
      (∀ sgn : Int,
        ((pkt.pitch_cali ⟨i.val * 3, by omega⟩).val = 0 ∧ sgn = 1) ∨
        ((pkt.pitch_cali ⟨i.val * 3, by omega⟩).val = 1 ∧ sgn = -1) →
        s.vert_angle_list_ i.val
          = FP.mul binary32
              (FP.ofInt binary32
                (sgn * (256 * ((pkt.pitch_cali ⟨i.val * 3 + 1, by omega⟩).val : Int)
                  + ((pkt.pitch_cali ⟨i.val * 3 + 2, by omega⟩).val : Int)))) tenth ∧
        FP.le (s.vert_angle_list_ i.val) (FP.fin 13107 (-1)) = true ∧
        FP.le (FP.fin (-13107) (-1)) (s.vert_angle_list_ i.val) = true) ∧
      (∀ sgn : Int,
        ((pkt.yaw_cali ⟨i.val * 3, by omega⟩).val = 0 ∧ sgn = 1) ∨
        ((pkt.yaw_cali ⟨i.val * 3, by omega⟩).val = 1 ∧ sgn = -1) →
        s.hori_angle_list_ i.val
          = FP.mul binary32
              (FP.ofInt binary32
                (sgn * (256 * ((pkt.yaw_cali ⟨i.val * 3 + 1, by omega⟩).val : Int)
                  + ((pkt.yaw_cali ⟨i.val * 3 + 2, by omega⟩).val : Int)))) tenth ∧
        FP.le (s.hori_angle_list_ i.val) (FP.fin 13107 (-1)) = true ∧
        FP.le (FP.fin (-13107) (-1)) (s.hori_angle_list_ i.val) = true) := by
  obtain ⟨s, hs, htab⟩ := decodeDifopPkt_tables ext self pkt hid hrpm hflag hph
  obtain ⟨hv, hh⟩ := htab i
  have hbyte : ∀ b : Fin 256, (0 : Int) ≤ (b.val : Int) ∧ ((b.val : Int)) ≤ 255 := by
    intro b
    have := b.isLt
    omega
  refine ⟨s, hs, fun sgn hsgn => ?_, fun sgn hsgn => ?_⟩
  · have hsign : vertSign pkt self i = sgn := by
      unfold vertSign
      rcases hsgn with ⟨h, rfl⟩ | ⟨h, rfl⟩
      · rw [h]; exact nextNeg_zero _
      · rw [h]; exact nextNeg_one _
    have hpm : sgn = 1 ∨ sgn = -1 := by rcases hsgn with ⟨-, h⟩ | ⟨-, h⟩ <;> simp [h]
    rw [hv, hsign]
    exact ⟨caliAngle_eq _ _ _, caliAngle_bound _ _ _ (hbyte _) (hbyte _) hpm⟩
  · have hsign : horiSign pkt self i = sgn := by
      unfold horiSign
      rcases hsgn with ⟨h, rfl⟩ | ⟨h, rfl⟩
      · rw [h]; exact nextNeg_zero _
      · rw [h]; exact nextNeg_one _
    have hpm : sgn = 1 ∨ sgn = -1 := by rcases hsgn with ⟨-, h⟩ | ⟨-, h⟩ <;> simp [h]
    rw [hh, hsign]
    exact ⟨caliAngle_eq _ _ _, caliAngle_bound _ _ _ (hbyte _) (hbyte _) hpm⟩

/-- C9 at the packet `signPkt`, channel 0: the vertical triplet 00 00 05
gives the product `5 * 0.1f`, which is 0.5; the horizontal triplet 01 00 07
gives `-7 * 0.1f`, which is `-11744051 * 2^-24`, the `float` next to -0.7. -/
theorem decodeDifopPkt_angle_value_sample :
    ∃ s : DecoderBase, decodeDifopPkt sampleExt sampleBase signPkt = .ok (0, s) ∧
      s.vert_angle_list_ 0 = FP.fin 8388608 (-24) ∧
      s.hori_angle_list_ 0 = FP.fin (-11744051) (-24) := by
  obtain ⟨s, hs, hv, hh⟩ := decodeDifopPkt_angle_value sampleExt sampleBase signPkt
    (by decide) (by decide) rfl (by decide) 0
  refine ⟨s, hs, ?_, ?_⟩
  · exact (hv 1 (Or.inl ⟨by decide, rfl⟩)).1.trans (by decide)
  · exact (hh (-1) (Or.inr ⟨by decide, rfl⟩)).1.trans (by decide)

/-- C10, what the source does: a triplet whose sign byte is neither 0 nor 1
is given the sign of the triplet decoded just before it, and the loop
decodes, channel by channel, first the vertical and then the horizontal
triplet.  So the vertical angle of channel `i >= 1` takes the sign given to
the horizontal angle of channel `i - 1`, and the horizontal angle of channel
`i` takes the sign given to the vertical angle of the same channel; the
call returns 0. -/
theorem decodeDifopPkt_sign_reuse (ext : External) (self : DecoderBase) (pkt : RS32DifopPkt)
    (hid : pkt.id.val = RS32_DIFOP_ID) (hrpm : RS_SWAP_SHORT pkt.rpm ≠ 0)
    (hflag : self.difop_flag_ = false) (hph : placeholder pkt = false) (i : Fin 32)
    (hi : 1 ≤ i.val) :
    ∃ s : DecoderBase, decodeDifopPkt ext self pkt = .ok (0, s) ∧
      (∀ j : Fin 32,
        s.vert_angle_list_ j.val
          = caliAngle (pkt.pitch_cali ⟨j.val * 3 + 1, by omega⟩).val
              (pkt.pitch_cali ⟨j.val * 3 + 2, by omega⟩).val (vertSign pkt self j) ∧
        s.hori_angle_list_ j.val
          = caliAngle (pkt.yaw_cali ⟨j.val * 3 + 1, by omega⟩).val
              (pkt.yaw_cali ⟨j.val * 3 + 2, by omega⟩).val (horiSign pkt self j)) ∧
      ((pkt.pitch_cali ⟨i.val * 3, by omega⟩).val ≠ 0 ∧
        (pkt.pitch_cali ⟨i.val * 3, by omega⟩).val ≠ 1 →
        vertSign pkt self i = horiSign pkt self ⟨i.val - 1, by omega⟩) ∧
      ((pkt.yaw_cali ⟨i.val * 3, by omega⟩).val ≠ 0 ∧
        (pkt.yaw_cali ⟨i.val * 3, by omega⟩).val ≠ 1 →
        horiSign pkt self i = vertSign pkt self i) := by
  obtain ⟨s, hs, htab⟩ := decodeDifopPkt_tables ext self pkt hid hrpm hflag hph
  refine ⟨s, hs, htab, fun hv => ?_, fun hh => ?_⟩
  · have hprev := caliLoop_neg pkt self ⟨i.val - 1, by omega⟩
    have hidx : i.val - 1 + 1 = i.val := by omega
    simp only [hidx] at hprev
    rw [← hprev]
    unfold vertSign
    exact nextNeg_other _ _ (by exact_mod_cast hv.1) (by exact_mod_cast hv.2)
  · unfold horiSign
    exact nextNeg_other _ _ (by exact_mod_cast hh.1) (by exact_mod_cast hh.2)

/-- C10 at the packet `signPkt`, channel 1, whose vertical sign byte is 2:
the vertical angle of channel 1 takes the sign -1 given to the horizontal
angle of channel 0. -/
theorem decodeDifopPkt_sign_reuse_sample :
    ∃ s : DecoderBase, decodeDifopPkt sampleExt sampleBase signPkt = .ok (0, s) ∧
      vertSign signPkt sampleBase 1 = horiSign signPkt sampleBase 0 ∧
      horiSign signPkt sampleBase 0 = -1 := by
  obtain ⟨s, hs, -, hv, -⟩ := decodeDifopPkt_sign_reuse sampleExt sampleBase signPkt
    (by decide) (by decide) rfl (by decide) 1 (by decide)
  exact ⟨s, hs, hv ⟨by decide, by decide⟩, by decide⟩

/-- C10 as stated fails at the packet `signPkt`: the vertical triplet of
channel 1 has the sign byte 2 and the magnitude 10, the vertical angle of
channel 0 was given the sign +1, yet the stored vertical angle of channel 1
is -1.0 and not the angle +1.0 that the sign of channel 0 would give. -/
theorem sign_of_previous_channel_counterexample :
    (signPkt.pitch_cali 3).val ≠ 0 ∧ (signPkt.pitch_cali 3).val ≠ 1 ∧
    vertSign signPkt sampleBase 0 = 1 ∧
    (decodeDifopPkt sampleExt sampleBase signPkt).toOption.map
        (fun r => r.2.vert_angle_list_ 1) = some (FP.fin (-8388608) (-23)) ∧
    caliAngle (signPkt.pitch_cali 4).val (signPkt.pitch_cali 5).val
        (vertSign signPkt sampleBase 0) = FP.fin 8388608 (-23) ∧
    (decodeDifopPkt sampleExt sampleBase signPkt).toOption.map
        (fun r => r.2.vert_angle_list_ 1)
      ≠ some (caliAngle (signPkt.pitch_cali 4).val (signPkt.pitch_cali 5).val
          (vertSign signPkt sampleBase 0)) := by
  decide

/-! ## Packets per frame -/

/-- C12: for a packet with the right id, the division of `decodeDifopPkt` is
defined exactly when the rotation speed is nonzero.  With a nonzero speed the
call returns 0 and stores the integer quotient `180000 / rpm` (dual-echo) or
`90000 / rpm` (otherwise); with a zero speed it stops at the division,
whatever the return-mode byte, with the rotation speed and echo mode stored
and the angle tables and the flag as they were. -/
theorem decodeDifopPkt_division (ext : External) (self : DecoderBase) (pkt : RS32DifopPkt)
    (hid : pkt.id.val = RS32_DIFOP_ID) :
    (RS_SWAP_SHORT pkt.rpm ≠ 0 →
      ∃ s : DecoderBase, decodeDifopPkt ext self pkt = .ok (0, s) ∧
        s.pkts_per_frame_ = (if s.echo_mode_ = ext.ECHO_DUAL
          then 180000 / RS_SWAP_SHORT pkt.rpm else 90000 / RS_SWAP_SHORT pkt.rpm)) ∧
    (RS_SWAP_SHORT pkt.rpm = 0 →
      ∃ s : DecoderBase, decodeDifopPkt ext self pkt = .error (Fault.divisionByZero s) ∧
        s.rpm_ = 0 ∧ s.difop_flag_ = self.difop_flag_ ∧
        s.vert_angle_list_ = self.vert_angle_list_ ∧
        s.hori_angle_list_ = self.hori_angle_list_) ∧
    ((∃ s : DecoderBase, decodeDifopPkt ext self pkt = .error (Fault.divisionByZero s)) ↔
      RS_SWAP_SHORT pkt.rpm = 0) := by
  have hok : RS_SWAP_SHORT pkt.rpm ≠ 0 →
      ∃ s : DecoderBase, decodeDifopPkt ext self pkt = .ok (0, s) ∧
        s.pkts_per_frame_ = (if s.echo_mode_ = ext.ECHO_DUAL
          then 180000 / RS_SWAP_SHORT pkt.rpm else 90000 / RS_SWAP_SHORT pkt.rpm) := by
    intro hrpm
    unfold decodeDifopPkt
    simp only [hid, ne_eq, not_true_eq_false, if_false, RS32_PKT_RATE]
    split_ifs <;> simp_all
  have hfault : RS_SWAP_SHORT pkt.rpm = 0 →
      ∃ s : DecoderBase, decodeDifopPkt ext self pkt = .error (Fault.divisionByZero s) ∧
        s.rpm_ = 0 ∧ s.difop_flag_ = self.difop_flag_ ∧
        s.vert_angle_list_ = self.vert_angle_list_ ∧
        s.hori_angle_list_ = self.hori_angle_list_ := by
    intro hrpm
    unfold decodeDifopPkt
    simp only [hid, ne_eq, not_true_eq_false, if_false]
    split_ifs <;> simp_all
  refine ⟨hok, hfault, ⟨fun h => ?_, fun h => ?_⟩⟩
  · by_contra hrpm
    obtain ⟨s, hs⟩ := h
    obtain ⟨t, ht, -⟩ := hok hrpm
    rw [ht] at hs
    cases hs
  · obtain ⟨s, hs, -⟩ := hfault h
    exact ⟨s, hs⟩

/-- C12 at sample packets: 600 rpm returns with 150 packets per frame in
mode 1; a rotation speed of zero stops at the division in mode 1 and in
dual-echo mode alike. -/
theorem decodeDifopPkt_division_sample :
    (∃ s : DecoderBase, decodeDifopPkt sampleExt sampleBase
        (sampleDifop 0x5802 1 (caliBytes 1 2 3) (caliBytes 0 0 0)) = .ok (0, s) ∧
      s.pkts_per_frame_ = 150) ∧
    (∃ s : DecoderBase, decodeDifopPkt sampleExt sampleBase
        (sampleDifop 0 1 (caliBytes 1 2 3) (caliBytes 0 0 0))
        = .error (Fault.divisionByZero s)) ∧
    (∃ s : DecoderBase, decodeDifopPkt sampleExt sampleBase
        (sampleDifop 0 0 (caliBytes 1 2 3) (caliBytes 0 0 0))
        = .error (Fault.divisionByZero s)) := by
  obtain ⟨s, hs, hp⟩ := (decodeDifopPkt_division sampleExt sampleBase
    (sampleDifop 0x5802 1 (caliBytes 1 2 3) (caliBytes 0 0 0)) (by decide)).1 (by decide)
  have hecho : s.echo_mode_ = 1 := by
    have h1 : (stateAfter (decodeDifopPkt sampleExt sampleBase
      (sampleDifop 0x5802 1 (caliBytes 1 2 3) (caliBytes 0 0 0)))).echo_mode_ = 1 := by decide
    rw [hs] at h1
    exact h1
  refine ⟨⟨s, hs, ?_⟩, ?_, ?_⟩
  · rw [hp, hecho]; decide
  · exact (decodeDifopPkt_division sampleExt sampleBase
      (sampleDifop 0 1 (caliBytes 1 2 3) (caliBytes 0 0 0)) (by decide)).2.2.mpr (by decide)
  · exact (decodeDifopPkt_division sampleExt sampleBase
      (sampleDifop 0 0 (caliBytes 1 2 3) (caliBytes 0 0 0)) (by decide)).2.2.mpr (by decide)

/-- C11 at 700 rpm (wire bytes 02 BC) in mode 1: the stored packets per frame
are 128, the integer quotient of 90000 by 700, and not the ceiling 129 of the
exact quotient. -/
theorem pkts_per_frame_at_700_rpm :
    RS_SWAP_SHORT (sampleDifop 0xBC02 1 (caliBytes 1 2 3) (caliBytes 0 0 0)).rpm = 700 ∧
    (stateAfter (decodeDifopPkt sampleExt sampleBase
      (sampleDifop 0xBC02 1 (caliBytes 1 2 3) (caliBytes 0 0 0)))).echo_mode_ = 1 ∧
    (stateAfter (decodeDifopPkt sampleExt sampleBase
      (sampleDifop 0xBC02 1 (caliBytes 1 2 3) (caliBytes 0 0 0)))).pkts_per_frame_ = 128 ∧
    ⌈(90000 : ℚ) / 700⌉ = 129 := by
  refine ⟨by decide, by decide, by decide, ?_⟩
  rw [Int.ceil_eq_iff]
  norm_num

/-! ## Return value, height and azimuth delta -/

/-- C14: `decodeMsopPkt` sets `height` to `beam_num_`, which the constructor
sets to 32 and neither decoder changes, also when the header id is refused;
for a packet with the right header id it returns the azimuth of block 0, a
value in 0..65535, whatever the block ids and the number of points. -/
theorem decodeMsopPkt_return (ext : External) (self : DecoderBase) (pkt : RS32MsopPkt)
    (vec : List Point) :
    (decodeMsopPkt ext self pkt vec).height = self.beam_num_ ∧
    (self.beam_num_ = 32 → (decodeMsopPkt ext self pkt vec).height = 32) ∧
    (∀ base : DecoderBase, (DecoderRS32 ext base).beam_num_ = 32) ∧
    (decodeMsopPkt ext self pkt vec).self.beam_num_ = self.beam_num_ ∧
    (∀ dpkt : RS32DifopPkt,
      (stateAfter (decodeDifopPkt ext self dpkt)).beam_num_ = self.beam_num_) ∧
    (pkt.header.id.val = RS32_MSOP_ID →
      (decodeMsopPkt ext self pkt vec).ret = blockAzimuth pkt 0 ∧
      0 ≤ (decodeMsopPkt ext self pkt vec).ret ∧
      (decodeMsopPkt ext self pkt vec).ret < 65536) := by
  have hheight : (decodeMsopPkt ext self pkt vec).height = self.beam_num_ := by
    unfold decodeMsopPkt
    split_ifs <;> rfl
  refine ⟨hheight, fun h => hheight.trans h, fun base => ?_, ?_, fun dpkt => ?_, fun hid => ?_⟩
  · unfold DecoderRS32
    simp only
    split_ifs <;> rfl
  · unfold decodeMsopPkt
    split_ifs <;> rfl
  · unfold decodeDifopPkt stateAfter
    simp only
    split_ifs <;> rfl
  · have hr : (decodeMsopPkt ext self pkt vec).ret = blockAzimuth pkt 0 := by
      simp [decodeMsopPkt, hid, blockAzimuth]
    have hlt : RS_SWAP_SHORT (pkt.blocks 0).azimuth < 65536 := by
      have := (pkt.blocks 0).azimuth.isLt
      unfold RS_SWAP_SHORT
      omega
    have hb : blockAzimuth pkt 0 = (RS_SWAP_SHORT (pkt.blocks 0).azimuth : Int) := by
      simp [blockAzimuth]
    rw [hr, hb]
    exact ⟨rfl, by omega, by omega⟩

/-- C14 at the packet `noBlockPkt`, whose block 0 has azimuth 300 and no
block id: the call returns 300, appends nothing and sets `height` to 32; a
packet with a wrong header id sets `height` to 32 as well. -/
theorem decodeMsopPkt_return_sample :
    ((noBlockPkt.blocks 0).id.val ≠ RS32_BLOCK_ID ∧
      (decodeMsopPkt sampleExt sampleBase noBlockPkt []).vec = []) ∧
    (decodeMsopPkt sampleExt sampleBase noBlockPkt []).ret = 300 ∧
    (decodeMsopPkt sampleExt sampleBase noBlockPkt []).height = 32 ∧
    (decodeMsopPkt sampleExt sampleBase (samplePkt 0) []).height = 32 :=
  have h := decodeMsopPkt_return sampleExt sampleBase noBlockPkt []
  have h0 := decodeMsopPkt_return sampleExt sampleBase (samplePkt 0) []
  ⟨⟨by decide, by decide⟩, (h.2.2.2.2.2 (by decide)).1.trans (by decide), h.2.1 rfl, h0.2.1 rfl⟩

/-- C15: the delta of block `i`.  In dual-echo mode it is
`(36000 + az[i+2] - az[i]) % 36000` for `i < 10` and
`(36000 + az[i] - az[i-2]) % 36000` for `i` = 10 or 11; in any other mode it
is `(36000 + az[i+1] - az[i]) % 36000` for `i < 11` and
`(36000 + az[11] - az[10]) % 36000` for `i = 11`.  The index of the other
block lies in 0..11 and its block id plays no part.  `%` is the remainder of
C++, which is the mathematical remainder for azimuths in 0..35999. -/
theorem azi_diff_neighbour (ext : External) (self : DecoderBase) (pkt : RS32MsopPkt)
    (i : Fin 12) :
    (self.echo_mode_ = ext.ECHO_DUAL →
      (i.val < 10 → i.val + 2 ≤ 11 ∧
        azi_diff_int ext self pkt i
          = Int.tmod (36000 + blockAzimuth pkt (i.val + 2) - blockAzimuth pkt i.val) 36000) ∧
      (10 ≤ i.val → i.val - 2 ≤ 11 ∧
        azi_diff_int ext self pkt i
          = Int.tmod (36000 + blockAzimuth pkt i.val - blockAzimuth pkt (i.val - 2)) 36000)) ∧
    (self.echo_mode_ ≠ ext.ECHO_DUAL →
      (i.val < 11 → i.val + 1 ≤ 11 ∧
        azi_diff_int ext self pkt i
          = Int.tmod (36000 + blockAzimuth pkt (i.val + 1) - blockAzimuth pkt i.val) 36000) ∧
      (i.val = 11 →
        azi_diff_int ext self pkt i
          = Int.tmod (36000 + blockAzimuth pkt 11 - blockAzimuth pkt 10) 36000)) ∧
    (∀ j k : Nat, blockAzimuth pkt j < 36000 → blockAzimuth pkt k < 36000 →
      Int.tmod (36000 + blockAzimuth pkt j - blockAzimuth pkt k) 36000
        = (36000 + blockAzimuth pkt j - blockAzimuth pkt k) % 36000) := by
  have hi := i.isLt
  have haz : ∀ (j : Nat) (h : j < 12),
      (RS_SWAP_SHORT (pkt.blocks ⟨j, h⟩).azimuth : Int) = blockAzimuth pkt j := by
    intro j h
    simp [blockAzimuth, h]
  have hnn : ∀ j : Nat, 0 ≤ blockAzimuth pkt j := by
    intro j
    unfold blockAzimuth
    split_ifs
    · exact Int.ofNat_nonneg _
    · exact le_refl _
  refine ⟨fun hd => ⟨fun hlt => ⟨by omega, ?_⟩, fun hge => ⟨by omega, ?_⟩⟩,
    fun hs => ⟨fun hlt => ⟨by omega, ?_⟩, fun h11 => ?_⟩, fun j k hj hk => ?_⟩
  · have h2 : i.val < RS32_BLOCKS_PER_PKT - 2 := by simp only [RS32_BLOCKS_PER_PKT]; omega
    simp only [azi_diff_int, hd, if_true, h2, dite_true, haz]
  · have h2 : ¬ i.val < RS32_BLOCKS_PER_PKT - 2 := by simp only [RS32_BLOCKS_PER_PKT]; omega
    simp only [azi_diff_int, hd, if_true, h2, dite_false, haz]
  · have h1 : i.val < RS32_BLOCKS_PER_PKT - 1 := by simp only [RS32_BLOCKS_PER_PKT]; omega
    simp only [azi_diff_int, hs, if_false, h1, dite_true, haz]
  · have h1 : ¬ i.val < RS32_BLOCKS_PER_PKT - 1 := by simp only [RS32_BLOCKS_PER_PKT]; omega
    have h10 : i.val - 1 = 10 := by omega
    simp only [azi_diff_int, hs, if_false, h1, dite_false, haz, h10]
    rw [h11]
  · have := hnn j
    have := hnn k
    exact Int.tmod_eq_emod (by omega) (by norm_num)

/-- C15 at the packet `wrapPkt` (azimuth 35999 in block 0, azimuth 1 in the
others), in mode 1 and in dual-echo mode: block 0 has delta 2 either way,
block 11 has delta 0 and block 10 has delta 1 - 1 = 0 in dual-echo mode. -/
theorem azi_diff_neighbour_sample :
    azi_diff_int sampleExt sampleBase wrapPkt 0 = 2 ∧
    azi_diff_int sampleExt { sampleBase with echo_mode_ := 0 } wrapPkt 0 = 2 ∧
    azi_diff_int sampleExt sampleBase wrapPkt 11 = 0 ∧
    azi_diff_int sampleExt { sampleBase with echo_mode_ := 0 } wrapPkt 10 = 0 :=
  have h1 := (azi_diff_neighbour sampleExt sampleBase wrapPkt 0).2.1 (by decide)
  have h2 := (azi_diff_neighbour sampleExt { sampleBase with echo_mode_ := 0 } wrapPkt 0).1 rfl
  have h3 := (azi_diff_neighbour sampleExt sampleBase wrapPkt 11).2.1 (by decide)
  have h4 := (azi_diff_neighbour sampleExt { sampleBase with echo_mode_ := 0 } wrapPkt 10).1 rfl
  ⟨(h1.1 (by decide)).2.trans (by decide), (h2.1 (by decide)).2.trans (by decide),
   (h3.2 rfl).trans (by decide), (h4.2 (by decide)).2.trans (by decide)⟩

/-- C17, what the source guarantees: when no block azimuth of the packet
exceeds 36000, the delta of every block, in every echo mode, lies in
0..35999 and the `float azi_diff` is not negative. -/
theorem azi_diff_nonneg (ext : External) (self : DecoderBase) (pkt : RS32MsopPkt) (i : Fin 12)
    (h : ∀ j : Fin 12, RS_SWAP_SHORT (pkt.blocks j).azimuth ≤ 36000) :
    0 ≤ azi_diff_int ext self pkt i ∧ azi_diff_int ext self pkt i < 36000 ∧
    FP.le (FP.fin 0 0) (azi_diff ext self pkt i) = true := by
  have hrange : 0 ≤ azi_diff_int ext self pkt i ∧ azi_diff_int ext self pkt i < 36000 := by
    have hi := h i
    unfold azi_diff_int
    simp only
    split_ifs with h1 h2 h3
    · have hj := h ⟨i.val + 2, by simp only [RS32_BLOCKS_PER_PKT] at h2; omega⟩
      rw [Int.tmod_eq_emod (by omega) (by norm_num)]
      omega
    · have hj := h ⟨i.val - 2, by omega⟩
      rw [Int.tmod_eq_emod (by omega) (by norm_num)]
      omega
    · have hj := h ⟨i.val + 1, by simp only [RS32_BLOCKS_PER_PKT] at h3; omega⟩
      rw [Int.tmod_eq_emod (by omega) (by norm_num)]
      omega
    · have hj := h ⟨i.val - 1, by omega⟩
      rw [Int.tmod_eq_emod (by omega) (by norm_num)]
      omega
  refine ⟨hrange.1, hrange.2, ?_⟩
  have hn : (azi_diff_int ext self pkt i).natAbs < 2 ^ binary32.prec := by
    have : (azi_diff_int ext self pkt i).natAbs < 36000 := by omega
    exact lt_trans this (by norm_num [binary32])
  unfold azi_diff
  rw [FP.ofInt_exact binary32 _ (by decide) (by decide) hn]
  simp only [FP.le, FP.scaled, min_self, sub_self, Int.toNat_zero, pow_zero, mul_one,
    decide_eq_true_eq]
  exact hrange.1

/-- C17 at the packet `wrapPkt`, whose azimuths 35999 and 1 do not exceed
36000: the delta of block 0 is not negative. -/
theorem azi_diff_nonneg_sample :
    0 ≤ azi_diff_int sampleExt sampleBase wrapPkt 0 ∧
    FP.le (FP.fin 0 0) (azi_diff sampleExt sampleBase wrapPkt 0) = true :=
  have h := azi_diff_nonneg sampleExt sampleBase wrapPkt 0 (by decide)
  ⟨h.1, h.2.2⟩

/-- C17 as stated fails at the packet `malformedPkt`: block 0 has the azimuth
field 65535 and block 1 the azimuth 0, and the delta of block 0 in mode 1 is
`(36000 + 0 - 65535) % 36000 = -29535`, a negative `float`. -/
theorem azi_diff_negative_counterexample :
    RS_SWAP_SHORT (malformedPkt.blocks 0).azimuth = 65535 ∧
    RS_SWAP_SHORT (malformedPkt.blocks 1).azimuth = 0 ∧
    azi_diff_int sampleExt sampleBase malformedPkt 0 = -29535 ∧
    azi_diff sampleExt sampleBase malformedPkt 0 = FP.fin (-29535) 0 ∧
    FP.lt (azi_diff sampleExt sampleBase malformedPkt 0) (FP.fin 0 0) = true := by
  decide

/-! ## Bounds on rounded values

A finite value `fin n e` stands for the rational number `n * 2^e`; the
lemmas compare these rationals. -/

theorem FP.two_pow_le_bitsAux (fuel : Nat) :
    ∀ m : Nat, m ≤ fuel → m ≠ 0 → 2 ^ (FP.bitsAux fuel m - 1) ≤ m := by
  induction fuel with
  | zero => intro m hm h0; omega
  | succ fuel ih =>
    intro m hm h0
    unfold FP.bitsAux
    rw [if_neg h0]
    by_cases h1 : m / 2 = 0
    · have hm1 : m = 1 := by omega
      subst hm1
      cases fuel <;> simp [FP.bitsAux]
    · have h2 := ih (m / 2) (by omega) h1
      have hpos : 1 ≤ FP.bitsAux fuel (m / 2) := by
        cases fuel with
        | zero => omega
        | succ k => unfold FP.bitsAux; rw [if_neg h1]; omega
      have : FP.bitsAux fuel (m / 2) + 1 - 1 = (FP.bitsAux fuel (m / 2) - 1) + 1 := by omega
      rw [this, pow_succ]
      omega

theorem FP.two_pow_le_bits (m : Nat) (h0 : m ≠ 0) : 2 ^ (FP.bits m - 1) ≤ m :=
  FP.two_pow_le_bitsAux m m (Nat.le_refl m) h0

theorem FP.bits_pos (m : Nat) (h0 : m ≠ 0) : 1 ≤ FP.bits m := by
  unfold FP.bits
  cases m with
  | zero => exact absurd rfl h0
  | succ k => unfold FP.bitsAux; rw [if_neg h0]; omega



theorem FP.V_shift (x : Nat) (e : Int) (k : Nat) :
    (x : ℚ) * 2 ^ (e + (k : Int)) = ((x * 2 ^ k : Nat) : ℚ) * 2 ^ e := by
  rw [zpow_add₀ (by norm_num : (2 : ℚ) ≠ 0), zpow_natCast]
  push_cast
  ring

theorem FP.V_le_iff (x y : Nat) (e : Int) :
    (x : ℚ) * 2 ^ e ≤ (y : ℚ) * 2 ^ e ↔ x ≤ y := by
  have h : (0 : ℚ) < 2 ^ e := zpow_pos (by norm_num) e
  rw [mul_le_mul_right h, Nat.cast_le]

theorem FP.V_lt_iff (x y : Nat) (e : Int) :
    (x : ℚ) * 2 ^ e < (y : ℚ) * 2 ^ e ↔ x < y := by
  have h : (0 : ℚ) < 2 ^ e := zpow_pos (by norm_num) e
  rw [mul_lt_mul_right h, Nat.cast_lt]

theorem FP.roundQuot_ge (m sh : Nat) (sticky : Bool) :
    m / 2 ^ sh ≤ FP.roundQuot m sh sticky := by
  unfold FP.roundQuot
  simp only
  split_ifs <;> omega

theorem FP.roundQuot_up (m sh : Nat) (sticky : Bool)
    (h : FP.roundQuot m sh sticky ≠ m / 2 ^ sh) : 1 ≤ m % 2 ^ sh := by
  unfold FP.roundQuot at h
  simp only at h
  split_ifs at h with hup
  · have hhalf : 1 ≤ 2 ^ (sh - 1) := Nat.one_le_two_pow
    simp only [Bool.or_eq_true, Bool.and_eq_true, decide_eq_true_eq] at hup
    rcases hup with hup | ⟨hup, -⟩ <;> omega
  · exact absurd rfl h

/-- Rounding up to a multiple: a quotient bounded by `T` rounds to at most `T`. -/
theorem FP.roundQuot_le_of_le (m sh T : Nat) (sticky : Bool) (h : m ≤ T * 2 ^ sh) :
    FP.roundQuot m sh sticky ≤ T := by
  have hq : m / 2 ^ sh ≤ T := Nat.div_le_of_le_mul (by rw [Nat.mul_comm]; exact h)
  by_cases hu : FP.roundQuot m sh sticky = m / 2 ^ sh
  · rw [hu]; exact hq
  · have hr := FP.roundQuot_up m sh sticky hu
    have hle := FP.roundQuot_le m sh sticky
    have hdm := Nat.div_add_mod m (2 ^ sh)
    have hlt : m / 2 ^ sh < T := by
      by_contra hc
      have hc' : T ≤ m / 2 ^ sh := by omega
      have : T * 2 ^ sh ≤ 2 ^ sh * (m / 2 ^ sh) := by
        rw [Nat.mul_comm]; exact Nat.mul_le_mul_left _ hc'
      omega
    omega

theorem FP.roundQuot_ge_of_ge (m sh T : Nat) (sticky : Bool) (h : T * 2 ^ sh ≤ m) :
    T ≤ FP.roundQuot m sh sticky := by
  have hq : T ≤ m / 2 ^ sh := (Nat.le_div_iff_mul_le (by positivity)).mpr h
  exact le_trans hq (FP.roundQuot_ge m sh sticky)



/-- A nonzero magnitude below a representable bound has its rounding exponent
at most the exponent of the bound. -/
theorem FP.exp_le_of_le (f : Fmt) (m : Nat) (e : Int) (B : Nat) (eB : Int)
    (hm : m ≠ 0) (hB : B < 2 ^ f.prec) (hemin : f.emin ≤ eB)
    (hv : (m : ℚ) * 2 ^ e ≤ (B : ℚ) * 2 ^ eB) :
    max (e + (FP.bits m : Int) - (f.prec : Int)) f.emin ≤ eB := by
  by_contra hc
  have hE : eB + 1 ≤ e + (FP.bits m : Int) - (f.prec : Int) := by
    rcases le_total (e + (FP.bits m : Int) - (f.prec : Int)) f.emin with h | h
    · rw [max_eq_right h] at hc; omega
    · rw [max_eq_left h] at hc; omega
  have hb := FP.two_pow_le_bits m hm
  have hbpos := FP.bits_pos m hm
  have h2 : (0 : ℚ) < 2 := by norm_num
  have hlow : (2 : ℚ) ^ ((f.prec : Int) + eB) ≤ (m : ℚ) * 2 ^ e := by
    have h1 : (2 : ℚ) ^ (((FP.bits m - 1 : Nat) : Int) + e) ≤ (m : ℚ) * 2 ^ e := by
      rw [zpow_add₀ (by norm_num : (2 : ℚ) ≠ 0), zpow_natCast]
      apply mul_le_mul_of_nonneg_right _ (le_of_lt (zpow_pos h2 e))
      exact_mod_cast hb
    refine le_trans (zpow_le_zpow_right₀ (by norm_num) ?_) h1
    have : ((FP.bits m - 1 : Nat) : Int) = (FP.bits m : Int) - 1 := by omega
    rw [this]; omega
  have hhigh : (B : ℚ) * 2 ^ eB < (2 : ℚ) ^ ((f.prec : Int) + eB) := by
    rw [zpow_add₀ (by norm_num : (2 : ℚ) ≠ 0), zpow_natCast]
    apply mul_lt_mul_of_pos_right _ (zpow_pos h2 eB)
    exact_mod_cast hB
  linarith

/-- Rounding a magnitude that a representable number `B * 2^eB` bounds from
above gives a finite value, at most that bound and at least every
representable number below the magnitude. -/
theorem FP.round_bounds (f : Fmt) (neg : Bool) (m : Nat) (e : Int) (sticky : Bool)
    (B : Nat) (eB : Int) (hprec : 1 ≤ f.prec) (hB : B < 2 ^ f.prec) (hemin : f.emin ≤ eB)
    (hemax : eB ≤ f.emax) (hv : (m : ℚ) * 2 ^ e ≤ (B : ℚ) * 2 ^ eB) :
    ∃ (q : Nat) (e1 : Int), FP.round f neg m e sticky = FP.fin (FP.signed neg q) e1 ∧
      (q : ℚ) * 2 ^ e1 ≤ (B : ℚ) * 2 ^ eB ∧
      ∀ (C : Nat) (eC : Int), C < 2 ^ f.prec → f.emin ≤ eC →
        (C : ℚ) * 2 ^ eC ≤ (m : ℚ) * 2 ^ e → (C : ℚ) * 2 ^ eC ≤ (q : ℚ) * 2 ^ e1 := by
  have h2 : (0 : ℚ) < 2 := by norm_num
  by_cases hm : m = 0
  · subst hm
    have hbits : FP.bits 0 = 0 := rfl
    by_cases hex : max (e + (FP.bits 0 : Int) - (f.prec : Int)) f.emin ≤ e
    · refine ⟨0, e, ?_, ?_, fun C eC _ _ h => h⟩
      · unfold FP.round
        simp only [if_pos hex]
        rw [if_neg (by intro h; exact h.1 rfl)]
      · simpa using hv
    · have hE : max (e + (FP.bits 0 : Int) - (f.prec : Int)) f.emin = f.emin := by
        rw [hbits] at hex ⊢
        apply max_eq_right
        by_contra hc
        push_neg at hc
        rw [max_eq_left (le_of_lt hc)] at hex
        omega
      have hq0 : FP.roundQuot 0 (f.emin - e).toNat sticky = 0 := by
        have h1 := FP.roundQuot_le_of_le 0 (f.emin - e).toNat 0 sticky (by simp)
        omega
      refine ⟨0, f.emin, ?_, ?_, fun C eC _ _ h => ?_⟩
      · rw [FP.round_inexact f neg 0 e sticky f.emin (f.emin - e).toNat hE rfl
          (by rw [hE] at hex; exact hex) ?_, hq0]
        rw [hq0]
        intro h
        rcases h with h | ⟨-, h⟩
        · omega
        · have : (0 : Nat) < 2 ^ f.prec := by positivity
          omega
      · simp only [Nat.cast_zero, zero_mul] at hv ⊢; exact hv
      · simp only [Nat.cast_zero, zero_mul] at h ⊢; exact h
  · have hEB := FP.exp_le_of_le f m e B eB hm hB hemin hv
    by_cases hex : max (e + (FP.bits m : Int) - (f.prec : Int)) f.emin ≤ e
    · refine ⟨m, e, ?_, hv, fun C eC _ _ h => h⟩
      unfold FP.round
      simp only [if_pos hex]
      rw [if_neg (by intro h; omega)]
    · generalize hE : max (e + (FP.bits m : Int) - (f.prec : Int)) f.emin = E at hEB hex
      obtain ⟨sh, hsh⟩ : ∃ sh : Nat, E = e + (sh : Int) := ⟨(E - e).toNat, by omega⟩
      obtain ⟨j, hj⟩ : ∃ j : Nat, eB = E + (j : Int) := ⟨(eB - E).toNat, by omega⟩
      have hshT : (E - e).toNat = sh := by omega
      -- the bound on the common scale
      have hBT : (B : ℚ) * 2 ^ eB = ((B * 2 ^ j * 2 ^ sh : Nat) : ℚ) * 2 ^ e := by
        rw [hj, FP.V_shift, hsh, FP.V_shift]
      have hmT : m ≤ B * 2 ^ j * 2 ^ sh := by
        rw [hBT] at hv
        exact (FP.V_le_iff _ _ _).mp hv
      have hrq := FP.roundQuot_le_of_le m sh (B * 2 ^ j) sticky hmT
      have hov : ¬(f.emax < E ∨ (E = f.emax ∧ FP.roundQuot m sh sticky = 2 ^ f.prec)) := by
        intro h
        rcases h with h | ⟨h1, h2⟩
        · omega
        · have hj0 : j = 0 := by omega
          subst hj0
          simp only [pow_zero, mul_one] at hrq
          omega
      refine ⟨FP.roundQuot m sh sticky, E,
        FP.round_inexact f neg m e sticky E sh hE hshT hex hov, ?_, fun C eC hC heC hCv => ?_⟩
      · rw [hj, FP.V_shift]
        exact (FP.V_le_iff _ _ _).mpr hrq
      · rcases le_or_lt E eC with hge | hlt
        · obtain ⟨i, hi⟩ : ∃ i : Nat, eC = E + (i : Int) := ⟨(eC - E).toNat, by omega⟩
          have hCT : (C : ℚ) * 2 ^ eC = ((C * 2 ^ i * 2 ^ sh : Nat) : ℚ) * 2 ^ e := by
            rw [hi, FP.V_shift, hsh, FP.V_shift]
          have hCm : C * 2 ^ i * 2 ^ sh ≤ m := by
            rw [hCT] at hCv
            exact (FP.V_le_iff _ _ _).mp hCv
          have := FP.roundQuot_ge_of_ge m sh (C * 2 ^ i) sticky hCm
          rw [hi, FP.V_shift]
          exact (FP.V_le_iff _ _ _).mpr this
        · -- the rounding exponent is not clamped, so the quotient is normalised
          have hEe : E = e + (FP.bits m : Int) - (f.prec : Int) := by
            rcases le_total (e + (FP.bits m : Int) - (f.prec : Int)) f.emin with h | h
            · rw [max_eq_right h] at hE; omega
            · rw [max_eq_left h] at hE; omega
          have hb := FP.two_pow_le_bits m hm
          have hbits : FP.bits m - 1 = (f.prec - 1) + sh := by omega
          have hqlow : 2 ^ (f.prec - 1) ≤ FP.roundQuot m sh sticky := by
            apply FP.roundQuot_ge_of_ge
            rw [← pow_add, ← hbits]
            exact hb
          have h1 : (C : ℚ) * 2 ^ eC < (2 : ℚ) ^ ((f.prec : Int) + eC) := by
            rw [zpow_add₀ (by norm_num : (2 : ℚ) ≠ 0), zpow_natCast]
            apply mul_lt_mul_of_pos_right _ (zpow_pos h2 eC)
            exact_mod_cast hC
          have h3 : (2 : ℚ) ^ ((f.prec : Int) + eC) ≤ (2 : ℚ) ^ (((f.prec - 1 : Nat) : Int) + E) := by
            apply zpow_le_zpow_right₀ (by norm_num)
            omega
          have h4 : (2 : ℚ) ^ (((f.prec - 1 : Nat) : Int) + E)
              ≤ (FP.roundQuot m sh sticky : ℚ) * 2 ^ E := by
            rw [zpow_add₀ (by norm_num : (2 : ℚ) ≠ 0), zpow_natCast]
            apply mul_le_mul_of_nonneg_right _ (le_of_lt (zpow_pos h2 E))
            exact_mod_cast hqlow
          linarith



theorem FP.natAbs_signed (neg : Bool) (q : Nat) : (FP.signed neg q).natAbs = q := by
  unfold FP.signed
  split_ifs <;> simp

theorem FP.signed_cast (neg : Bool) (q : Nat) :
    ((FP.signed neg q : Int) : ℚ) = if neg then -(q : ℚ) else (q : ℚ) := by
  unfold FP.signed
  split_ifs <;> simp

theorem FP.scaled_cast (n : Int) (ex e : Int) (h : e ≤ ex) :
    ((FP.scaled n ex e : Int) : ℚ) * 2 ^ e = (n : ℚ) * 2 ^ ex := by
  unfold FP.scaled
  obtain ⟨k, hk⟩ : ∃ k : Nat, ex = e + (k : Int) := ⟨(ex - e).toNat, by omega⟩
  have : (ex - e).toNat = k := by omega
  rw [this, hk, zpow_add₀ (by norm_num : (2 : ℚ) ≠ 0), zpow_natCast]
  push_cast
  ring

theorem FP.le_fin_iff (a ea b eb : Int) :
    FP.le (FP.fin a ea) (FP.fin b eb) = true ↔ (a : ℚ) * 2 ^ ea ≤ (b : ℚ) * 2 ^ eb := by
  simp only [FP.le, decide_eq_true_eq]
  rw [← FP.scaled_cast a ea (min ea eb) (min_le_left _ _),
    ← FP.scaled_cast b eb (min ea eb) (min_le_right _ _)]
  have h : (0 : ℚ) < 2 ^ (min ea eb) := zpow_pos (by norm_num) _
  rw [mul_le_mul_right h, Int.cast_le]

theorem FP.lt_fin_iff (a ea b eb : Int) :
    FP.lt (FP.fin a ea) (FP.fin b eb) = true ↔ (a : ℚ) * 2 ^ ea < (b : ℚ) * 2 ^ eb := by
  simp only [FP.lt, decide_eq_true_eq]
  rw [← FP.scaled_cast a ea (min ea eb) (min_le_left _ _),
    ← FP.scaled_cast b eb (min ea eb) (min_le_right _ _)]
  have h : (0 : ℚ) < 2 ^ (min ea eb) := zpow_pos (by norm_num) _
  rw [mul_lt_mul_right h, Int.cast_lt]

theorem FP.natAbs_cast (n : Int) : ((n.natAbs : Nat) : ℚ) = |(n : ℚ)| := by
  rw [Nat.cast_natAbs, Int.cast_abs]

/-- Rounding with a sign: the result is finite, has the sign asked for, and
its magnitude obeys the bounds of `FP.round_bounds`. -/
theorem FP.round_signed (f : Fmt) (neg : Bool) (m : Nat) (e : Int) (sticky : Bool)
    (B : Nat) (eB : Int) (hprec : 1 ≤ f.prec) (hB : B < 2 ^ f.prec) (hemin : f.emin ≤ eB)
    (hemax : eB ≤ f.emax) (hv : (m : ℚ) * 2 ^ e ≤ (B : ℚ) * 2 ^ eB) :
    ∃ (n : Int) (e1 : Int), FP.round f neg m e sticky = FP.fin n e1 ∧
      ((n.natAbs : Nat) : ℚ) * 2 ^ e1 ≤ (B : ℚ) * 2 ^ eB ∧
      (neg = false → 0 ≤ n) ∧ (neg = true → n ≤ 0) ∧
      ∀ (C : Nat) (eC : Int), C < 2 ^ f.prec → f.emin ≤ eC →
        (C : ℚ) * 2 ^ eC ≤ (m : ℚ) * 2 ^ e →
        (C : ℚ) * 2 ^ eC ≤ ((n.natAbs : Nat) : ℚ) * 2 ^ e1 := by
  obtain ⟨q, e1, hr, hub, hlb⟩ := FP.round_bounds f neg m e sticky B eB hprec hB hemin hemax hv
  refine ⟨FP.signed neg q, e1, hr, ?_, ?_, ?_, ?_⟩
  · rw [FP.natAbs_signed]; exact hub
  · intro h; subst h; simp [FP.signed]
  · intro h; subst h; simp [FP.signed]
  · rw [FP.natAbs_signed]; exact hlb



theorem FP.mul_absLe (f : Fmt) (x y : FP) (Bx : Nat) (eX : Int) (By : Nat) (eY : Int)
    (hx : FP.AbsLe x Bx eX) (hy : FP.AbsLe y By eY) (hprec : 1 ≤ f.prec)
    (hB : Bx * By < 2 ^ f.prec) (hemin : f.emin ≤ eX + eY) (hemax : eX + eY ≤ f.emax) :
    FP.AbsLe (FP.mul f x y) (Bx * By) (eX + eY) := by
  obtain ⟨a, ea, rfl, ha⟩ := hx
  obtain ⟨b, eb, rfl, hb⟩ := hy
  have h2 : (2 : ℚ) ≠ 0 := by norm_num
  have hv : (((a * b).natAbs : Nat) : ℚ) * 2 ^ (ea + eb) ≤ ((Bx * By : Nat) : ℚ) * 2 ^ (eX + eY) := by
    rw [Int.natAbs_mul, zpow_add₀ h2, zpow_add₀ h2]
    push_cast
    have h1 : (0 : ℚ) ≤ (a.natAbs : ℚ) * 2 ^ ea := by positivity
    have h3 : (0 : ℚ) ≤ (b.natAbs : ℚ) * 2 ^ eb := by positivity
    calc (a.natAbs : ℚ) * (b.natAbs : ℚ) * (2 ^ ea * 2 ^ eb)
        = ((a.natAbs : ℚ) * 2 ^ ea) * ((b.natAbs : ℚ) * 2 ^ eb) := by ring
      _ ≤ ((Bx : ℚ) * 2 ^ eX) * ((By : ℚ) * 2 ^ eY) := mul_le_mul ha hb h3 (le_trans h1 ha)
      _ = (Bx : ℚ) * (By : ℚ) * (2 ^ eX * 2 ^ eY) := by ring
  obtain ⟨n, e1, hr, hub, -⟩ := FP.round_signed f (decide (a * b < 0)) (a * b).natAbs (ea + eb)
    false (Bx * By) (eX + eY) hprec hB hemin hemax hv
  exact ⟨n, e1, by simp only [FP.mul]; exact hr, hub⟩

theorem FP.add_value (a ea b eb : Int) :
    ((FP.scaled a ea (min ea eb) + FP.scaled b eb (min ea eb) : Int) : ℚ) * 2 ^ (min ea eb)
      = (a : ℚ) * 2 ^ ea + (b : ℚ) * 2 ^ eb := by
  push_cast
  rw [add_mul, FP.scaled_cast a ea _ (min_le_left _ _), FP.scaled_cast b eb _ (min_le_right _ _)]

/-- The sum of two finite values whose exact sum has magnitude at most the
representable `B * 2^eB`: it is finite, bounded by it, has the sign of the
exact sum, and is at least every representable number below the exact sum's
magnitude. -/
theorem FP.add_fin_bounds (f : Fmt) (a ea b eb : Int) (B : Nat) (eB : Int)
    (hprec : 1 ≤ f.prec) (hB : B < 2 ^ f.prec) (hemin : f.emin ≤ eB) (hemax : eB ≤ f.emax)
    (hv : |(a : ℚ) * 2 ^ ea + (b : ℚ) * 2 ^ eb| ≤ (B : ℚ) * 2 ^ eB) :
    ∃ (n : Int) (e1 : Int), FP.add f (FP.fin a ea) (FP.fin b eb) = FP.fin n e1 ∧
      ((n.natAbs : Nat) : ℚ) * 2 ^ e1 ≤ (B : ℚ) * 2 ^ eB ∧
      (0 ≤ (a : ℚ) * 2 ^ ea + (b : ℚ) * 2 ^ eb → 0 ≤ n) ∧
      ((a : ℚ) * 2 ^ ea + (b : ℚ) * 2 ^ eb ≤ 0 → n ≤ 0) ∧
      ∀ (C : Nat) (eC : Int), C < 2 ^ f.prec → f.emin ≤ eC →
        (C : ℚ) * 2 ^ eC ≤ |(a : ℚ) * 2 ^ ea + (b : ℚ) * 2 ^ eb| →
        (C : ℚ) * 2 ^ eC ≤ ((n.natAbs : Nat) : ℚ) * 2 ^ e1 := by
  have hval := FP.add_value a ea b eb
  generalize hs : FP.scaled a ea (min ea eb) + FP.scaled b eb (min ea eb) = s at hval
  have hpos : (0 : ℚ) < 2 ^ (min ea eb) := zpow_pos (by norm_num) _
  have habs : ((s.natAbs : Nat) : ℚ) * 2 ^ (min ea eb)
      = |(a : ℚ) * 2 ^ ea + (b : ℚ) * 2 ^ eb| := by
    rw [← hval, abs_mul, abs_of_pos hpos, FP.natAbs_cast]
  obtain ⟨n, e1, hr, hub, hnn, hnp, hlb⟩ := FP.round_signed f (decide (s < 0)) s.natAbs
    (min ea eb) false B eB hprec hB hemin hemax (by rw [habs]; exact hv)
  refine ⟨n, e1, ?_, hub, ?_, ?_, ?_⟩
  · simp only [FP.add]; rw [hs]; exact hr
  · intro h
    apply hnn
    rw [← hval] at h
    have : (0 : ℚ) ≤ (s : ℚ) := by
      by_contra hc
      push_neg at hc
      have := mul_neg_of_neg_of_pos hc hpos
      linarith
    have hs0 : 0 ≤ s := by exact_mod_cast this
    simp; exact hs0
  · intro h
    rw [← hval] at h
    have : (s : ℚ) ≤ 0 := by
      by_contra hc
      push_neg at hc
      have := mul_pos hc hpos
      linarith
    have hs0 : s ≤ 0 := by exact_mod_cast this
    rcases eq_or_lt_of_le hs0 with h0 | hlt
    · subst h0
      have : n = 0 := by
        have h1 := hnn (by simp)
        have h2 : ((n.natAbs : Nat) : ℚ) * 2 ^ e1 ≤ 0 := by
          have := FP.round_bounds f (decide ((0 : Int) < 0)) (0 : Int).natAbs (min ea eb) false
            0 eB hprec (by positivity) hemin hemax (by simp)
          obtain ⟨q, e2, hq, hq2, -⟩ := this
          rw [hq] at hr
          have hn : n = FP.signed (decide ((0 : Int) < 0)) q := by
            injection hr with h1 h2; exact h1.symm
          have he : e1 = e2 := by injection hr with h1 h2; exact h2.symm
          rw [hn, FP.natAbs_signed, he]
          simpa using hq2
        have h3 : (0 : ℚ) < 2 ^ e1 := zpow_pos (by norm_num) _
        have h4 : ((n.natAbs : Nat) : ℚ) ≤ 0 := by
          by_contra hc
          push_neg at hc
          have := mul_pos hc h3
          linarith
        have h5 : n.natAbs = 0 := by
          have : (n.natAbs : ℚ) = 0 := le_antisymm h4 (by positivity)
          exact_mod_cast this
        omega
      omega
    · exact hnp (by simp; exact hlt)
  · intro C eC hC heC hCv
    exact hlb C eC hC heC (by rw [habs]; exact hCv)

theorem FP.toInt_nonneg (n e : Int) (h : 0 ≤ n) : 0 ≤ FP.toInt (FP.fin n e) := by
  simp only [FP.toInt]
  split_ifs
  · positivity
  · exact Int.tdiv_nonneg h (by positivity)



/-- The quotient of two finite values whose exact quotient has magnitude at
most the representable `B * 2^eB`: it is finite, bounded by it, and has the
sign of the exact quotient. -/
theorem FP.div_fin_bounds (f : Fmt) (a ea b eb : Int) (hb : b ≠ 0) (B : Nat) (eB : Int)
    (hprec : 1 ≤ f.prec) (hB : B < 2 ^ f.prec) (hemin : f.emin ≤ eB) (hemax : eB ≤ f.emax)
    (hv : ((a.natAbs : Nat) : ℚ) * 2 ^ ea
      ≤ (B : ℚ) * 2 ^ eB * (((b.natAbs : Nat) : ℚ) * 2 ^ eb)) :
    ∃ (n : Int) (e1 : Int), FP.div f (FP.fin a ea) (FP.fin b eb) = FP.fin n e1 ∧
      ((n.natAbs : Nat) : ℚ) * 2 ^ e1 ≤ (B : ℚ) * 2 ^ eB ∧
      ((decide (a < 0) != decide (b < 0)) = false → 0 ≤ n) ∧
      ((decide (a < 0) != decide (b < 0)) = true → n ≤ 0) := by
  have h2 : (2 : ℚ) ≠ 0 := by norm_num
  generalize hk : f.prec + 2 + FP.bits b.natAbs = k
  have hbpos : 0 < b.natAbs := Int.natAbs_pos.mpr hb
  have hbq : (0 : ℚ) < ((b.natAbs : Nat) : ℚ) * 2 ^ eb :=
    mul_pos (by exact_mod_cast hbpos) (zpow_pos (by norm_num) _)
  have hm : (a.natAbs * 2 ^ k / b.natAbs) * b.natAbs ≤ a.natAbs * 2 ^ k :=
    Nat.div_mul_le_self _ _
  have hmq : ((a.natAbs * 2 ^ k / b.natAbs : Nat) : ℚ) * (b.natAbs : ℚ)
      ≤ (a.natAbs : ℚ) * 2 ^ k := by exact_mod_cast hm
  have hV : ((a.natAbs * 2 ^ k / b.natAbs : Nat) : ℚ) * 2 ^ (ea - eb - (k : Int))
      ≤ (B : ℚ) * 2 ^ eB := by
    rw [← mul_le_mul_right hbq]
    refine le_trans ?_ hv
    have he : (2 : ℚ) ^ (ea - eb - (k : Int)) * 2 ^ eb * 2 ^ k = 2 ^ ea := by
      rw [← zpow_natCast, ← zpow_add₀ h2, ← zpow_add₀ h2]
      congr 1
      ring
    calc ((a.natAbs * 2 ^ k / b.natAbs : Nat) : ℚ) * 2 ^ (ea - eb - (k : Int))
          * (((b.natAbs : Nat) : ℚ) * 2 ^ eb)
        = (((a.natAbs * 2 ^ k / b.natAbs : Nat) : ℚ) * (b.natAbs : ℚ))
          * (2 ^ (ea - eb - (k : Int)) * 2 ^ eb) := by ring
      _ ≤ ((a.natAbs : ℚ) * 2 ^ k) * (2 ^ (ea - eb - (k : Int)) * 2 ^ eb) :=
          mul_le_mul_of_nonneg_right hmq (by positivity)
      _ = (a.natAbs : ℚ) * (2 ^ (ea - eb - (k : Int)) * 2 ^ eb * 2 ^ k) := by ring
      _ = (a.natAbs : ℚ) * 2 ^ ea := by rw [he]
  obtain ⟨n, e1, hr, hub, hnn, hnp, -⟩ := FP.round_signed f (decide (a < 0) != decide (b < 0))
    (a.natAbs * 2 ^ k / b.natAbs) (ea - eb - (k : Int))
    (decide (a.natAbs * 2 ^ k % b.natAbs ≠ 0)) B eB hprec hB hemin hemax hV
  refine ⟨n, e1, ?_, hub, hnn, hnp⟩
  simp only [FP.div, if_neg hb, hk]
  exact hr

theorem FP.cast_absLe (f : Fmt) (x : FP) (B : Nat) (eB : Int) (hx : FP.AbsLe x B eB)
    (hprec : 1 ≤ f.prec) (hB : B < 2 ^ f.prec) (hemin : f.emin ≤ eB) (hemax : eB ≤ f.emax) :
    FP.AbsLe (FP.cast f x) B eB := by
  obtain ⟨a, ea, rfl, ha⟩ := hx
  obtain ⟨n, e1, hr, hub, -⟩ := FP.round_signed f (decide (a < 0)) a.natAbs ea false B eB
    hprec hB hemin hemax ha
  exact ⟨n, e1, by simp only [FP.cast]; exact hr, hub⟩

theorem FP.neg_absLe (x : FP) (B : Nat) (eB : Int) (hx : FP.AbsLe x B eB) :
    FP.AbsLe (FP.neg x) B eB := by
  obtain ⟨a, ea, rfl, ha⟩ := hx
  exact ⟨-a, ea, rfl, by rw [Int.natAbs_neg]; exact ha⟩

theorem FP.add_absLe (f : Fmt) (x y : FP) (Bx : Nat) (eX : Int) (By : Nat) (eY : Int)
    (B : Nat) (eB : Int) (hx : FP.AbsLe x Bx eX) (hy : FP.AbsLe y By eY)
    (hprec : 1 ≤ f.prec) (hB : B < 2 ^ f.prec) (hemin : f.emin ≤ eB) (hemax : eB ≤ f.emax)
    (hsum : (Bx : ℚ) * 2 ^ eX + (By : ℚ) * 2 ^ eY ≤ (B : ℚ) * 2 ^ eB) :
    FP.AbsLe (FP.add f x y) B eB := by
  obtain ⟨a, ea, rfl, ha⟩ := hx
  obtain ⟨b, eb, rfl, hb⟩ := hy
  have hv : |(a : ℚ) * 2 ^ ea + (b : ℚ) * 2 ^ eb| ≤ (B : ℚ) * 2 ^ eB := by
    have h1 : |(a : ℚ) * 2 ^ ea| = ((a.natAbs : Nat) : ℚ) * 2 ^ ea := by
      rw [abs_mul, abs_of_pos (zpow_pos (by norm_num : (0 : ℚ) < 2) ea), FP.natAbs_cast]
    have h3 : |(b : ℚ) * 2 ^ eb| = ((b.natAbs : Nat) : ℚ) * 2 ^ eb := by
      rw [abs_mul, abs_of_pos (zpow_pos (by norm_num : (0 : ℚ) < 2) eb), FP.natAbs_cast]
    calc |(a : ℚ) * 2 ^ ea + (b : ℚ) * 2 ^ eb|
        ≤ |(a : ℚ) * 2 ^ ea| + |(b : ℚ) * 2 ^ eb| := abs_add _ _
      _ ≤ (Bx : ℚ) * 2 ^ eX + (By : ℚ) * 2 ^ eY := by rw [h1, h3]; exact add_le_add ha hb
      _ ≤ (B : ℚ) * 2 ^ eB := hsum
  obtain ⟨n, e1, hr, hub, -⟩ := FP.add_fin_bounds f a ea b eb B eB hprec hB hemin hemax hv
  exact ⟨n, e1, hr, hub⟩

theorem FP.isnan_of_absLe (x : FP) (B : Nat) (eB : Int) (hx : FP.AbsLe x B eB) :
    FP.isnan x = false := by
  obtain ⟨a, ea, rfl, -⟩ := hx
  rfl

/-! ## The lookup-table indices -/

theorem tmod_36000_bounds (a : Int) : -36000 < Int.tmod a 36000 ∧ Int.tmod a 36000 < 36000 := by
  refine ⟨?_, Int.tmod_lt_of_pos a (by norm_num)⟩
  cases a with
  | ofNat n =>
    have h : Int.tmod (Int.ofNat n) 36000 = ((n % 36000 : Nat) : Int) := rfl
    rw [h]
    omega
  | negSucc n =>
    have h : Int.tmod (Int.negSucc n) 36000 = -(((n + 1) % 36000 : Nat) : Int) := rfl
    rw [h]
    omega

theorem tmod_36000_nonneg (a : Int) (h : 0 ≤ a) :
    0 ≤ Int.tmod a 36000 ∧ Int.tmod a 36000 < 36000 :=
  ⟨Int.tmod_nonneg _ h, Int.tmod_lt_of_pos a (by norm_num)⟩

theorem azi_diff_int_bounds (ext : External) (self : DecoderBase) (pkt : RS32MsopPkt)
    (i : Fin 12) :
    -36000 < azi_diff_int ext self pkt i ∧ azi_diff_int ext self pkt i < 36000 := by
  unfold azi_diff_int
  simp only
  split_ifs <;> exact tmod_36000_bounds _

theorem azi_diff_eq (ext : External) (self : DecoderBase) (pkt : RS32MsopPkt) (i : Fin 12) :
    azi_diff ext self pkt i = FP.fin (azi_diff_int ext self pkt i) 0 := by
  have h := azi_diff_int_bounds ext self pkt i
  unfold azi_diff
  apply FP.ofInt_exact binary32 _ (by decide) (by decide)
  have : (azi_diff_int ext self pkt i).natAbs < 36000 := by omega
  exact lt_trans this (by norm_num [binary32])

theorem FP.absLe_fin_int (n : Int) (B : Nat) (h : n.natAbs ≤ B) : FP.AbsLe (FP.fin n 0) B 0 :=
  ⟨n, 0, rfl, by simpa using (by exact_mod_cast h : ((n.natAbs : Nat) : ℚ) ≤ (B : ℚ))⟩

/-- The `float` quotient `azi_diff * 3 * (channel_idx % 16) / 50` for a delta
of magnitude below 36000: it is finite, of magnitude at most 32768, and not
negative when the delta is not negative. -/
theorem azimuth_offset_bounds (d : Int) (hd : d.natAbs ≤ 35999) (c : Fin 32) :
    ∃ (n : Int) (e : Int),
      FP.div binary32
        (FP.mul binary32
          (FP.mul binary32 (FP.fin d 0) (FP.ofInt binary32 RS32_CHANNEL_TOFFSET))
          (FP.ofInt binary32 ((c.val : Int) % 16)))
        (FP.ofInt binary32 RS32_FIRING_TDURATION) = FP.fin n e ∧
      ((n.natAbs : Nat) : ℚ) * 2 ^ e ≤ 32768 ∧ (0 ≤ d → 0 ≤ n) := by
  have h3 : FP.ofInt binary32 RS32_CHANNEL_TOFFSET = FP.fin 3 0 := by decide
  have h50 : FP.ofInt binary32 RS32_FIRING_TDURATION = FP.fin 50 0 := by decide
  have hc : 0 ≤ (c.val : Int) % 16 ∧ (c.val : Int) % 16 ≤ 15 := by omega
  have hk : FP.ofInt binary32 ((c.val : Int) % 16) = FP.fin ((c.val : Int) % 16) 0 :=
    FP.ofInt_exact binary32 _ (by decide) (by decide)
      (lt_of_le_of_lt (show ((c.val : Int) % 16).natAbs ≤ 15 by omega) (by norm_num [binary32]))
  rw [h3, h50, hk]
  -- the two products are exact integers
  have hm1 : FP.mul binary32 (FP.fin d 0) (FP.fin 3 0) = FP.fin (d * 3) 0 := by
    have := FP.ofInt_exact binary32 (d * 3) (by decide) (by decide)
      (lt_of_le_of_lt (show (d * 3).natAbs ≤ 107997 by omega) (by norm_num [binary32]))
    simpa [FP.mul, FP.ofInt] using this
  have hm2 : FP.mul binary32 (FP.fin (d * 3) 0) (FP.fin ((c.val : Int) % 16) 0)
      = FP.fin (d * 3 * ((c.val : Int) % 16)) 0 := by
    have hb : (d * 3 * ((c.val : Int) % 16)).natAbs ≤ 1619955 := by
      rw [Int.natAbs_mul]
      calc (d * 3).natAbs * ((c.val : Int) % 16).natAbs ≤ 107997 * 15 :=
            Nat.mul_le_mul (by omega) (by omega)
        _ = 1619955 := by norm_num
    have := FP.ofInt_exact binary32 (d * 3 * ((c.val : Int) % 16)) (by decide) (by decide)
      (lt_of_le_of_lt hb (by norm_num [binary32]))
    simpa [FP.mul, FP.ofInt] using this
  rw [hm1, hm2]
  have hN : (d * 3 * ((c.val : Int) % 16)).natAbs ≤ 1619955 := by
    rw [Int.natAbs_mul]
    calc (d * 3).natAbs * ((c.val : Int) % 16).natAbs ≤ 107997 * 15 :=
          Nat.mul_le_mul (by omega) (by omega)
      _ = 1619955 := by norm_num
  obtain ⟨n, e, hr, hub, hnn, -⟩ := FP.div_fin_bounds binary32 (d * 3 * ((c.val : Int) % 16)) 0
    50 0 (by norm_num) 32768 0 (by decide) (by norm_num [binary32]) (by decide) (by decide)
    (by
      have : (((d * 3 * ((c.val : Int) % 16)).natAbs : Nat) : ℚ) ≤ 1619955 := by
        exact_mod_cast hN
      norm_num
      linarith)
  refine ⟨n, e, hr, by simpa using hub, fun h0 => hnn ?_⟩
  have : ¬ (d * 3 * ((c.val : Int) % 16) < 0) := by
    have h1 : 0 ≤ d * 3 := by omega
    have : 0 ≤ d * 3 * ((c.val : Int) % 16) := mul_nonneg h1 hc.1
    omega
  simp [this]

/-- The `float azimuth_channel` for a block azimuth in 0..65535 and a delta
of magnitude below 36000: it is finite, at least -32768 and of magnitude at
most 131072. -/
theorem azimuth_channel_bounds (a d : Int) (ha : 0 ≤ a ∧ a ≤ 65535)
    (hd : d.natAbs ≤ 35999) (c : Fin 32) :
    ∃ (n : Int) (e : Int), azimuth_channel a (FP.fin d 0) c = FP.fin n e ∧
      ((n.natAbs : Nat) : ℚ) * 2 ^ e ≤ 131072 ∧ -32768 ≤ (n : ℚ) * 2 ^ e := by
  obtain ⟨q, eq, hq, hqub, -⟩ := azimuth_offset_bounds d hd c
  have ha0 : FP.ofInt binary32 a = FP.fin a 0 :=
    FP.ofInt_exact binary32 _ (by decide) (by decide)
      (lt_of_le_of_lt (show a.natAbs ≤ 65535 by omega) (by norm_num [binary32]))
  unfold azimuth_channel
  rw [hq, ha0]
  have habs : |(q : ℚ) * 2 ^ eq| ≤ 32768 := by
    rw [abs_mul, abs_of_pos (zpow_pos (by norm_num : (0 : ℚ) < 2) eq), ← FP.natAbs_cast]
    exact hqub
  have haq : (0 : ℚ) ≤ (a : ℚ) ∧ (a : ℚ) ≤ 65535 := by
    constructor <;> exact_mod_cast (by omega)
  have hsum := abs_le.mp habs
  obtain ⟨n, e, hr, hub, hnn, -, -⟩ := FP.add_fin_bounds binary32 a 0 q eq 131072 0
    (by decide) (by norm_num [binary32]) (by decide) (by decide)
    (by
      rw [abs_le]
      norm_num
      constructor <;> linarith [hsum.1, hsum.2, haq.1, haq.2])
  refine ⟨n, e, hr, by simpa using hub, ?_⟩
  by_cases hs : 0 ≤ (a : ℚ) * 2 ^ (0 : Int) + (q : ℚ) * 2 ^ eq
  · have hn := hnn hs
    have : (0 : ℚ) ≤ (n : ℚ) * 2 ^ e :=
      mul_nonneg (by exact_mod_cast hn) (le_of_lt (zpow_pos (by norm_num) e))
    linarith
  · push_neg at hs
    obtain ⟨n2, e2, hr2, hub2, -⟩ := FP.add_fin_bounds binary32 a 0 q eq 32768 0
      (by decide) (by norm_num [binary32]) (by decide) (by decide)
      (by
        rw [abs_le]
        norm_num at hs ⊢
        constructor <;> linarith [hsum.1, hsum.2, haq.1, haq.2])
    rw [hr] at hr2
    injection hr2 with h1 h2
    subst h1 h2
    have h3 : |(n : ℚ) * 2 ^ e| ≤ 32768 := by
      rw [abs_mul, abs_of_pos (zpow_pos (by norm_num : (0 : ℚ) < 2) e), ← FP.natAbs_cast]
      simpa using hub2
    exact (abs_le.mp h3).1

/-- C18: the two indices that `decodeMsopPkt` computes itself lie in
0..35999 for every packet (block azimuth fields of any value), every echo
mode, every block and channel and every stored vertical angle:
`angle_horiz_ori`, from the uncorrected channel azimuth, and `angle_vert`,
from the vertical angle of the channel. -/
theorem lookup_indices_in_range (ext : External) (self : DecoderBase) (pkt : RS32MsopPkt)
    (blk : Fin 12) (c : Fin 32) :
    (0 ≤ angle_horiz_ori
        (azimuth_channel (RS_SWAP_SHORT (pkt.blocks blk).azimuth) (azi_diff ext self pkt blk) c) ∧
      angle_horiz_ori
        (azimuth_channel (RS_SWAP_SHORT (pkt.blocks blk).azimuth) (azi_diff ext self pkt blk) c)
        < 36000) ∧
    (0 ≤ angle_vert self c ∧ angle_vert self c < 36000) := by
  constructor
  · have hd := azi_diff_int_bounds ext self pkt blk
    have hlt : RS_SWAP_SHORT (pkt.blocks blk).azimuth < 65536 := by
      have := (pkt.blocks blk).azimuth.isLt
      unfold RS_SWAP_SHORT
      omega
    obtain ⟨n, e, hr, hub, hlb⟩ := azimuth_channel_bounds
      (RS_SWAP_SHORT (pkt.blocks blk).azimuth) (azi_diff_int ext self pkt blk)
      ⟨by omega, by omega⟩ (by omega) c
    rw [azi_diff_eq, hr]
    have h36 : FP.ofInt binary32 36000 = FP.fin 36000 0 := by decide
    have habs : |(n : ℚ) * 2 ^ e| ≤ 131072 := by
      rw [abs_mul, abs_of_pos (zpow_pos (by norm_num : (0 : ℚ) < 2) e), ← FP.natAbs_cast]
      exact hub
    have hsum := abs_le.mp habs
    obtain ⟨n2, e2, hr2, -, hnn, -, -⟩ := FP.add_fin_bounds binary32 n e 36000 0 262144 0
      (by decide) (by norm_num [binary32]) (by decide) (by decide)
      (by
        rw [abs_le]
        norm_num
        constructor <;> linarith [hsum.1, hsum.2])
    unfold angle_horiz_ori
    rw [h36, hr2]
    exact tmod_36000_nonneg _ (FP.toInt_nonneg n2 e2 (hnn (by norm_num; linarith)))
  · unfold angle_vert
    have h1 := tmod_36000_bounds (FP.toInt (self.vert_angle_list_ c.val))
    exact tmod_36000_nonneg _ (by omega)

/-! ## The constructor and the range gate -/

/-- When the configured bounds are finite and `max_distance` is at least
`0.4f`, the bounds after construction satisfy
`0.4f <= min_distance_ <= max_distance_ <= 200`. -/
theorem DecoderRS32_bounds (ext : External) (base : DecoderBase) (a ea b eb : Int)
    (hmax : base.max_distance_ = FP.fin a ea) (hmin : base.min_distance_ = FP.fin b eb)
    (hlow : FP.le (FP.fin 13421773 (-25)) base.max_distance_ = true) :
    FP.le (FP.fin 13421773 (-25)) (DecoderRS32 ext base).min_distance_ = true ∧
    FP.le (DecoderRS32 ext base).min_distance_ (DecoderRS32 ext base).max_distance_ = true ∧
    FP.le (DecoderRS32 ext base).max_distance_ (FP.fin 200 0) = true := by
  have h200 : FP.ofInt binary32 200 = FP.fin 200 0 := by decide
  have h04 : FP.div binary32 (FP.fin 4 0) (FP.fin 10 0) = FP.fin 13421773 (-25) := by decide
  rw [hmax, FP.le_fin_iff] at hlow
  unfold DecoderRS32
  simp only [h200, h04, hmax, hmin]
  by_cases h1 : FP.lt (FP.fin 200 0) (FP.fin a ea) = true
  · simp only [h1, if_true]
    by_cases h2 : (FP.lt (FP.fin b eb) (FP.fin 13421773 (-25))
        || FP.lt (FP.fin 200 0) (FP.fin b eb)) = true
    · simp only [h2, if_true, FP.le_fin_iff]
      norm_num
    · simp only [h2, Bool.false_eq_true, if_false, FP.le_fin_iff]
      simp only [Bool.or_eq_true, not_or, FP.lt_fin_iff, not_lt] at h2
      refine ⟨h2.1, h2.2, le_refl _⟩
  · simp only [h1, Bool.false_eq_true, if_false]
    rw [FP.lt_fin_iff, not_lt] at h1
    by_cases h2 : (FP.lt (FP.fin b eb) (FP.fin 13421773 (-25))
        || FP.lt (FP.fin a ea) (FP.fin b eb)) = true
    · simp only [h2, if_true, FP.le_fin_iff]
      exact ⟨le_refl _, hlow, h1⟩
    · simp only [h2, Bool.false_eq_true, if_false, FP.le_fin_iff]
      simp only [Bool.or_eq_true, not_or, FP.lt_fin_iff, not_lt] at h2
      exact ⟨h2.1, h2.2, h1⟩

/-- C20 fails for the configuration `max_distance = 0.1f`,
`min_distance = 0.05f`: the constructor keeps the maximum 0.1f and sets the
minimum to 0.4f, so the minimum exceeds the maximum and no distance passes
the range test of the gate. -/
theorem DecoderRS32_bounds_at_low_max :
    (DecoderRS32 sampleExt lowMaxBase).max_distance_ = FP.fin 13421773 (-27) ∧
    (DecoderRS32 sampleExt lowMaxBase).min_distance_ = FP.fin 13421773 (-25) ∧
    FP.lt (DecoderRS32 sampleExt lowMaxBase).max_distance_
      (DecoderRS32 sampleExt lowMaxBase).min_distance_ = true ∧
    FP.le (DecoderRS32 sampleExt lowMaxBase).min_distance_
      (DecoderRS32 sampleExt lowMaxBase).max_distance_ = false ∧
    ∀ (d : FP) (azimuth_final : Int),
      gate (DecoderRS32 sampleExt lowMaxBase) d azimuth_final = false := by
  have hmax : (DecoderRS32 sampleExt lowMaxBase).max_distance_ = FP.fin 13421773 (-27) := by
    decide
  have hmin : (DecoderRS32 sampleExt lowMaxBase).min_distance_ = FP.fin 13421773 (-25) := by
    decide
  refine ⟨hmax, hmin, by rw [hmax, hmin]; decide, by rw [hmax, hmin]; decide, fun d az => ?_⟩
  have hrange : (FP.le d (FP.fin 13421773 (-27)) && FP.le (FP.fin 13421773 (-25)) d) = false := by
    cases d with
    | nan => rfl
    | inf s => cases s <;> rfl
    | fin n e =>
      by_contra hc
      rw [Bool.not_eq_false, Bool.and_eq_true, FP.le_fin_iff, FP.le_fin_iff] at hc
      have h1 : ((13421773 : Int) : ℚ) * 2 ^ (-27 : Int) < ((13421773 : Int) : ℚ) * 2 ^ (-25 : Int) := by
        norm_num
      linarith [hc.1, hc.2]
  unfold gate
  rw [hmax, hmin, hrange]
  rfl

/-! ## The coordinates of a computed point -/

/-- C19: for a channel of a processed block that passes the gate, with `d`
the calibrated distance, `v` the normalized vertical-angle index, `az` the
corrected azimuth and `o` the normalized uncorrected channel azimuth, the
emitted point has `x = d*cos[v]*cos[az] + Rx*cos[o]`,
`y = -d*cos[v]*sin[az] - Rx*sin[o]` and `z = d*sin[v] + Rz`, evaluated in
floating point in the order written and converted to the field type, where
`Rx` is 0.03997 and `Rz` is 0 as the constructor set them; the intensity is
the raw intensity byte, a value in 0..255, which the not-a-number clamp
leaves alone.  The corrected azimuth appears only in the range terms and
the uncorrected one only in the mounting-offset terms. -/
theorem decodeMsopPkt_coordinates (ext : External) (base self : DecoderBase)
    (pkt : RS32MsopPkt) (vec : List Point) (k : Nat)
    (hid : pkt.header.id.val = RS32_MSOP_ID) (hk : LeadingValid pkt k) (b : Fin 12)
    (c : Fin 32) (hb : b.val < k)
    (hRx : self.Rx_ = (DecoderRS32 ext base).Rx_) (hRz : self.Rz_ = (DecoderRS32 ext base).Rz_)
    (hprec : 8 ≤ ext.pointFmt.prec) (hemin : ext.pointFmt.emin ≤ 0)
    (hemax : 0 ≤ ext.pointFmt.emax) :
    let s := withTemperature ext self pkt
    let azc := azimuth_channel (RS_SWAP_SHORT (pkt.blocks b).azimuth) (azi_diff ext s pkt b) c
    let az := ext.azimuthCalibration s azc c.val
    let o := angle_horiz_ori azc
    let v := angle_vert s c
    let d := distance_cali ((pkt.blocks b).channels c)
    let Rx := FP.cast ext.memberFmt (FP.div binary64 (FP.fin 3997 0) (FP.fin 100000 0))
    let Rz := FP.ofInt ext.memberFmt 0
    let ft := FP.wider binary32 ext.tableFmt
    let mt := FP.wider ext.memberFmt ext.tableFmt
    let cos := s.cos_lookup_table_
    let sin := s.sin_lookup_table_
    ∃ p : Point,
      (decodeMsopPkt ext self pkt vec).vec[vec.length + (32 * b.val + c.val)]? = some p ∧
      (gate s d az = true →
        p.x = FP.cast ext.pointFmt (FP.add (FP.wider ft mt)
                (FP.mul ft (FP.mul ft d (cos v)) (cos az)) (FP.mul mt Rx (cos o))) ∧
        p.y = FP.cast ext.pointFmt (FP.sub (FP.wider ft mt)
                (FP.mul ft (FP.mul ft (FP.neg d) (cos v)) (sin az)) (FP.mul mt Rx (sin o))) ∧
        p.z = FP.cast ext.pointFmt (FP.add (FP.wider ft ext.memberFmt)
                (FP.mul ft d (sin v)) Rz) ∧
        p.intensity = FP.fin (((pkt.blocks b).channels c).intensity.val : Int) 0 ∧
        ((pkt.blocks b).channels c).intensity.val ≤ 255) := by
  intro s azc az o v d Rx Rz ft mt cos sin
  refine ⟨_, decodeMsopPkt_getElem ext self pkt vec k hid hk b c hb, fun hg => ?_⟩
  have hsRx : s.Rx_ = Rx := by
    rw [show s.Rx_ = self.Rx_ from rfl, hRx]
    unfold DecoderRS32
    dsimp only
    split_ifs <;> rfl
  have hsRz : s.Rz_ = Rz := by
    rw [show s.Rz_ = self.Rz_ from rfl, hRz]
    unfold DecoderRS32
    dsimp only
    split_ifs <;> rfl
  have hi : FP.ofInt ext.pointFmt (((pkt.blocks b).channels c).intensity.val : Int)
      = FP.fin (((pkt.blocks b).channels c).intensity.val : Int) 0 := by
    apply FP.ofInt_exact _ _ hemin hemax
    have h1 := ((pkt.blocks b).channels c).intensity.isLt
    have h2 : (2 : Nat) ^ 8 ≤ 2 ^ ext.pointFmt.prec := Nat.pow_le_pow_right (by norm_num) hprec
    simp only [Int.natAbs_ofNat]
    omega
  unfold decodeChannel
  rw [if_pos hg]
  simp only [computedPoint, hi, FP.isnan, Bool.false_eq_true, if_false]
  rw [hsRx, hsRz]
  refine ⟨rfl, rfl, rfl, trivial, ?_⟩
  have h1 := ((pkt.blocks b).channels c).intensity.isLt
  omega

/-- C19 at the sample packet: channel 0 of block 0 (range 5 m, azimuth 0,
intensity byte 7) is at x = 10569583 * 2^-21 (about 5.03997), y = 0, z = 0
with intensity 7. -/
theorem decodeMsopPkt_coordinates_sample :
    ∃ p : Point,
      (decodeMsopPkt sampleExt sampleBase (samplePkt 0xA050A55A0A05AA55) []).vec[0]? = some p ∧
      p.x = FP.fin 10569583 (-21) ∧ p.y = FP.fin 0 (-28) ∧ p.z = FP.fin 0 (-21) ∧
      p.intensity = FP.fin 7 0 := by
  obtain ⟨p, hp, h⟩ := decodeMsopPkt_coordinates sampleExt sampleBase sampleBase
    (samplePkt 0xA050A55A0A05AA55) [] 2 (by decide) ⟨by decide, by decide, by decide⟩ 0 0
    (by decide) (by decide) (by decide) (by decide) (by decide) (by decide)
  obtain ⟨hx, hy, hz, hin, -⟩ := h (by decide)
  exact ⟨p, hp, hx.trans (by decide), hy.trans (by decide), hz.trans (by decide),
    hin.trans (by decide)⟩

/-! ## The end-to-end scenario -/

theorem FP.wider_cases (a b : Fmt) : FP.wider a b = a ∨ FP.wider a b = b := by
  unfold FP.wider
  split_ifs
  · exact Or.inr rfl
  · exact Or.inl rfl

theorem Fmt.Ample.wider {a b : Fmt} (ha : a.Ample) (hb : b.Ample) : (FP.wider a b).Ample := by
  rcases FP.wider_cases a b with h | h <;> rw [h] <;> assumption

theorem Fmt.Ample.binary32 : RS32.binary32.Ample := by
  refine ⟨?_, ?_, ?_⟩ <;> decide

theorem Fmt.Ample.lt {f : Fmt} (h : f.Ample) (B : Nat) (hB : B < 256) : B < 2 ^ f.prec :=
  lt_of_lt_of_le hB (Nat.pow_le_pow_right (by norm_num) h.1 : 2 ^ 8 ≤ 2 ^ f.prec)

theorem distance_cali_1000 (ch : RSChannel) (h : RS_SWAP_SHORT ch.distance = 1000) :
    distance_cali ch = FP.fin 10485760 (-21) := by
  unfold distance_cali
  rw [h]
  decide

theorem DecoderRS32_Rx (ext : External) (base : DecoderBase) :
    (DecoderRS32 ext base).Rx_
      = FP.cast ext.memberFmt (FP.div binary64 (FP.fin 3997 0) (FP.fin 100000 0)) := by
  unfold DecoderRS32
  dsimp only
  split_ifs <;> rfl

theorem DecoderRS32_Rz (ext : External) (base : DecoderBase) :
    (DecoderRS32 ext base).Rz_ = FP.ofInt ext.memberFmt 0 := by
  unfold DecoderRS32
  dsimp only
  split_ifs <;> rfl

theorem angle_horiz_ori_range (ext : External) (self : DecoderBase) (pkt : RS32MsopPkt)
    (blk : Fin 12) (c : Fin 32) :
    0 ≤ angle_horiz_ori
        (azimuth_channel (RS_SWAP_SHORT (pkt.blocks blk).azimuth) (azi_diff ext self pkt blk) c) ∧
      angle_horiz_ori
        (azimuth_channel (RS_SWAP_SHORT (pkt.blocks blk).azimuth) (azi_diff ext self pkt blk) c)
        < 36000 := by
  have hd := azi_diff_int_bounds ext self pkt blk
  have hlt : RS_SWAP_SHORT (pkt.blocks blk).azimuth < 65536 := by
    have := (pkt.blocks blk).azimuth.isLt
    unfold RS_SWAP_SHORT
    omega
  obtain ⟨n, e, hr, hub, hlb⟩ := azimuth_channel_bounds
    (RS_SWAP_SHORT (pkt.blocks blk).azimuth) (azi_diff_int ext self pkt blk)
    ⟨by omega, by omega⟩ (by omega) c
  rw [azi_diff_eq, hr]
  have h36 : FP.ofInt binary32 36000 = FP.fin 36000 0 := by decide
  have habs : |(n : ℚ) * 2 ^ e| ≤ 131072 := by
    rw [abs_mul, abs_of_pos (zpow_pos (by norm_num : (0 : ℚ) < 2) e), ← FP.natAbs_cast]
    exact hub
  have hsum := abs_le.mp habs
  obtain ⟨n2, e2, hr2, -, hnn, -, -⟩ := FP.add_fin_bounds binary32 n e 36000 0 262144 0
    (by decide) (by norm_num [binary32]) (by decide) (by decide)
    (by
      rw [abs_le]
      norm_num
      constructor <;> linarith [hsum.1, hsum.2])
  unfold angle_horiz_ori
  rw [h36, hr2]
  exact tmod_36000_nonneg _ (FP.toInt_nonneg n2 e2 (hnn (by norm_num; linarith)))

theorem angle_vert_range (self : DecoderBase) (c : Fin 32) :
    0 ≤ angle_vert self c ∧ angle_vert self c < 36000 := by
  unfold angle_vert
  have h1 := tmod_36000_bounds (FP.toInt (self.vert_angle_list_ c.val))
  exact tmod_36000_nonneg _ (by omega)

/-- The coordinates of a computed point are finite, of magnitude at most 6,
when the distance has magnitude at most 5, the table entries used and `Rx_`
have magnitude at most 1 and `Rz_` is zero. -/
theorem computedPoint_finite (ext : External) (self : DecoderBase) (d : FP) (v az o : Int)
    (i : Fin 256) (hm : ext.memberFmt.Ample) (ht : ext.tableFmt.Ample)
    (hp : ext.pointFmt.Ample) (hd : FP.AbsLe d 5 0) (hRx : FP.AbsLe self.Rx_ 1 0)
    (hRz : FP.AbsLe self.Rz_ 1 0)
    (hcv : FP.AbsLe (self.cos_lookup_table_ v) 1 0) (hsv : FP.AbsLe (self.sin_lookup_table_ v) 1 0)
    (hca : FP.AbsLe (self.cos_lookup_table_ az) 1 0)
    (hsa : FP.AbsLe (self.sin_lookup_table_ az) 1 0)
    (hco : FP.AbsLe (self.cos_lookup_table_ o) 1 0)
    (hso : FP.AbsLe (self.sin_lookup_table_ o) 1 0) :
    FP.AbsLe (computedPoint ext self d v az o i).x 6 0 ∧
    FP.AbsLe (computedPoint ext self d v az o i).y 6 0 ∧
    FP.AbsLe (computedPoint ext self d v az o i).z 6 0 := by
  have hft : (FP.wider binary32 ext.tableFmt).Ample := Fmt.Ample.binary32.wider ht
  have hmt : (FP.wider ext.memberFmt ext.tableFmt).Ample := hm.wider ht
  have hw1 := hft.wider hmt
  have hw2 := hft.wider hm
  have mul5 : ∀ (f : Fmt), f.Ample → ∀ x y : FP, FP.AbsLe x 5 0 → FP.AbsLe y 1 0 →
      FP.AbsLe (FP.mul f x y) 5 0 := fun f hf x y hx hy => by
    have h := FP.mul_absLe f x y 5 0 1 0 hx hy (by have := hf.1; omega) (hf.lt _ (by norm_num))
      (by have := hf.2.1; omega) (by have := hf.2.2; omega)
    simpa using h
  have mul1 : ∀ (f : Fmt), f.Ample → ∀ x y : FP, FP.AbsLe x 1 0 → FP.AbsLe y 1 0 →
      FP.AbsLe (FP.mul f x y) 1 0 := fun f hf x y hx hy => by
    have h := FP.mul_absLe f x y 1 0 1 0 hx hy (by have := hf.1; omega) (hf.lt _ (by norm_num))
      (by have := hf.2.1; omega) (by have := hf.2.2; omega)
    simpa using h
  have add6 : ∀ (f : Fmt), f.Ample → ∀ x y : FP, FP.AbsLe x 5 0 → FP.AbsLe y 1 0 →
      FP.AbsLe (FP.add f x y) 6 0 := fun f hf x y hx hy =>
    FP.add_absLe f x y 5 0 1 0 6 0 hx hy (by have := hf.1; omega) (hf.lt _ (by norm_num))
      hf.2.1 hf.2.2 (by norm_num)
  have cast6 : ∀ x : FP, FP.AbsLe x 6 0 → FP.AbsLe (FP.cast ext.pointFmt x) 6 0 :=
    fun x hx => FP.cast_absLe _ x 6 0 hx (by have := hp.1; omega) (hp.lt _ (by norm_num))
      hp.2.1 hp.2.2
  refine ⟨?_, ?_, ?_⟩
  · exact cast6 _ (add6 _ hw1 _ _ (mul5 _ hft _ _ (mul5 _ hft _ _ hd hcv) hca)
      (mul1 _ hmt _ _ hRx hco))
  · exact cast6 _ (add6 _ hw1 _ _
      (mul5 _ hft _ _ (mul5 _ hft _ _ (FP.neg_absLe _ _ _ hd) hcv) hsa)
      (FP.neg_absLe _ _ _ (mul1 _ hmt _ _ hRx hso)))
  · exact cast6 _ (add6 _ hw2 _ _ (mul5 _ hft _ _ hd hsv) hRz)

/-- C13: a measurement packet with a valid header id and twelve valid block
ids (the block azimuths may be 0, 300, ..., 3300 or any others) in which
every channel range is 1000 device units, decoded with the resolution 0.005,
the distance bounds 0.4f and 200 and an angle window that holds the whole
circle, the calibrated azimuths being normalized to 0..35999: the call
appends exactly 12 * 32 = 384 points to the vector; the calibrated distance
of every channel is 10485760 * 2^-21 = 5.0; and no point is nulled: every
point is the computed one, its three coordinates are finite (so not
not-a-number) given sine and cosine tables with entries of magnitude at most
1 and the constants of the constructor, and its intensity is a number. -/
theorem decodeMsopPkt_scenario (ext : External) (base self : DecoderBase) (pkt : RS32MsopPkt)
    (vec : List Point) (hid : pkt.header.id.val = RS32_MSOP_ID)
    (hblk : ∀ i : Fin 12, (pkt.blocks i).id.val = RS32_BLOCK_ID)
    (hrange : ∀ (i : Fin 12) (c : Fin 32),
      RS_SWAP_SHORT ((pkt.blocks i).channels c).distance = 1000)
    (hmin : self.min_distance_ = FP.div binary32 (FP.fin 4 0) (FP.fin 10 0))
    (hmax : self.max_distance_ = FP.ofInt binary32 200)
    (hstart : self.start_angle_ ≤ 0) (hend : 35999 ≤ self.end_angle_)
    (hcal : ∀ (b : Fin 12) (c : Fin 32),
      0 ≤ ext.azimuthCalibration (withTemperature ext self pkt)
          (azimuth_channel (RS_SWAP_SHORT (pkt.blocks b).azimuth)
            (azi_diff ext (withTemperature ext self pkt) pkt b) c) c.val ∧
      ext.azimuthCalibration (withTemperature ext self pkt)
          (azimuth_channel (RS_SWAP_SHORT (pkt.blocks b).azimuth)
            (azi_diff ext (withTemperature ext self pkt) pkt b) c) c.val < 36000)
    (hRx : self.Rx_ = (DecoderRS32 ext base).Rx_) (hRz : self.Rz_ = (DecoderRS32 ext base).Rz_)
    (hcos : ∀ i : Int, 0 ≤ i → i < 36000 → FP.AbsLe (self.cos_lookup_table_ i) 1 0)
    (hsin : ∀ i : Int, 0 ≤ i → i < 36000 → FP.AbsLe (self.sin_lookup_table_ i) 1 0)
    (hm : ext.memberFmt.Ample) (ht : ext.tableFmt.Ample) (hp : ext.pointFmt.Ample) :
    (decodeMsopPkt ext self pkt vec).vec.length = vec.length + 384 ∧
    (decodeMsopPkt ext self pkt vec).vec.take vec.length = vec ∧
    ∀ (b : Fin 12) (c : Fin 32),
      distance_cali ((pkt.blocks b).channels c) = FP.fin 10485760 (-21) ∧
      gate (withTemperature ext self pkt) (distance_cali ((pkt.blocks b).channels c))
        (ext.azimuthCalibration (withTemperature ext self pkt)
          (azimuth_channel (RS_SWAP_SHORT (pkt.blocks b).azimuth)
            (azi_diff ext (withTemperature ext self pkt) pkt b) c) c.val) = true ∧
      ∃ p : Point,
        (decodeMsopPkt ext self pkt vec).vec[vec.length + (32 * b.val + c.val)]? = some p ∧
        FP.AbsLe p.x 6 0 ∧ FP.AbsLe p.y 6 0 ∧ FP.AbsLe p.z 6 0 ∧
        FP.isnan p.x = false ∧ FP.isnan p.y = false ∧ FP.isnan p.z = false ∧
        FP.isnan p.intensity = false := by
  have hk : LeadingValid pkt 12 :=
    ⟨le_refl _, fun i _ => hblk i, fun h => absurd h (lt_irrefl _)⟩
  have hvec := decodeMsopPkt_vec ext self pkt vec 12 hid hk
  have hlen : (((List.finRange 12).take 12).flatMap
      (blockPoints ext (withTemperature ext self pkt) pkt)).length = 384 := by
    rw [length_flatMap_uniform _ 32 (length_blockPoints _ _ _)]
    simp
  refine ⟨?_, ?_, fun b c => ?_⟩
  · rw [hvec, List.length_append, hlen]
  · rw [hvec, List.take_left]
  · have hd := distance_cali_1000 _ (hrange b c)
    have hg : gate (withTemperature ext self pkt) (distance_cali ((pkt.blocks b).channels c))
        (ext.azimuthCalibration (withTemperature ext self pkt)
          (azimuth_channel (RS_SWAP_SHORT (pkt.blocks b).azimuth)
            (azi_diff ext (withTemperature ext self pkt) pkt b) c) c.val) = true := by
      obtain ⟨h0, h1⟩ := hcal b c
      have hs : (withTemperature ext self pkt).start_angle_ ≤ 0 := hstart
      have he : 35999 ≤ (withTemperature ext self pkt).end_angle_ := hend
      have hmin1 : (withTemperature ext self pkt).min_distance_
          = FP.div binary32 (FP.fin 4 0) (FP.fin 10 0) := hmin
      have hmax1 : (withTemperature ext self pkt).max_distance_ = FP.ofInt binary32 200 := hmax
      unfold gate
      rw [hd, hmin1, hmax1]
      have hr : (FP.le (FP.fin 10485760 (-21)) (FP.ofInt binary32 200)
          && FP.le (FP.div binary32 (FP.fin 4 0) (FP.fin 10 0)) (FP.fin 10485760 (-21))) = true := by
        decide
      rw [hr]
      cases (withTemperature ext self pkt).angle_flag_
      · simp only [Bool.true_and, Bool.false_and, Bool.not_false, Bool.false_or, Bool.or_eq_true,
          decide_eq_true_eq]
        left
        omega
      · simp only [Bool.true_and, Bool.not_true, Bool.false_and, Bool.or_false,
          Bool.and_eq_true, decide_eq_true_eq]
        omega
    refine ⟨hd, hg, _, decodeMsopPkt_getElem ext self pkt vec 12 hid hk b c b.isLt, ?_⟩
    unfold decodeChannel
    rw [if_pos hg]
    have hRx1 : FP.AbsLe (withTemperature ext self pkt).Rx_ 1 0 := by
      rw [show (withTemperature ext self pkt).Rx_ = self.Rx_ from rfl, hRx, DecoderRS32_Rx]
      have h1 : FP.div binary64 (FP.fin 3997 0) (FP.fin 100000 0)
          = FP.fin 5760284067391959 (-57) := by decide
      rw [h1]
      exact FP.cast_absLe _ _ 1 0 ⟨_, _, rfl, by norm_num⟩ (by have := hm.1; omega)
        (hm.lt _ (by norm_num)) hm.2.1 hm.2.2
    have hRz1 : FP.AbsLe (withTemperature ext self pkt).Rz_ 1 0 := by
      rw [show (withTemperature ext self pkt).Rz_ = self.Rz_ from rfl, hRz, DecoderRS32_Rz,
        FP.ofInt_exact _ _ hm.2.1 hm.2.2 (by simp)]
      exact ⟨_, _, rfl, by norm_num⟩
    have hv := angle_vert_range (withTemperature ext self pkt) c
    have ho := angle_horiz_ori_range ext (withTemperature ext self pkt) pkt b c
    obtain ⟨h0, h1⟩ := hcal b c
    obtain ⟨hx, hy, hz⟩ := computedPoint_finite ext (withTemperature ext self pkt)
      (distance_cali ((pkt.blocks b).channels c)) _ _ _ ((pkt.blocks b).channels c).intensity
      hm ht hp (by rw [hd]; exact ⟨_, _, rfl, by norm_num⟩) hRx1 hRz1
      (hcos _ hv.1 hv.2) (hsin _ hv.1 hv.2) (hcos _ h0 h1) (hsin _ h0 h1)
      (hcos _ ho.1 ho.2) (hsin _ ho.1 ho.2)
    exact ⟨hx, hy, hz, FP.isnan_of_absLe _ _ _ hx, FP.isnan_of_absLe _ _ _ hy,
      FP.isnan_of_absLe _ _ _ hz, isnan_computedPoint_intensity _ _ _ _ _ _ _⟩

set_option maxRecDepth 100000 in
/-- C13 at the scenario packet (azimuths 0, 300, ..., 3300, every range 1000
units, intensity 7) with the sample decoder: 384 points, every calibrated
distance 5.0, no coordinate and no intensity not-a-number. -/
theorem decodeMsopPkt_scenario_sample :
    (decodeMsopPkt sampleExt sampleBase scenarioPkt []).vec.length = 384 ∧
    (∀ i : Fin 12, RS_SWAP_SHORT (scenarioPkt.blocks i).azimuth = 300 * i.val) ∧
    ∀ (b : Fin 12) (c : Fin 32),
      distance_cali ((scenarioPkt.blocks b).channels c) = FP.fin 10485760 (-21) ∧
      ∃ p : Point,
        (decodeMsopPkt sampleExt sampleBase scenarioPkt []).vec[32 * b.val + c.val]? = some p ∧
        FP.isnan p.x = false ∧ FP.isnan p.y = false ∧ FP.isnan p.z = false ∧
        FP.isnan p.intensity = false := by
  obtain ⟨hlen, -, hpts⟩ := decodeMsopPkt_scenario sampleExt sampleBase sampleBase scenarioPkt []
    (by decide) (by decide) (by decide) (by decide) (by decide) (by decide) (by decide)
    (by decide) (by decide) (by decide)
    (fun _ _ _ => ⟨1, 0, rfl, by norm_num⟩) (fun _ _ _ => ⟨0, 0, rfl, by norm_num⟩)
    ⟨by decide, by decide, by decide⟩ ⟨by decide, by decide, by decide⟩
    ⟨by decide, by decide, by decide⟩
  refine ⟨by simpa using hlen, by decide, fun b c => ?_⟩
  obtain ⟨hd, -, p, hp, -, -, -, hx, hy, hz, hi⟩ := hpts b c
  exact ⟨hd, p, by simpa using hp, hx, hy, hz, hi⟩

/-! ## Monotonicity of rounding -/

/-- The three ways `FP.round` ends: an infinity, the magnitude kept as it is,
or the rounded quotient at the rounding exponent. -/
theorem FP.round_cases (f : Fmt) (neg : Bool) (m : Nat) (e : Int) (sticky : Bool) :
    FP.round f neg m e sticky = FP.inf neg ∨
    (max (e + (FP.bits m : Int) - (f.prec : Int)) f.emin ≤ e ∧
      FP.round f neg m e sticky = FP.fin (FP.signed neg m) e) ∨
    (e < max (e + (FP.bits m : Int) - (f.prec : Int)) f.emin ∧
      FP.round f neg m e sticky
        = FP.fin (FP.signed neg (FP.roundQuot m
            (max (e + (FP.bits m : Int) - (f.prec : Int)) f.emin - e).toNat sticky))
          (max (e + (FP.bits m : Int) - (f.prec : Int)) f.emin)) := by
  unfold FP.round
  simp only
  split_ifs with h1 h2 h3
  · exact Or.inl rfl
  · exact Or.inr (Or.inl ⟨h1, rfl⟩)
  · exact Or.inl rfl
  · exact Or.inr (Or.inr ⟨lt_of_not_le h1, rfl⟩)

theorem FP.roundQuot_zero (sh : Nat) (sticky : Bool) : FP.roundQuot 0 sh sticky = 0 :=
  Nat.le_zero.mp (FP.roundQuot_le_of_le 0 sh 0 sticky (by simp))

/-- The rounded quotient does not decrease when the dividend grows. -/
theorem FP.roundQuot_mono (m m1 sh : Nat) (st st1 : Bool) (h : m < m1) :
    FP.roundQuot m sh st ≤ FP.roundQuot m1 sh st1 := by
  have hq : m / 2 ^ sh ≤ m1 / 2 ^ sh := Nat.div_le_div_right (le_of_lt h)
  rcases Nat.lt_or_ge (m / 2 ^ sh) (m1 / 2 ^ sh) with hlt | hge
  · have h1 := FP.roundQuot_le m sh st
    have h2 := FP.roundQuot_ge m1 sh st1
    omega
  · have heq : m / 2 ^ sh = m1 / 2 ^ sh := le_antisymm hq hge
    have hd := Nat.div_add_mod m (2 ^ sh)
    have hd1 := Nat.div_add_mod m1 (2 ^ sh)
    have hr : m % 2 ^ sh < m1 % 2 ^ sh := by
      rw [heq] at hd
      omega
    unfold FP.roundQuot
    simp only
    rw [heq]
    by_cases hc : (decide (2 ^ (sh - 1) < m % 2 ^ sh) ||
        (decide (m % 2 ^ sh = 2 ^ (sh - 1)) && (st || decide (m1 / 2 ^ sh % 2 = 1)))) = true
    · have hc1 : (decide (2 ^ (sh - 1) < m1 % 2 ^ sh) ||
          (decide (m1 % 2 ^ sh = 2 ^ (sh - 1)) && (st1 || decide (m1 / 2 ^ sh % 2 = 1)))) = true := by
        simp only [Bool.or_eq_true, Bool.and_eq_true, decide_eq_true_eq] at hc ⊢
        left
        rcases hc with hc | ⟨hc, -⟩ <;> omega
      rw [if_pos hc, if_pos hc1]
    · rw [if_neg hc]
      split_ifs <;> omega

/-- Scaling the dividend and the divisor by the same power of two leaves the
rounded quotient as it is. -/
theorem FP.roundQuot_scale (m sh j : Nat) (hsh : 1 ≤ sh) :
    FP.roundQuot (m * 2 ^ j) (sh + j) false = FP.roundQuot m sh false := by
  have hq : m * 2 ^ j / 2 ^ (sh + j) = m / 2 ^ sh := by
    rw [pow_add]
    exact Nat.mul_div_mul_right _ _ (by positivity)
  have hr : m * 2 ^ j % 2 ^ (sh + j) = m % 2 ^ sh * 2 ^ j := by
    rw [pow_add]
    exact Nat.mul_mod_mul_right _ _ _
  have hh : 2 ^ (sh + j - 1) = 2 ^ (sh - 1) * 2 ^ j := by
    rw [← pow_add]
    congr 1
    omega
  have hpos : 0 < 2 ^ j := by positivity
  unfold FP.roundQuot
  simp only [hq, hr, hh, Bool.false_or]
  have e1 : (2 ^ (sh - 1) * 2 ^ j < m % 2 ^ sh * 2 ^ j) ↔ (2 ^ (sh - 1) < m % 2 ^ sh) :=
    Nat.mul_lt_mul_right hpos
  have e2 : (m % 2 ^ sh * 2 ^ j = 2 ^ (sh - 1) * 2 ^ j) ↔ (m % 2 ^ sh = 2 ^ (sh - 1)) :=
    Nat.mul_left_inj (by omega)
  simp only [e1, e2]


theorem FP.V_ge_pow (m : Nat) (e : Int) (hm : m ≠ 0) :
    (2 : ℚ) ^ ((FP.bits m : Int) - 1 + e) ≤ (m : ℚ) * 2 ^ e := by
  have hb := FP.two_pow_le_bits m hm
  have hbpos := FP.bits_pos m hm
  have h : ((FP.bits m : Int) - 1 + e) = ((FP.bits m - 1 : Nat) : Int) + e := by omega
  rw [h, zpow_add₀ (by norm_num : (2 : ℚ) ≠ 0), zpow_natCast]
  apply mul_le_mul_of_nonneg_right _ (le_of_lt (zpow_pos (by norm_num) e))
  exact_mod_cast hb

theorem FP.V_lt_pow (m : Nat) (e : Int) :
    (m : ℚ) * 2 ^ e < (2 : ℚ) ^ ((FP.bits m : Int) + e) := by
  rw [zpow_add₀ (by norm_num : (2 : ℚ) ≠ 0), zpow_natCast]
  apply mul_lt_mul_of_pos_right _ (zpow_pos (by norm_num) e)
  exact_mod_cast FP.lt_two_pow_bits m

/-- The rounding exponent does not decrease when the magnitude grows. -/
theorem FP.exp_mono (f : Fmt) (m : Nat) (e : Int) (m1 : Nat) (e1 : Int) (hm : m ≠ 0)
    (hle : (m : ℚ) * 2 ^ e ≤ (m1 : ℚ) * 2 ^ e1) :
    max (e + (FP.bits m : Int) - (f.prec : Int)) f.emin
      ≤ max (e1 + (FP.bits m1 : Int) - (f.prec : Int)) f.emin := by
  have hb : e + (FP.bits m : Int) ≤ e1 + (FP.bits m1 : Int) := by
    by_contra hc
    have h1 := FP.V_ge_pow m e hm
    have h2 := FP.V_lt_pow m1 e1
    have h3 : (2 : ℚ) ^ ((FP.bits m1 : Int) + e1) ≤ (2 : ℚ) ^ ((FP.bits m : Int) - 1 + e) :=
      zpow_le_zpow_right₀ (by norm_num) (by omega)
    linarith
  exact max_le_max (by omega) le_rfl

theorem FP.fin_signed_inj (neg : Bool) (q q1 : Nat) (x x1 : Int)
    (h : FP.fin (FP.signed neg q) x = FP.fin (FP.signed neg q1) x1) : q = q1 ∧ x = x1 := by
  injection h with h1 h2
  refine ⟨?_, h2⟩
  have := congrArg Int.natAbs h1
  rwa [FP.natAbs_signed, FP.natAbs_signed] at this

/-- Rounding is monotone in the magnitude, provided the rounded quotients are
ordered whenever both magnitudes are rounded at the same exponent. -/
theorem FP.round_mono_core (f : Fmt) (neg : Bool) (m : Nat) (e : Int) (st : Bool) (m1 : Nat)
    (e1 : Int) (st1 : Bool) (B : Nat) (eB : Int) (hprec : 1 ≤ f.prec) (hB : B < 2 ^ f.prec)
    (hemin : f.emin ≤ eB) (hemax : eB ≤ f.emax)
    (hle : (m : ℚ) * 2 ^ e ≤ (m1 : ℚ) * 2 ^ e1) (hv : (m1 : ℚ) * 2 ^ e1 ≤ (B : ℚ) * 2 ^ eB)
    (H : ∀ E : Int, e < E → e1 < E →
      E = max (e + (FP.bits m : Int) - (f.prec : Int)) f.emin →
      E = max (e1 + (FP.bits m1 : Int) - (f.prec : Int)) f.emin →
      FP.roundQuot m (E - e).toNat st ≤ FP.roundQuot m1 (E - e1).toNat st1) :
    ∃ (q : Nat) (x : Int) (q1 : Nat) (x1 : Int),
      FP.round f neg m e st = FP.fin (FP.signed neg q) x ∧
      FP.round f neg m1 e1 st1 = FP.fin (FP.signed neg q1) x1 ∧
      (q : ℚ) * 2 ^ x ≤ (q1 : ℚ) * 2 ^ x1 := by
  have h2 : (0 : ℚ) < 2 := by norm_num
  obtain ⟨q1, x1, hr1, hub1, hlb1⟩ := FP.round_bounds f neg m1 e1 st1 B eB hprec hB hemin hemax hv
  have hq1 : (0 : ℚ) ≤ (q1 : ℚ) * 2 ^ x1 :=
    mul_nonneg (Nat.cast_nonneg _) (le_of_lt (zpow_pos h2 _))
  by_cases hm : m = 0
  · subst hm
    obtain ⟨q, x, hr, hub, -⟩ := FP.round_bounds f neg 0 e st 0 eB hprec (by positivity) hemin
      hemax (by simp)
    exact ⟨q, x, q1, x1, hr, hr1, le_trans hub (by simpa using hq1)⟩
  obtain ⟨q, x, hr, hub, hlb⟩ := FP.round_bounds f neg m e st B eB hprec hB hemin hemax
    (le_trans hle hv)
  refine ⟨q, x, q1, x1, hr, hr1, ?_⟩
  have hE := FP.exp_mono f m e m1 e1 hm hle
  have hbm := FP.lt_two_pow_bits m
  rcases FP.round_cases f neg m e st with hc | ⟨hex, hc⟩ | ⟨hrd, hc⟩
  · rw [hr] at hc
    exact absurd hc (by simp)
  · -- the magnitude is kept: it is representable, hence below the other result
    rw [hr] at hc
    obtain ⟨rfl, rfl⟩ := FP.fin_signed_inj neg _ _ _ _ hc
    have hbits : FP.bits q ≤ f.prec := by
      have := le_trans (le_max_left _ _) hex
      omega
    have hemin1 : f.emin ≤ x := le_trans (le_max_right _ _) hex
    exact hlb1 q x (lt_of_lt_of_le hbm (Nat.pow_le_pow_right (by norm_num) hbits)) hemin1 hle
  · rw [hr] at hc
    obtain ⟨rfl, rfl⟩ := FP.fin_signed_inj neg _ _ _ _ hc
    generalize hEd : max (e + (FP.bits m : Int) - (f.prec : Int)) f.emin = E at hE hrd ⊢
    have hsh : ((E - e).toNat : Int) = E - e := Int.toNat_of_nonneg (by omega)
    have hbitsE : (FP.bits m : Int) ≤ (f.prec : Int) + (E - e) := by
      have := le_max_left (e + (FP.bits m : Int) - (f.prec : Int)) f.emin
      rw [hEd] at this
      omega
    have hEmin : f.emin ≤ E := by
      rw [← hEd]
      exact le_max_right _ _
    rcases FP.round_cases f neg m1 e1 st1 with hc1 | ⟨hex1, hc1⟩ | ⟨hrd1, hc1⟩
    · rw [hr1] at hc1
      exact absurd hc1 (by simp)
    · -- the larger magnitude is kept: the smaller one rounds to at most it
      rw [hr1] at hc1
      obtain ⟨rfl, rfl⟩ := FP.fin_signed_inj neg _ _ _ _ hc1
      have hEx : E ≤ x1 := le_trans hE hex1
      have hk : ((x1 - E).toNat : Int) = x1 - E := Int.toNat_of_nonneg (by omega)
      have hT : (q1 : ℚ) * 2 ^ x1 = ((q1 * 2 ^ (x1 - E).toNat : Nat) : ℚ) * 2 ^ E := by
        rw [← FP.V_shift, hk]
        congr 2
        omega
      have hmT : m ≤ q1 * 2 ^ (x1 - E).toNat * 2 ^ (E - e).toNat := by
        rw [← FP.V_le_iff _ _ e, ← FP.V_shift, hsh]
        have : e + (E - e) = E := by omega
        rw [this, ← hT]
        exact hle
      have := FP.roundQuot_le_of_le m (E - e).toNat _ st hmT
      rw [hT, FP.V_le_iff]
      exact this
    · rw [hr1] at hc1
      obtain ⟨rfl, rfl⟩ := FP.fin_signed_inj neg _ _ _ _ hc1
      generalize hEd1 : max (e1 + (FP.bits m1 : Int) - (f.prec : Int)) f.emin = E1 at hE hrd1 ⊢
      rcases eq_or_lt_of_le hE with heq | hlt
      · subst heq
        rw [FP.V_le_iff]
        exact H E hrd hrd1 hEd.symm hEd1.symm
      · -- a power of two lies between the two magnitudes
        have hm1 : m1 ≠ 0 := by
          rintro rfl
          have hpos : (0 : ℚ) < (m : ℚ) * 2 ^ e :=
            mul_pos (by exact_mod_cast Nat.pos_of_ne_zero hm) (zpow_pos h2 _)
          simp at hle
          linarith
        have hE1 : E1 = e1 + (FP.bits m1 : Int) - (f.prec : Int) := by
          rcases le_total (e1 + (FP.bits m1 : Int) - (f.prec : Int)) f.emin with h | h
          · rw [max_eq_right h] at hEd1; omega
          · rw [max_eq_left h] at hEd1; omega
        have hqle : FP.roundQuot m (E - e).toNat st ≤ 2 ^ f.prec := by
          apply FP.roundQuot_le_of_le
          rw [← pow_add]
          refine le_trans (le_of_lt hbm) (Nat.pow_le_pow_right (by norm_num) ?_)
          omega
        have hP : ((2 ^ f.prec : Nat) : ℚ) * 2 ^ E
            = ((2 ^ (f.prec - 1) : Nat) : ℚ) * 2 ^ (E + 1) := by
          have h1 := FP.V_shift (2 ^ (f.prec - 1)) E 1
          rw [show ((1 : Nat) : Int) = 1 from rfl] at h1
          have h4 : 2 ^ f.prec = 2 ^ (f.prec - 1) * 2 ^ 1 := by
            rw [← pow_add]
            congr 1
            omega
          rw [h1, ← h4]
        have hPle : ((2 ^ (f.prec - 1) : Nat) : ℚ) * 2 ^ (E + 1) ≤ (m1 : ℚ) * 2 ^ e1 := by
          rw [← hP]
          refine le_trans ?_ (FP.V_ge_pow m1 e1 hm1)
          push_cast
          rw [← zpow_natCast, ← zpow_add₀ (by norm_num : (2 : ℚ) ≠ 0)]
          exact zpow_le_zpow_right₀ (by norm_num) (by omega)
        have h3 := hlb1 (2 ^ (f.prec - 1)) (E + 1)
          (Nat.pow_lt_pow_right (by norm_num) (by omega)) (by omega) hPle
        rw [hEd1] at h3
        refine le_trans ?_ h3
        rw [← hP, FP.V_le_iff]
        exact hqle

/-- Rounding at one scale is monotone in the magnitude, whatever the sticky
bits. -/
theorem FP.round_mono_scale (f : Fmt) (neg : Bool) (m m1 : Nat) (e : Int) (st st1 : Bool)
    (B : Nat) (eB : Int) (hprec : 1 ≤ f.prec) (hB : B < 2 ^ f.prec)
    (hemin : f.emin ≤ eB) (hemax : eB ≤ f.emax) (hlt : m < m1)
    (hv : (m1 : ℚ) * 2 ^ e ≤ (B : ℚ) * 2 ^ eB) (q : Nat) (x : Int) (q1 : Nat) (x1 : Int)
    (hr : FP.round f neg m e st = FP.fin (FP.signed neg q) x)
    (hr1 : FP.round f neg m1 e st1 = FP.fin (FP.signed neg q1) x1) :
    (q : ℚ) * 2 ^ x ≤ (q1 : ℚ) * 2 ^ x1 := by
  obtain ⟨p, y, p1, y1, hp, hp1, hle⟩ := FP.round_mono_core f neg m e st m1 e st1 B eB hprec hB
    hemin hemax ((FP.V_le_iff m m1 e).mpr (le_of_lt hlt)) hv
    (fun _ _ _ _ _ => FP.roundQuot_mono m m1 _ st st1 hlt)
  obtain ⟨rfl, rfl⟩ := FP.fin_signed_inj neg _ _ _ _ (hr.symm.trans hp)
  obtain ⟨rfl, rfl⟩ := FP.fin_signed_inj neg _ _ _ _ (hr1.symm.trans hp1)
  exact hle

/-- Rounding is monotone in the value of the magnitude. -/
theorem FP.round_mono_value (f : Fmt) (neg : Bool) (m : Nat) (e : Int) (m1 : Nat) (e1 : Int)
    (B : Nat) (eB : Int) (hprec : 1 ≤ f.prec) (hB : B < 2 ^ f.prec)
    (hemin : f.emin ≤ eB) (hemax : eB ≤ f.emax)
    (hle : (m : ℚ) * 2 ^ e ≤ (m1 : ℚ) * 2 ^ e1) (hv : (m1 : ℚ) * 2 ^ e1 ≤ (B : ℚ) * 2 ^ eB)
    (q : Nat) (x : Int) (q1 : Nat) (x1 : Int)
    (hr : FP.round f neg m e false = FP.fin (FP.signed neg q) x)
    (hr1 : FP.round f neg m1 e1 false = FP.fin (FP.signed neg q1) x1) :
    (q : ℚ) * 2 ^ x ≤ (q1 : ℚ) * 2 ^ x1 := by
  suffices H : ∀ E : Int, e < E → e1 < E →
      E = max (e + (FP.bits m : Int) - (f.prec : Int)) f.emin →
      E = max (e1 + (FP.bits m1 : Int) - (f.prec : Int)) f.emin →
      FP.roundQuot m (E - e).toNat false ≤ FP.roundQuot m1 (E - e1).toNat false by
    obtain ⟨p, y, p1, y1, hp, hp1, hle1⟩ := FP.round_mono_core f neg m e false m1 e1 false B eB
      hprec hB hemin hemax hle hv H
    obtain ⟨rfl, rfl⟩ := FP.fin_signed_inj neg _ _ _ _ (hr.symm.trans hp)
    obtain ⟨rfl, rfl⟩ := FP.fin_signed_inj neg _ _ _ _ (hr1.symm.trans hp1)
    exact hle1
  intro E hE hE1 _ _
  have hsh : ((E - e).toNat : Int) = E - e := Int.toNat_of_nonneg (by omega)
  have hsh1 : ((E - e1).toNat : Int) = E - e1 := Int.toNat_of_nonneg (by omega)
  have hpos : 1 ≤ (E - e).toNat := by omega
  have hpos1 : 1 ≤ (E - e1).toNat := by omega
  rw [← FP.roundQuot_scale m (E - e).toNat (E - e1).toNat hpos,
    ← FP.roundQuot_scale m1 (E - e1).toNat (E - e).toNat hpos1,
    Nat.add_comm (E - e1).toNat (E - e).toNat]
  have hc : m * 2 ^ (E - e1).toNat ≤ m1 * 2 ^ (E - e).toNat := by
    rw [← FP.V_le_iff _ _ (e + e1 - E), ← FP.V_shift, ← FP.V_shift, hsh, hsh1]
    have h1 : e + e1 - E + (E - e1) = e := by omega
    have h2 : e + e1 - E + (E - e) = e1 := by omega
    rw [h1, h2]
    exact hle
  rcases eq_or_lt_of_le hc with heq | hlt
  · rw [heq]
  · exact FP.roundQuot_mono _ _ _ false false hlt

/-- The quotient of two natural magnitudes, as the rounding it ends in. -/
theorem FP.div_nat (f : Fmt) (a b : Nat) (ea eb : Int) (hb : b ≠ 0) :
    FP.div f (FP.fin (a : Int) ea) (FP.fin (b : Int) eb)
      = FP.round f false (a * 2 ^ (f.prec + 2 + FP.bits b) / b)
          (ea - eb - ((f.prec + 2 + FP.bits b : Nat) : Int))
          (decide (a * 2 ^ (f.prec + 2 + FP.bits b) % b ≠ 0)) := by
  have hb1 : (b : Int) ≠ 0 := by exact_mod_cast hb
  have ha : decide ((a : Int) < 0) = false := by simp
  have hbn : decide ((b : Int) < 0) = false := by simp
  simp only [FP.div, if_neg hb1, Int.natAbs_ofNat, ha, hbn, bne_self_eq_false]

/-- The sum of two natural magnitudes, as the rounding it ends in. -/
theorem FP.add_nat (f : Fmt) (a b : Nat) (ea eb : Int) :
    FP.add f (FP.fin (a : Int) ea) (FP.fin (b : Int) eb)
      = FP.round f false (a * 2 ^ (ea - min ea eb).toNat + b * 2 ^ (eb - min ea eb).toNat)
          (min ea eb) false := by
  have hs : FP.scaled a ea (min ea eb) + FP.scaled b eb (min ea eb)
      = ((a * 2 ^ (ea - min ea eb).toNat + b * 2 ^ (eb - min ea eb).toNat : Nat) : Int) := by
    simp only [FP.scaled]
    push_cast
    rfl
  show FP.round f (decide (FP.scaled a ea (min ea eb) + FP.scaled b eb (min ea eb) < 0))
    (FP.scaled a ea (min ea eb) + FP.scaled b eb (min ea eb)).natAbs (min ea eb) false = _
  rw [hs, Int.natAbs_ofNat]
  have h0 : decide (((a * 2 ^ (ea - min ea eb).toNat + b * 2 ^ (eb - min ea eb).toNat : Nat) : Int)
      < 0) = false := by
    rw [decide_eq_false_iff_not, not_lt]
    exact Int.ofNat_nonneg _
  rw [h0]

theorem FP.add_nat_value (a b : Nat) (ea eb : Int) :
    ((a * 2 ^ (ea - min ea eb).toNat + b * 2 ^ (eb - min ea eb).toNat : Nat) : ℚ)
        * 2 ^ (min ea eb)
      = (a : ℚ) * 2 ^ ea + (b : ℚ) * 2 ^ eb := by
  have h := FP.add_value a ea b eb
  simp only [FP.scaled] at h
  push_cast at h ⊢
  exact h

/-- Rounding a bounded magnitude gives a finite value that lies between the
representable numbers around the magnitude. -/
theorem FP.round_bounds_all (f : Fmt) (neg : Bool) (m : Nat) (e : Int) (sticky : Bool)
    (B : Nat) (eB : Int) (hprec : 1 ≤ f.prec) (hB : B < 2 ^ f.prec) (hemin : f.emin ≤ eB)
    (hemax : eB ≤ f.emax) (hv : (m : ℚ) * 2 ^ e ≤ (B : ℚ) * 2 ^ eB) :
    ∃ (q : Nat) (e1 : Int), FP.round f neg m e sticky = FP.fin (FP.signed neg q) e1 ∧
      (∀ (D : Nat) (eD : Int), D < 2 ^ f.prec → f.emin ≤ eD → eD ≤ f.emax →
        (m : ℚ) * 2 ^ e ≤ (D : ℚ) * 2 ^ eD → (q : ℚ) * 2 ^ e1 ≤ (D : ℚ) * 2 ^ eD) ∧
      ∀ (C : Nat) (eC : Int), C < 2 ^ f.prec → f.emin ≤ eC →
        (C : ℚ) * 2 ^ eC ≤ (m : ℚ) * 2 ^ e → (C : ℚ) * 2 ^ eC ≤ (q : ℚ) * 2 ^ e1 := by
  obtain ⟨q, e1, hr, -, hlb⟩ := FP.round_bounds f neg m e sticky B eB hprec hB hemin hemax hv
  refine ⟨q, e1, hr, fun D eD hD h1 h2 h3 => ?_, hlb⟩
  obtain ⟨p, y, hp, hub, -⟩ := FP.round_bounds f neg m e sticky D eD hprec hD h1 h2 h3
  obtain ⟨rfl, rfl⟩ := FP.fin_signed_inj neg _ _ _ _ (hr.symm.trans hp)
  exact hub

/-! ## The interpolated channel azimuth -/

/-- The offset `azi_diff * 3 * (channel_idx % 16) / 50` of a delta `d` in
0..35999: the two products are exact, so the offset is the quotient of the
integer `d * 3 * (channel_idx % 16)` by 50, rounded once. -/
theorem azimuth_offset_round (d : Nat) (hd : d ≤ 35999) (c : Fin 32) :
    FP.div binary32
        (FP.mul binary32
          (FP.mul binary32 (FP.fin (d : Int) 0) (FP.ofInt binary32 RS32_CHANNEL_TOFFSET))
          (FP.ofInt binary32 ((c.val : Int) % 16)))
        (FP.ofInt binary32 RS32_FIRING_TDURATION)
      = FP.round binary32 false (d * 3 * (c.val % 16) * 2 ^ 32 / 50) (-32)
          (decide (d * 3 * (c.val % 16) * 2 ^ 32 % 50 ≠ 0)) := by
  have h3 : FP.ofInt binary32 RS32_CHANNEL_TOFFSET = FP.fin 3 0 := by decide
  have h50 : FP.ofInt binary32 RS32_FIRING_TDURATION = FP.fin ((50 : Nat) : Int) 0 := by decide
  have hk : FP.ofInt binary32 ((c.val : Int) % 16) = FP.fin ((c.val : Int) % 16) 0 :=
    FP.ofInt_exact binary32 _ (by decide) (by decide)
      (lt_of_le_of_lt (show ((c.val : Int) % 16).natAbs ≤ 15 by omega) (by norm_num [binary32]))
  rw [h3, h50, hk]
  have hm1 : FP.mul binary32 (FP.fin (d : Int) 0) (FP.fin 3 0) = FP.fin ((d : Int) * 3) 0 := by
    have := FP.ofInt_exact binary32 ((d : Int) * 3) (by decide) (by decide)
      (lt_of_le_of_lt (show ((d : Int) * 3).natAbs ≤ 107997 by omega) (by norm_num [binary32]))
    simpa [FP.mul, FP.ofInt] using this
  have hN : ((d : Int) * 3 * ((c.val : Int) % 16)).natAbs ≤ 1619955 := by
    rw [Int.natAbs_mul]
    calc ((d : Int) * 3).natAbs * ((c.val : Int) % 16).natAbs ≤ 107997 * 15 :=
          Nat.mul_le_mul (by omega) (by omega)
      _ = 1619955 := by norm_num
  have hm2 : FP.mul binary32 (FP.fin ((d : Int) * 3) 0) (FP.fin ((c.val : Int) % 16) 0)
      = FP.fin ((d : Int) * 3 * ((c.val : Int) % 16)) 0 := by
    have := FP.ofInt_exact binary32 ((d : Int) * 3 * ((c.val : Int) % 16)) (by decide)
      (by decide) (lt_of_le_of_lt hN (by norm_num [binary32]))
    simpa [FP.mul, FP.ofInt] using this
  have hcast : (d : Int) * 3 * ((c.val : Int) % 16) = ((d * 3 * (c.val % 16) : Nat) : Int) := by
    push_cast
    rfl
  have hbits : binary32.prec + 2 + FP.bits 50 = 32 := by decide
  rw [hm1, hm2, hcast, FP.div_nat binary32 _ 50 0 0 (by norm_num), hbits]
  rfl

theorem FP.V_le_of_nat (x T : Nat) (e : Int) (j : Nat) (h : x ≤ T * 2 ^ j) :
    (x : ℚ) * 2 ^ e ≤ (T : ℚ) * 2 ^ (e + (j : Int)) := by
  rw [FP.V_shift, FP.V_le_iff]
  exact h

theorem FP.V_ge_of_nat (x T : Nat) (e : Int) (j : Nat) (h : T * 2 ^ j ≤ x) :
    (T : ℚ) * 2 ^ (e + (j : Int)) ≤ (x : ℚ) * 2 ^ e := by
  rw [FP.V_shift, FP.V_le_iff]
  exact h

/-- The channel azimuth of a block azimuth `a` in 0..65535 and a delta `d` in
0..35999 as two roundings: the offset `q * 2^x` is the rounded quotient of
`d * 3 * (channel_idx % 16)` by 50, and the azimuth is the rounded sum of `a`
and the offset. -/
theorem azimuth_channel_round (a d : Nat) (ha : a ≤ 65535) (hd : d ≤ 35999) (c : Fin 32) :
    ∃ (q : Nat) (x : Int),
      FP.round binary32 false (d * 3 * (c.val % 16) * 2 ^ 32 / 50) (-32)
          (decide (d * 3 * (c.val % 16) * 2 ^ 32 % 50 ≠ 0)) = FP.fin (q : Int) x ∧
      (∀ (D : Nat) (eD : Int), D < 2 ^ 24 → -149 ≤ eD → eD ≤ 104 →
        ((d * 3 * (c.val % 16) * 2 ^ 32 / 50 : Nat) : ℚ) * 2 ^ (-32 : Int) ≤ (D : ℚ) * 2 ^ eD →
        (q : ℚ) * 2 ^ x ≤ (D : ℚ) * 2 ^ eD) ∧
      (∀ (C : Nat) (eC : Int), C < 2 ^ 24 → -149 ≤ eC →
        (C : ℚ) * 2 ^ eC ≤ ((d * 3 * (c.val % 16) * 2 ^ 32 / 50 : Nat) : ℚ) * 2 ^ (-32 : Int) →
        (C : ℚ) * 2 ^ eC ≤ (q : ℚ) * 2 ^ x) ∧
      azimuth_channel a (FP.fin (d : Int) 0) c
        = FP.round binary32 false (a * 2 ^ (0 - min 0 x).toNat + q * 2 ^ (x - min 0 x).toNat)
            (min 0 x) false := by
  have hk : c.val % 16 ≤ 15 := by omega
  have hm : d * 3 * (c.val % 16) ≤ d * 3 * 15 := Nat.mul_le_mul_left _ hk
  have h232 : (2 : Nat) ^ 32 = 4294967296 := by norm_num
  have hM : d * 3 * (c.val % 16) * 2 ^ 32 / 50 ≤ 32768 * 2 ^ 32 := by
    rw [h232]
    omega
  obtain ⟨q, x, hq, hub, hlb⟩ := FP.round_bounds_all binary32 false
    (d * 3 * (c.val % 16) * 2 ^ 32 / 50) (-32)
    (decide (d * 3 * (c.val % 16) * 2 ^ 32 % 50 ≠ 0)) 32768 0 (by decide)
    (by norm_num [binary32]) (by decide) (by decide)
    (by
      have := FP.V_le_of_nat _ 32768 (-32) 32 hM
      simpa using this)
  have hsg : FP.signed false q = (q : Int) := rfl
  rw [hsg] at hq
  refine ⟨q, x, hq, hub, hlb, ?_⟩
  have ha0 : FP.ofInt binary32 (a : Int) = FP.fin (a : Int) 0 :=
    FP.ofInt_exact binary32 _ (by decide) (by decide)
      (lt_of_le_of_lt (show (a : Int).natAbs ≤ 65535 by omega) (by norm_num [binary32]))
  unfold azimuth_channel
  rw [azimuth_offset_round d hd c, hq, ha0, FP.add_nat]

/-- Integer bounds on the 32-bit quotient `m * 2^32 / 50` of the offset for
`m = d * 3 * k`, `d` in 0..35999 and `k` in 0..15. -/
theorem offset_quotient_facts (d k : Nat) (hd : d ≤ 35999) (hk : k ≤ 15) :
    d * 3 * k ≤ 45 * d ∧
    d * 3 * k * 2 ^ 32 / 50 ≤ d * 2 ^ 32 ∧
    d * 3 * k * 2 ^ 32 / 50 ≤ (d * 3 * k * 512 + 49) / 50 * 2 ^ 23 ∧
    d * 3 * k * 512 / 50 * 2 ^ 23 ≤ d * 3 * k * 2 ^ 32 / 50 ∧
    (0 < d → d * 3 * k * 2 ^ 32 / 50 ≤ (128 * d - 1) * 2 ^ 25) ∧
    (k = 0 → d * 3 * k * 2 ^ 32 / 50 = 0) ∧
    (d * 3 * k * 512 + 49) / 50 < 16777216 ∧
    d * 3 * k * 2 ^ 32 / 50 ≤ 32768 * 2 ^ 32 := by
  have hm : d * 3 * k ≤ d * 3 * 15 := Nat.mul_le_mul_left _ hk
  have h0 : k = 0 → d * 3 * k = 0 := fun h => by rw [h]; rfl
  generalize d * 3 * k = m at hm h0 ⊢
  norm_num
  refine ⟨by omega, by omega, by omega, by omega, fun h => by omega, fun h => ?_, by omega,
    by omega⟩
  have := h0 h
  omega

/-- The value of the channel azimuth for a block azimuth `a` in 0..65535 and
a delta `d` in 0..35999: it is finite and not negative, lies between `a` and
`a + d` (below `a + d` when `d > 0`), equals `a` when `channel_idx % 16` is
zero, and differs from `a + d * 3 * (channel_idx % 16) / 50` by at most
1/128. -/
theorem azimuth_channel_value (a d : Nat) (ha : a ≤ 65535) (hd : d ≤ 35999) (c : Fin 32) :
    ∃ (n : Nat) (e : Int), azimuth_channel a (FP.fin (d : Int) 0) c = FP.fin (n : Int) e ∧
      (a : ℚ) ≤ (n : ℚ) * 2 ^ e ∧ (n : ℚ) * 2 ^ e ≤ (a : ℚ) + d ∧
      (0 < d → (n : ℚ) * 2 ^ e < (a : ℚ) + d) ∧
      (c.val % 16 = 0 → (n : ℚ) * 2 ^ e = a) ∧
      (a : ℚ) + ((d * 3 * (c.val % 16) : Nat) : ℚ) / 50 - 1 / 128 ≤ (n : ℚ) * 2 ^ e ∧
      (n : ℚ) * 2 ^ e ≤ (a : ℚ) + ((d * 3 * (c.val % 16) : Nat) : ℚ) / 50 + 1 / 128 := by
  have hk : c.val % 16 ≤ 15 := by omega
  obtain ⟨hm45, hMd, hMB, hMC, hMs, hM0, hBlt, -⟩ := offset_quotient_facts d (c.val % 16) hd hk
  obtain ⟨q, x, -, hqub, hqlb, haz⟩ := azimuth_channel_round a d ha hd c
  generalize d * 3 * (c.val % 16) * 2 ^ 32 / 50 = M at hMd hMB hMC hMs hM0 hqub hqlb
  generalize d * 3 * (c.val % 16) = m at hm45 hMB hMC hBlt ⊢
  have hq0 : (0 : ℚ) ≤ (q : ℚ) * 2 ^ x :=
    mul_nonneg (Nat.cast_nonneg _) (le_of_lt (zpow_pos (by norm_num) _))
  -- bounds on the offset
  have hqd : (q : ℚ) * 2 ^ x ≤ (d : ℚ) := by
    have h := hqub d 0 (by omega) (by norm_num) (by norm_num)
      (by simpa using FP.V_le_of_nat M d (-32) 32 hMd)
    simpa using h
  have hqB : (q : ℚ) * 2 ^ x ≤ (((m * 512 + 49) / 50 : Nat) : ℚ) * 2 ^ (-9 : Int) :=
    hqub _ (-9) hBlt (by norm_num) (by norm_num)
      (by simpa using FP.V_le_of_nat M ((m * 512 + 49) / 50) (-32) 23 hMB)
  have hqC : (((m * 512 / 50 : Nat) : ℚ)) * 2 ^ (-9 : Int) ≤ (q : ℚ) * 2 ^ x :=
    hqlb _ (-9) (by omega) (by norm_num)
      (by simpa using FP.V_ge_of_nat M (m * 512 / 50) (-32) 23 hMC)
  -- the sum
  have hS := FP.add_nat_value a q 0 x
  rw [zpow_zero, mul_one] at hS
  rw [haz]
  generalize a * 2 ^ (0 - min 0 x).toNat + q * 2 ^ (x - min 0 x).toNat = S at hS ⊢
  obtain ⟨n, y, hn, hnub, hnlb⟩ := FP.round_bounds_all binary32 false S (min 0 x) false 131072 0
    (by decide) (by norm_num [binary32]) (by decide) (by decide)
    (by
      rw [hS]
      have : (a : ℚ) ≤ 65535 := by exact_mod_cast ha
      have : (d : ℚ) ≤ 35999 := by exact_mod_cast hd
      norm_num
      linarith)
  have hsg : FP.signed false n = (n : Int) := rfl
  rw [hsg] at hn
  replace hnub : ∀ (D : Nat) (eD : Int), D < 2 ^ 24 → -149 ≤ eD → eD ≤ 104 →
      (S : ℚ) * 2 ^ (min 0 x) ≤ (D : ℚ) * 2 ^ eD → (n : ℚ) * 2 ^ y ≤ (D : ℚ) * 2 ^ eD := hnub
  replace hnlb : ∀ (C : Nat) (eC : Int), C < 2 ^ 24 → -149 ≤ eC →
      (C : ℚ) * 2 ^ eC ≤ (S : ℚ) * 2 ^ (min 0 x) → (C : ℚ) * 2 ^ eC ≤ (n : ℚ) * 2 ^ y := hnlb
  have ha1 : (a : ℚ) ≤ 65535 := by exact_mod_cast ha
  have hd1 : (d : ℚ) ≤ 35999 := by exact_mod_cast hd
  refine ⟨n, y, hn, ?_, ?_, fun hpos => ?_, fun h0 => ?_, ?_, ?_⟩
  · have h := hnlb a 0 (by omega) (by norm_num)
      (by rw [hS]; simpa using hq0)
    simpa using h
  · have h := hnub (a + d) 0 (by omega) (by norm_num) (by norm_num)
      (by rw [hS]; push_cast; simpa using hqd)
    simpa using h
  · have hq7 : (q : ℚ) * 2 ^ x ≤ ((128 * d - 1 : Nat) : ℚ) * 2 ^ (-7 : Int) :=
      hqub _ (-7) (by omega) (by norm_num) (by norm_num)
        (by simpa using FP.V_le_of_nat M (128 * d - 1) (-32) 25 (hMs hpos))
    have hc1 : ((128 * d - 1 : Nat) : ℚ) = 128 * (d : ℚ) - 1 := by
      rw [Nat.cast_sub (by omega)]
      push_cast
      ring
    have hc2 : ((128 * (a + d) - 1 : Nat) : ℚ) = 128 * ((a : ℚ) + d) - 1 := by
      rw [Nat.cast_sub (by omega)]
      push_cast
      ring
    have h := hnub (128 * (a + d) - 1) (-7) (by omega) (by norm_num) (by norm_num)
      (by
        rw [hS, hc2]
        rw [hc1] at hq7
        norm_num at hq7 ⊢
        linarith)
    rw [hc2] at h
    norm_num at h
    linarith
  · have hq00 : (q : ℚ) * 2 ^ x ≤ 0 := by
      have h := hqub 0 0 (by norm_num) (by norm_num) (by norm_num)
        (by rw [hM0 h0]; simp)
      simpa using h
    have h1 := hnub a 0 (by omega) (by norm_num) (by norm_num)
      (by rw [hS]; simpa using hq00)
    have h2 := hnlb a 0 (by omega) (by norm_num) (by rw [hS]; simpa using hq0)
    simp only [zpow_zero, mul_one] at h1 h2
    exact le_antisymm h1 h2
  · have hC4 : 4 * (m * 512 / 50 / 4) + 3 ≥ m * 512 / 50 := by omega
    have hC50 : 50 * (m * 512 / 50) + 49 ≥ m * 512 := by omega
    have hC4q : 4 * (((m * 512 / 50 / 4 : Nat)) : ℚ) + 3 ≥ ((m * 512 / 50 : Nat) : ℚ) := by
      exact_mod_cast hC4
    have hC50q : 50 * ((m * 512 / 50 : Nat) : ℚ) + 49 ≥ (m : ℚ) * 512 := by
      exact_mod_cast hC50
    have h := hnlb (a * 128 + m * 512 / 50 / 4) (-7) (by omega) (by norm_num)
      (by
        rw [hS]
        push_cast
        have hC4' : 4 * (((m * 512 / 50 / 4 : Nat)) : ℚ) ≤ ((m * 512 / 50 : Nat) : ℚ) := by
          exact_mod_cast (show 4 * (m * 512 / 50 / 4) ≤ m * 512 / 50 by omega)
        norm_num at hqC ⊢
        linarith)
    push_cast at h
    norm_num at h
    linarith
  · have hB4 : 4 * (((m * 512 + 49) / 50 + 3) / 4) ≤ (m * 512 + 49) / 50 + 3 := by omega
    have hB50 : 50 * ((m * 512 + 49) / 50) ≤ m * 512 + 49 := by omega
    have hB4q : 4 * (((((m * 512 + 49) / 50 + 3) / 4 : Nat)) : ℚ)
        ≤ (((m * 512 + 49) / 50 : Nat) : ℚ) + 3 := by exact_mod_cast hB4
    have hB50q : 50 * (((m * 512 + 49) / 50 : Nat) : ℚ) ≤ (m : ℚ) * 512 + 49 := by
      exact_mod_cast hB50
    have h := hnub (a * 128 + ((m * 512 + 49) / 50 + 3) / 4) (-7) (by omega) (by norm_num)
      (by norm_num)
      (by
        rw [hS]
        push_cast
        have hB4' : (((m * 512 + 49) / 50 : Nat) : ℚ)
            ≤ 4 * (((((m * 512 + 49) / 50 + 3) / 4 : Nat)) : ℚ) := by
          exact_mod_cast (show (m * 512 + 49) / 50 ≤ 4 * (((m * 512 + 49) / 50 + 3) / 4) by omega)
        norm_num at hqB ⊢
        linarith)
    push_cast at h
    norm_num at h
    linarith

/-- The channel azimuth does not decrease with `channel_idx % 16`. -/
theorem azimuth_channel_mono (a d : Nat) (ha : a ≤ 65535) (hd : d ≤ 35999) (c c2 : Fin 32)
    (hle : c.val % 16 ≤ c2.val % 16) :
    FP.le (azimuth_channel a (FP.fin (d : Int) 0) c)
      (azimuth_channel a (FP.fin (d : Int) 0) c2) = true := by
  obtain ⟨-, hMd2, -, -, -, -, -, hM32⟩ := offset_quotient_facts d (c2.val % 16) hd (by omega)
  obtain ⟨q, x, hq, -, -, haz⟩ := azimuth_channel_round a d ha hd c
  obtain ⟨q2, x2, hq2, hqub2, -, haz2⟩ := azimuth_channel_round a d ha hd c2
  have hqd2 : (q2 : ℚ) * 2 ^ x2 ≤ (d : ℚ) := by
    have h := hqub2 d 0 (by omega) (by norm_num) (by norm_num)
      (by simpa using FP.V_le_of_nat _ d (-32) 32 hMd2)
    simpa using h
  have hm : d * 3 * (c.val % 16) ≤ d * 3 * (c2.val % 16) := Nat.mul_le_mul_left _ hle
  have hqle : (q : ℚ) * 2 ^ x ≤ (q2 : ℚ) * 2 ^ x2 := by
    rcases eq_or_lt_of_le hm with heq | hlt
    · rw [heq, hq2] at hq
      injection hq with h1 h2
      rw [← Int.ofNat.inj h1, ← h2]
    · have hM : d * 3 * (c.val % 16) * 2 ^ 32 / 50 < d * 3 * (c2.val % 16) * 2 ^ 32 / 50 := by
        generalize d * 3 * (c.val % 16) = m at hlt ⊢
        generalize d * 3 * (c2.val % 16) = m2 at hlt ⊢
        norm_num
        omega
      exact FP.round_mono_scale binary32 false _ _ (-32) _ _ 32768 0 (by decide)
        (by norm_num [binary32]) (by decide) (by decide) hM
        (by
          have h := FP.V_le_of_nat _ 32768 (-32) 32 hM32
          simpa using h)
        q x q2 x2 hq hq2
  have hS := FP.add_nat_value a q 0 x
  have hS2 := FP.add_nat_value a q2 0 x2
  rw [zpow_zero, mul_one] at hS hS2
  rw [haz, haz2]
  generalize a * 2 ^ (0 - min 0 x).toNat + q * 2 ^ (x - min 0 x).toNat = S at hS ⊢
  generalize a * 2 ^ (0 - min 0 x2).toNat + q2 * 2 ^ (x2 - min 0 x2).toNat = S2 at hS2 ⊢
  have ha1 : (a : ℚ) ≤ 65535 := by exact_mod_cast ha
  have hd1 : (d : ℚ) ≤ 35999 := by exact_mod_cast hd
  have hv2 : (S2 : ℚ) * 2 ^ (min 0 x2) ≤ ((131072 : Nat) : ℚ) * 2 ^ (0 : Int) := by
    rw [hS2]
    norm_num
    linarith
  have hSle : (S : ℚ) * 2 ^ (min 0 x) ≤ (S2 : ℚ) * 2 ^ (min 0 x2) := by
    rw [hS, hS2]
    linarith
  obtain ⟨n, y, hn, -, -⟩ := FP.round_bounds_all binary32 false S (min 0 x) false 131072 0
    (by decide) (by norm_num [binary32]) (by decide) (by decide) (le_trans hSle hv2)
  obtain ⟨n2, y2, hn2, -, -⟩ := FP.round_bounds_all binary32 false S2 (min 0 x2) false 131072 0
    (by decide) (by norm_num [binary32]) (by decide) (by decide) hv2
  have h := FP.round_mono_value binary32 false S (min 0 x) S2 (min 0 x2) 131072 0 (by decide)
    (by norm_num [binary32]) (by decide) (by decide) hSle hv2 n y n2 y2 hn hn2
  rw [hn, hn2]
  have hsg : ∀ k : Nat, FP.signed false k = (k : Int) := fun _ => rfl
  rw [hsg, hsg, FP.le_fin_iff]
  push_cast
  exact h

/-- The two products of the channel-azimuth expression are exact: the channel
azimuth is the block azimuth plus the quotient of `d * 3 * (channel_idx % 16)`
by 50. -/
theorem azimuth_channel_formula (a d : Nat) (ha : a ≤ 65535) (hd : d ≤ 35999) (c : Fin 32) :
    azimuth_channel a (FP.fin (d : Int) 0) c
      = FP.add binary32 (FP.fin (a : Int) 0)
          (FP.div binary32 (FP.fin ((d * 3 * (c.val % 16) : Nat) : Int) 0)
            (FP.fin ((50 : Nat) : Int) 0)) := by
  have ha0 : FP.ofInt binary32 (a : Int) = FP.fin (a : Int) 0 :=
    FP.ofInt_exact binary32 _ (by decide) (by decide)
      (lt_of_le_of_lt (show (a : Int).natAbs ≤ 65535 by omega) (by norm_num [binary32]))
  have hbits : binary32.prec + 2 + FP.bits 50 = 32 := by decide
  unfold azimuth_channel
  rw [azimuth_offset_round d hd c, ha0, FP.div_nat binary32 _ 50 0 0 (by norm_num), hbits]
  rfl

/-- C16, amended: for every block, with `a` the block azimuth and `d >= 0`
the delta, the channel azimuth is the `float` sum of `a` and the `float`
quotient of the exact product `d * 3 * (c mod 16)` by 50.  Channels with the
same `c mod 16` (so `c` and `c + 16`) get the same azimuth, channels 0 and 16
get exactly `a`, and the azimuth does not decrease with `c mod 16`.  Its
value lies between `a` and `a + d`, strictly below `a + d` when `d > 0`, and
within 1/128 of `a + d * 3 * (c mod 16) / 50`, hence at most
`a + 0.9 * d + 1/128`. -/
theorem azimuth_channel_interpolation (ext : External) (self : DecoderBase) (pkt : RS32MsopPkt)
    (blk : Fin 12) (c c2 : Fin 32) (hd : 0 ≤ azi_diff_int ext self pkt blk) :
    let a : Nat := RS_SWAP_SHORT (pkt.blocks blk).azimuth
    let d : Int := azi_diff_int ext self pkt blk
    let az : Fin 32 → FP := azimuth_channel a (azi_diff ext self pkt blk)
    az c = FP.add binary32 (FP.fin a 0)
        (FP.div binary32 (FP.fin (d * 3 * ((c.val % 16 : Nat) : Int)) 0) (FP.fin 50 0)) ∧
    (c.val % 16 = c2.val % 16 → az c = az c2) ∧
    (c.val % 16 ≤ c2.val % 16 → FP.le (az c) (az c2) = true) ∧
    ∃ (n : Nat) (e : Int), az c = FP.fin n e ∧
      (a : ℚ) ≤ (n : ℚ) * 2 ^ e ∧ (n : ℚ) * 2 ^ e ≤ (a : ℚ) + d ∧
      (0 < d → (n : ℚ) * 2 ^ e < (a : ℚ) + d) ∧
      (c.val % 16 = 0 → (n : ℚ) * 2 ^ e = a) ∧
      (a : ℚ) + (d : ℚ) * 3 * ((c.val % 16 : Nat) : ℚ) / 50 - 1 / 128 ≤ (n : ℚ) * 2 ^ e ∧
      (n : ℚ) * 2 ^ e ≤ (a : ℚ) + (d : ℚ) * 3 * ((c.val % 16 : Nat) : ℚ) / 50 + 1 / 128 ∧
      (n : ℚ) * 2 ^ e ≤ (a : ℚ) + 9 / 10 * (d : ℚ) + 1 / 128 := by
  intro a d az
  have ha : a ≤ 65535 := by
    have := (pkt.blocks blk).azimuth.isLt
    show RS_SWAP_SHORT (pkt.blocks blk).azimuth ≤ 65535
    unfold RS_SWAP_SHORT
    omega
  have hdb := azi_diff_int_bounds ext self pkt blk
  obtain ⟨dn, hdn⟩ := Int.eq_ofNat_of_zero_le hd
  have hd35 : dn ≤ 35999 := by omega
  have haz : az = azimuth_channel a (FP.fin (dn : Int) 0) := by
    show azimuth_channel a (azi_diff ext self pkt blk) = _
    rw [azi_diff_eq, hdn]
  have hdd : d = (dn : Int) := hdn
  have hk : c.val % 16 ≤ 15 := by omega
  rw [haz, hdd]
  refine ⟨?_, fun h => ?_, fun h => azimuth_channel_mono a dn ha hd35 c c2 h, ?_⟩
  · rw [azimuth_channel_formula a dn ha hd35 c]
    push_cast
    rfl
  · unfold azimuth_channel
    rw [show ((c.val : Int) % 16) = ((c2.val : Int) % 16) by omega]
  · obtain ⟨n, e, hn, h1, h2, h3, h4, h5, h6⟩ := azimuth_channel_value a dn ha hd35 c
    have hkq : ((c.val % 16 : Nat) : ℚ) ≤ 15 := by exact_mod_cast hk
    have hd0 : (0 : ℚ) ≤ (dn : ℚ) := Nat.cast_nonneg _
    push_cast at h5 h6 ⊢
    refine ⟨n, e, hn, h1, h2, fun hp => h3 (by exact_mod_cast hp), h4, h5, h6, ?_⟩
    have : (dn : ℚ) * 3 * ((c.val % 16 : Nat) : ℚ) ≤ (dn : ℚ) * 3 * 15 :=
      mul_le_mul_of_nonneg_left hkq (by positivity)
    linarith

/-- C16 at block 0 of the scenario packet (azimuth 0, delta 300): channels 5
and 21 get the same azimuth, and channel 5 does not exceed channel 22. -/
theorem azimuth_channel_interpolation_sample :
    azimuth_channel (RS_SWAP_SHORT (scenarioPkt.blocks 0).azimuth)
        (azi_diff sampleExt sampleBase scenarioPkt 0) 5
      = azimuth_channel (RS_SWAP_SHORT (scenarioPkt.blocks 0).azimuth)
        (azi_diff sampleExt sampleBase scenarioPkt 0) 21 ∧
    FP.le (azimuth_channel (RS_SWAP_SHORT (scenarioPkt.blocks 0).azimuth)
        (azi_diff sampleExt sampleBase scenarioPkt 0) 5)
      (azimuth_channel (RS_SWAP_SHORT (scenarioPkt.blocks 0).azimuth)
        (azi_diff sampleExt sampleBase scenarioPkt 0) 22) = true :=
  ⟨(azimuth_channel_interpolation sampleExt sampleBase scenarioPkt 0 5 21 (by decide)).2.1
      (by decide),
    (azimuth_channel_interpolation sampleExt sampleBase scenarioPkt 0 5 22 (by decide)).2.2.1
      (by decide)⟩

/-- The bound `a + 0.9 * d` of C16 fails in `float` arithmetic: in block 0 of
the slow packet (azimuth 0, delta 3) channel 15 gets 135.0f / 50 =
11324621 * 2^-22, which is above 2.7. -/
theorem azimuth_channel_above_bound_counterexample :
    RS_SWAP_SHORT (slowPkt.blocks 0).azimuth = 0 ∧
    azi_diff_int sampleExt sampleBase slowPkt 0 = 3 ∧
    azimuth_channel (RS_SWAP_SHORT (slowPkt.blocks 0).azimuth)
        (azi_diff sampleExt sampleBase slowPkt 0) 15 = FP.fin 11324621 (-22) ∧
    (0 : ℚ) + 9 / 10 * 3 < (11324621 : ℚ) * 2 ^ (-22 : Int) := by
  refine ⟨by decide, by decide, by decide, by norm_num⟩

end RS32
